import Mathlib

/-!
# Oblivious primitives (`src/common/obl_primitives.cc`)

A shallow embedding of the data-oblivious primitives of secure-xgboost and a
verification of their contracts.

Machine integers are natural numbers holding the register bit pattern
(`x < 2 ^ w`); signed values are read through `toSigned`, and a `double` is its
64-bit IEEE-754 encoding.  Memory objects are lists of bytes; an access outside
the object is undefined behaviour and is modelled by `none`.  Unsigned
arithmetic wraps modulo `2 ^ w`; the overflow of a signed `int` counter is
undefined behaviour and gives `none` as well.  Loops take a `fuel` bounding the
evaluations of their test and return `none` when it runs out.
-/

namespace Obl

/-! ## Machine integers and the `cmp` instruction -/

/-- Most significant bit of the `w`-bit pattern `x`. -/
def msb (w x : Nat) : Bool := decide (2 ^ (w - 1) ≤ x % 2 ^ w)

/-- Two's-complement value of the `w`-bit pattern `x`. -/
def toSigned (w x : Nat) : Int :=
  if x % 2 ^ w < 2 ^ (w - 1) then ((x % 2 ^ w : Nat) : Int) else ((x % 2 ^ w : Nat) : Int) - 2 ^ w

/-- Bit pattern of the integer `v` in a `w`-bit register. -/
def ofInt (w : Nat) (v : Int) : Nat := (v % 2 ^ w).toNat

/-- The x86 status flags written by an arithmetic instruction. -/
structure Flags where
  zf : Bool
  sf : Bool
  cf : Bool
  ovf : Bool
  deriving DecidableEq, Repr

/-- Flags of `cmp %2, %1` (AT&T operand order) at width `w` with `%1 = x` and `%2 = y`:
the flags of the subtraction `x - y`, whose result is discarded. -/
def cmp (w x y : Nat) : Flags :=
  let r := (x % 2 ^ w + (2 ^ w - y % 2 ^ w)) % 2 ^ w
  { zf := decide (r = 0)
    sf := msb w r
    cf := decide (x % 2 ^ w < y % 2 ^ w)
    ovf := (msb w x != msb w y) && (msb w r != msb w x) }

/-- Value written by a `setcc` instruction: the condition as a byte. -/
def setcc (c : Bool) : Nat := if c then 1 else 0

/-- `ObliviousGreater<T>`: `cmp %2, %1; setg %0` (`setg`: ZF = 0 and SF = OF). -/
def ObliviousGreater (w x y : Nat) : Nat :=
  let fl := cmp w x y
  setcc (!fl.zf && (fl.sf == fl.ovf))

/-- `ObliviousGreaterOrEqual<T>`: `cmp %2, %1; setge %0` (`setge`: SF = OF). -/
def ObliviousGreaterOrEqual (w x y : Nat) : Nat :=
  let fl := cmp w x y
  setcc (fl.sf == fl.ovf)

/-- `ObliviousEqual<T>`: `cmp %2, %1; sete %0` (`sete`: ZF = 1). -/
def ObliviousEqual (w x y : Nat) : Nat :=
  let fl := cmp w x y
  setcc fl.zf

/-- `ObliviousLess<T>`: `cmp %2, %1; setl %0` (`setl`: SF ≠ OF). -/
def ObliviousLess (w x y : Nat) : Nat :=
  let fl := cmp w x y
  setcc (fl.sf != fl.ovf)

/-- `ObliviousLessOrEqual<T>`: `cmp %2, %1; setle %0` (`setle`: ZF = 1 or SF ≠ OF). -/
def ObliviousLessOrEqual (w x y : Nat) : Nat :=
  let fl := cmp w x y
  setcc (fl.zf || (fl.sf != fl.ovf))

/-- `ObliviousAssign<T>` on a `w`-bit register type: `mov %2, %0; test %1, %1; cmovz %3, %0`,
then `*out = result`.  `test pred, pred` sets ZF exactly when `pred` is zero; the function
returns the value stored to `*out`. -/
def ObliviousAssign (w pred t_val f_val : Nat) : Nat :=
  let result := t_val % 2 ^ w
  let zf := decide (pred % 256 = 0)
  if zf then f_val % 2 ^ w else result

/-! ## Memory objects and oblivious selection -/

/-- Value of a little-endian byte string. -/
def leValue : List Nat → Nat
  | [] => 0
  | b :: bs => b + 256 * leValue bs

/-- The `k` low-order bytes of `v`, little-endian. -/
def leBytes : Nat → Nat → List Nat
  | 0, _ => []
  | k + 1, v => v % 256 :: leBytes k (v / 256)

/-- Read of a `k`-byte integer at byte offset `off` of the object `mem`
(`*((uintN_t*) p)`); `none` when the access leaves the object. -/
def load (mem : List Nat) (off k : Nat) : Option Nat :=
  if off + k ≤ mem.length then some (leValue ((mem.drop off).take k)) else none

/-- Write of the `k`-byte integer `v` at byte offset `off` of the object `mem`;
`none` when the access leaves the object. -/
def store (mem : List Nat) (off k v : Nat) : Option (List Nat) :=
  if off + k ≤ mem.length then some (mem.take off ++ leBytes k v ++ mem.drop (off + k)) else none

/-- One call `ObliviousAssign(pred, *((uintW_t*)t), *((uintW_t*)f), (uintW_t*)res)` of
`ObliviousAssignEx`, the three cursors `t`, `f` and `res` all being at offset `off` of
their objects (they start at offset 0 and advance together). -/
def assignChunk (w : Nat) (pred : Bool) (t_val f_val : List Nat) (off : Nat) (out : List Nat) :
    Option (List Nat) :=
  match load t_val off (w / 8), load f_val off (w / 8) with
  | some tv, some fv => store out off (w / 8) (ObliviousAssign w pred.toNat tv fv)
  | _, _ => none

/-- The loop `for (i = 0; i < num_8_iter; i++)` of `ObliviousAssignEx`: `iters` remaining
iterations from cursor offset `off`; returns the object written and the final offset. -/
def assignLoop8 (pred : Bool) (t_val f_val : List Nat) :
    Nat → Nat → List Nat → Option (List Nat × Nat)
  | 0, off, out => some (out, off)
  | iters + 1, off, out =>
    match assignChunk 64 pred t_val f_val off out with
    | some out1 => assignLoop8 pred t_val f_val iters (off + 8) out1
    | none => none

/-- `ObliviousAssignEx(pred, t_val, f_val, bytes, out)`: 8-byte chunks, then a 4-byte chunk
when `(bytes % 8) / 4` is non-zero, a 2-byte chunk when `(bytes % 4) / 2` is non-zero, and
for a trailing byte (`bytes % 2`) one more 16-bit `ObliviousAssign` at the cursor. -/
def ObliviousAssignEx (pred : Bool) (t_val f_val : List Nat) (bytes : Nat) (out : List Nat) :
    Option (List Nat) :=
  match assignLoop8 pred t_val f_val (bytes / 8) 0 out with
  | none => none
  | some (out8, off8) =>
    let r4 := if (bytes % 8) / 4 ≠ 0 then
        (assignChunk 32 pred t_val f_val off8 out8).map (fun o => (o, off8 + 4))
      else some (out8, off8)
    match r4 with
    | none => none
    | some (out4, off4) =>
      let r2 := if (bytes % 4) / 2 ≠ 0 then
          (assignChunk 16 pred t_val f_val off4 out4).map (fun o => (o, off4 + 2))
        else some (out4, off4)
      match r2 with
      | none => none
      | some (out2, off2) =>
        if bytes % 2 ≠ 0 then assignChunk 16 pred t_val f_val off2 out2 else some out2

/-- `ObliviousChoose(pred, t_val, f_val)` for a POD type of `sizeof(T) = t_val.length` bytes:
`ObliviousAssignEx` into a local `result` object (whose initial bytes are never read). -/
def ObliviousChoose (pred : Bool) (t_val f_val : List Nat) : Option (List Nat) :=
  ObliviousAssignEx pred t_val f_val t_val.length (List.replicate t_val.length 0)


/-! ## Oblivious array access and assignment -/

/-- Conversion of an `int` (32-bit pattern) to `size_t`: sign extension to 64 bits, as in
the comparison `j < n` of an `int` with a `size_t`. -/
def intToSize (j : Nat) : Nat :=
  if j % 2 ^ 32 < 2 ^ 31 then j % 2 ^ 32 else j % 2 ^ 32 + (2 ^ 64 - 2 ^ 32)

/-- Division of two `int`s (32-bit patterns), truncating toward zero. -/
def intDiv (a b : Nat) : Nat := ofInt 32 (Int.tdiv (toSigned 32 a) (toSigned 32 b))

/-- `ObliviousChoose` instantiated at `int`: the two 4-byte objects are selected bytewise. -/
def ObliviousChooseInt (pred : Bool) (t_val f_val : Nat) : Option Nat :=
  (ObliviousChoose pred (leBytes 4 t_val) (leBytes 4 f_val)).map leValue

/-- Element `arr[pos]` for an `int` index `pos` (32-bit pattern); `none` when the index is
negative or not below the length of the array. -/
def elemAt {α : Type} (arr : List α) (pos : Nat) : Option α :=
  if pos % 2 ^ 32 < 2 ^ 31 then arr[pos % 2 ^ 32]? else none

/-- `int step = sizeof(T) < CACHE_LINE_SIZE ? CACHE_LINE_SIZE / sizeof(T) : 1`, with the
cache-line constant `cl` of the header and `size = sizeof(T)`. -/
def sweepStep (cl size : Nat) : Nat :=
  if size < cl then (cl / size) % 2 ^ 32 else 1

/-- Addition of two `int`s (32-bit patterns), as in `j += step`: signed overflow is undefined
behaviour, modelled by `none`. -/
def intAdd (a b : Nat) : Option Nat :=
  let s := toSigned 32 a + toSigned 32 b
  if -(2 : Int) ^ 31 ≤ s ∧ s < 2 ^ 31 then some (ofInt 32 s) else none

/-- The sweep `for (int j = 0; j < n; j += step)` of `ObliviousArrayAccess`, from the current
`j` and `result`; `trace` collects the element indices `pos` read so far.  Each evaluation of
the loop test uses one unit of `fuel`; the increment `j += step` is an `int` addition, which
is undefined when it overflows. -/
def accessLoop (step i n : Nat) (arr : List (List Nat)) :
    Nat → Nat → List Nat → List Nat → Option (List Nat × List Nat)
  | 0, _, _, _ => none
  | fuel + 1, j, result, trace =>
    if intToSize j < n then do
      let cond := ObliviousEqual 32 (intDiv j step) (intDiv i step) != 0
      let pos ← ObliviousChooseInt cond i j
      let e ← elemAt arr pos
      let r ← ObliviousChoose cond e result
      let j1 ← intAdd j step
      accessLoop step i n arr fuel j1 r (trace ++ [pos])
    else some (result, trace)

/-- `ObliviousArrayAccess(arr, i, n)` for elements of `size` bytes, together with the list of
element indices read (first `arr[0]`, then `arr[pos]` at every sweep step). -/
def ObliviousArrayAccessTraced (cl size : Nat) (arr : List (List Nat)) (i n : Nat) :
    Option (List Nat × List Nat) := do
  let result ← arr[0]?
  accessLoop (sweepStep cl size) i n arr (n + 1) 0 result [0]

/-- `ObliviousArrayAccess(arr, i, n)`: the value returned. -/
def ObliviousArrayAccess (cl size : Nat) (arr : List (List Nat)) (i n : Nat) :
    Option (List Nat) :=
  (ObliviousArrayAccessTraced cl size arr i n).map Prod.fst

/-- The sweep of `ObliviousArrayAssign`: `arr[pos] = ObliviousChoose(cond, val, arr[pos])`,
with the `int` counter `j` of `accessLoop` (`j += step` undefined on overflow). -/
def assignLoop (step i n : Nat) (val : List Nat) :
    Nat → Nat → List (List Nat) → Option (List (List Nat))
  | 0, _, _ => none
  | fuel + 1, j, arr =>
    if intToSize j < n then do
      let cond := ObliviousEqual 32 (intDiv j step) (intDiv i step) != 0
      let pos ← ObliviousChooseInt cond i j
      let e ← elemAt arr pos
      let r ← ObliviousChoose cond val e
      let j1 ← intAdd j step
      assignLoop step i n val fuel j1 (arr.set (pos % 2 ^ 32) r)
    else some arr

/-- `ObliviousArrayAssign(arr, i, n, val)`: the array after the call. -/
def ObliviousArrayAssign (cl size : Nat) (arr : List (List Nat)) (i n : Nat) (val : List Nat) :
    Option (List (List Nat)) :=
  assignLoop (sweepStep cl size) i n val (n + 1) 0 arr

/-- Cache lines (of `cl` bytes) holding the `size` bytes of the element at index `pos` of an
array at byte address `base`: the values `(base + pos * size + b) / cl` for `b < size`. -/
def linesOf (cl base size pos : Nat) : List Nat :=
  ((List.range size).map (fun b => (base + pos * size + b) / cl)).dedup

/-- Sequence of cache-line sets touched by the element reads of
`ObliviousArrayAccess(arr, i, n)`. -/
def accessLineTrace (cl base size : Nat) (arr : List (List Nat)) (i n : Nat) :
    Option (List (List Nat)) :=
  (ObliviousArrayAccessTraced cl size arr i n).map
    (fun r => r.2.map (linesOf cl base size))


/-- An array of objects of type `T` with `sizeof(T) = size`: every element is `size` bytes. -/
def WellFormed (size : Nat) (arr : List (List Nat)) : Prop :=
  ∀ e ∈ arr, e.length = size ∧ ∀ b ∈ e, b < 256

/-- Group numbers `j / step` of the iterations of a sweep continued from `j` (auxiliary
description of the loop `for (int j = ...; j < n; j += step)` used to state its trace). -/
def sweepGroups (st n : Nat) : Nat → Nat → List Nat
  | 0, _ => []
  | f + 1, j => if j < n ∧ j < 2 ^ 31 then (j / st) :: sweepGroups st n f (j + st) else []


/-! ## Oblivious bitonic sorter -/

/-- A C `for`/`while` loop over an unsigned counter: `for (c = c0; cond(c); c = next(c)) body`.
Every evaluation of the loop test uses one unit of `fuel`; `none` is returned when the fuel is
exhausted (the loop has not terminated) or when the body is undefined. -/
def forLoop {σ : Type} (cond : Nat → Bool) (next : Nat → Nat) (body : Nat → σ → Option σ) :
    Nat → Nat → σ → Option σ
  | 0, _, _ => none
  | fuel + 1, c, s =>
    if cond c then (body c s).bind (forLoop cond next body fuel (next c)) else some s

/-- Final counter value of `while (cond(c)) c = next(c);`. -/
def whileCounter (cond : Nat → Bool) (next : Nat → Nat) : Nat → Nat → Option Nat
  | 0, _ => none
  | fuel + 1, c => if cond c then whileCounter cond next fuel (next c) else some c

/-- `greatest_power_of_two_less_than(n)` on `uint32_t`:
`k = 1; while (k < n) k = k << 1; return k >> 1;`. -/
def greatest_power_of_two_less_than (fuel n : Nat) : Option Nat :=
  (whileCounter (fun k => decide (k < n)) (fun k => (k <<< 1) % 2 ^ 32) fuel 1).map (· >>> 1)

/-- The loop `while (n > 1) { k++; n /= 2; }` of `log2_ceil`, from the state `(k, n)`. -/
def log2Loop : Nat → Nat → Nat → Option Nat
  | 0, _, _ => none
  | fuel + 1, k, n => if n > 1 then log2Loop fuel ((k + 1) % 2 ^ 32) (n / 2) else some k

/-- `log2_ceil(n)` on `uint32_t`; the test `(1 << k) < _n` compares in `unsigned`. -/
def log2_ceil (fuel n : Nat) : Option Nat :=
  (log2Loop fuel 0 n).map (fun k => if (1 <<< k) % 2 ^ 32 < n then (k + 1) % 2 ^ 32 else k)

/-- The predicate `pred = ObliviousEqual(pred, ascending)` of the comparators: both operands
are `bool`s held in 8-bit registers. -/
def swapPred (pred ascending : Bool) : Bool :=
  ObliviousEqual 8 pred.toNat ascending.toNat != 0

/-- The oblivious swap of the comparators,
`tmp = arr[i1]; arr[i1] = ObliviousChoose(pred, arr[i2], arr[i1]);
arr[i2] = ObliviousChoose(pred, tmp, arr[i2]);`. -/
def swapStep {α : Type} (choose : Bool → α → α → Option α) (arr : List α) (pred : Bool)
    (i1 i2 : Nat) : Option (List α) := do
  let tmp ← arr[i1]?
  let a2 ← arr[i2]?
  let a1 ← arr[i1]?
  let n1 ← choose pred a2 a1
  let arr1 := arr.set i1 n1
  let b2 ← arr1[i2]?
  let n2 ← choose pred tmp b2
  some (arr1.set i2 n2)

/-- One comparator: `pred = greater(arr[p], arr[q]); pred = ObliviousEqual(pred, ascending);`
followed by the oblivious swap of positions `i1` and `i2`. -/
def comparator {α : Type} (greater : α → α → Bool) (choose : Bool → α → α → Option α)
    (ascending : Bool) (arr : List α) (p q i1 i2 : Nat) : Option (List α) := do
  let x ← arr[p]?
  let y ← arr[q]?
  swapStep choose arr (swapPred (greater x y) ascending) i1 i2

/-- Body of the innermost loop of `imperative_o_sort` on the sub-array starting at `base`
(the pointer `arr + low`), for the loop counters `k`, `j`, `i`. -/
def sortBody {α : Type} (greater : α → α → Bool) (choose : Bool → α → α → Option α)
    (base : Nat) (ascending : Bool) (k j i : Nat) (arr : List α) : Option (List α) :=
  let ij := i ^^^ j
  if ij > i then
    if i &&& k = 0 then
      comparator greater choose ascending arr (base + i) (base + ij) (base + i) (base + ij)
    else
      comparator greater choose ascending arr (base + ij) (base + i) (base + i) (base + ij)
  else some arr

/-- The template `imperative_o_sort(arr + base, n, ascending)`, whose text `imperative_o_sort_pod`
repeats with `T::ogreater` for `ObliviousGreater`: generic in the comparison `greater` and the
selection `choose` of the element type; `uint32_t` counters. -/
def imperative_o_sort_gen {α : Type} (greater : α → α → Bool)
    (choose : Bool → α → α → Option α) (fuel : Nat) (arr : List α) (base n : Nat)
    (ascending : Bool) : Option (List α) :=
  forLoop (fun k => decide (k ≤ n)) (fun k => (2 * k) % 2 ^ 32)
    (fun k arr =>
      forLoop (fun j => decide (j > 0)) (fun j => j >>> 1)
        (fun j arr =>
          forLoop (fun i => decide (i < n)) (fun i => (i + 1) % 2 ^ 32)
            (fun i arr => sortBody greater choose base ascending k j i arr) fuel 0 arr)
        fuel (k >>> 1) arr)
    fuel 2 arr

/-- Index `i1 = low + k + j` of the merge comparator (`uint32_t`). -/
def mergeI1 (low k j : Nat) : Nat := (low + k + j) % 2 ^ 32

/-- Index `i2 = i1 + (n >> i) / 2` of the merge comparator (`uint32_t`). -/
def mergeI2 (low k j half : Nat) : Nat := (mergeI1 low k j + half) % 2 ^ 32

/-- `imperative_o_merge(arr, low, len, ascending)` (and `imperative_o_merge_pod`), generic in
`greater` and `choose`.  The `break` on `i2 >= low + len`, the first statement of the innermost
body and a function of the loop counters only, is part of that loop's test. -/
def imperative_o_merge_gen {α : Type} (greater : α → α → Bool)
    (choose : Bool → α → α → Option α) (fuel : Nat) (arr : List α) (low len : Nat)
    (ascending : Bool) : Option (List α) := do
  let l ← log2_ceil fuel len
  let n := (1 <<< l) % 2 ^ 32
  forLoop (fun i => decide (i < l)) (fun i => (i + 1) % 2 ^ 32)
    (fun i arr =>
      forLoop (fun j => decide (j < n)) (fun j => (j + (n >>> i)) % 2 ^ 32)
        (fun j arr =>
          forLoop
            (fun k => decide (k < (n >>> i) / 2) &&
              !decide (mergeI2 low k j ((n >>> i) / 2) ≥ (low + len) % 2 ^ 32))
            (fun k => (k + 1) % 2 ^ 32)
            (fun k arr =>
              comparator greater choose ascending arr (mergeI1 low k j)
                (mergeI2 low k j ((n >>> i) / 2)) (mergeI1 low k j)
                (mergeI2 low k j ((n >>> i) / 2)))
            fuel 0 arr)
        fuel 0 arr)
    fuel 0 arr

/-- `o_sort(arr, low, len, ascending)` (and `o_sort_pod`), generic in `greater` and `choose`;
`depth` bounds the recursion and `fuel` the loops. -/
def o_sort_gen {α : Type} (greater : α → α → Bool) (choose : Bool → α → α → Option α)
    (fuel : Nat) : Nat → List α → Nat → Nat → Bool → Option (List α)
  | 0, _, _, _, _ => none
  | depth + 1, arr, low, len, ascending =>
    if len > 1 then do
      let m ← greatest_power_of_two_less_than fuel len
      if (m * 2) % 2 ^ 32 = len then
        imperative_o_sort_gen greater choose fuel arr low len ascending
      else do
        let arr1 ← imperative_o_sort_gen greater choose fuel arr low m (!ascending)
        let arr2 ← o_sort_gen greater choose fuel depth arr1 ((low + m) % 2 ^ 32)
          ((len + (2 ^ 32 - m)) % 2 ^ 32) ascending
        imperative_o_merge_gen greater choose fuel arr2 low len ascending
    else some arr

/-- `ObliviousChoose` instantiated at a `w`-bit integer type. -/
def ObliviousChooseScalar (w : Nat) (pred : Bool) (t_val f_val : Nat) : Option Nat :=
  (ObliviousChoose pred (leBytes (w / 8) t_val) (leBytes (w / 8) f_val)).map leValue

/-- `imperative_o_sort<T>` for a `w`-bit integer type `T`: the comparison is
`ObliviousGreater<T>` and the selection `ObliviousChoose<T>`. -/
def imperative_o_sort (w fuel : Nat) (arr : List Nat) (base n : Nat) (ascending : Bool) :
    Option (List Nat) :=
  imperative_o_sort_gen (fun x y => ObliviousGreater w x y != 0) (ObliviousChooseScalar w)
    fuel arr base n ascending

/-- `imperative_o_sort_pod<T>` for a POD record type `T` (byte strings) with comparison
`T::ogreater`. -/
def imperative_o_sort_pod (ogreater : List Nat → List Nat → Bool) (fuel : Nat)
    (arr : List (List Nat)) (base n : Nat) (ascending : Bool) : Option (List (List Nat)) :=
  imperative_o_sort_gen ogreater ObliviousChoose fuel arr base n ascending

/-- `imperative_o_merge<T>` for a `w`-bit integer type `T`. -/
def imperative_o_merge (w fuel : Nat) (arr : List Nat) (low len : Nat) (ascending : Bool) :
    Option (List Nat) :=
  imperative_o_merge_gen (fun x y => ObliviousGreater w x y != 0) (ObliviousChooseScalar w)
    fuel arr low len ascending

/-- `imperative_o_merge_pod<T>` for a POD record type `T` with comparison `T::ogreater`. -/
def imperative_o_merge_pod (ogreater : List Nat → List Nat → Bool) (fuel : Nat)
    (arr : List (List Nat)) (low len : Nat) (ascending : Bool) : Option (List (List Nat)) :=
  imperative_o_merge_gen ogreater ObliviousChoose fuel arr low len ascending

/-- `o_sort<T>` for a `w`-bit integer type `T` (recursion depth bounded by `depth`). -/
def o_sort (w fuel depth : Nat) (arr : List Nat) (low len : Nat) (ascending : Bool) :
    Option (List Nat) :=
  o_sort_gen (fun x y => ObliviousGreater w x y != 0) (ObliviousChooseScalar w) fuel depth
    arr low len ascending

/-- `o_sort_pod<T>` for a POD record type `T` with comparison `T::ogreater`. -/
def o_sort_pod (ogreater : List Nat → List Nat → Bool) (fuel depth : Nat)
    (arr : List (List Nat)) (low len : Nat) (ascending : Bool) : Option (List (List Nat)) :=
  o_sort_gen ogreater ObliviousChoose fuel depth arr low len ascending

/-- `ObliviousMerge(arr, low, len, ascending)` on an array of `w`-bit integers. -/
def ObliviousMerge (w fuel : Nat) (arr : List Nat) (low len : Nat) (ascending : Bool) :
    Option (List Nat) :=
  imperative_o_merge w fuel arr low len ascending

/-- `ObliviousMergePOD(arr, low, len, ascending)` on an array of POD records. -/
def ObliviousMergePOD (ogreater : List Nat → List Nat → Bool) (fuel : Nat)
    (arr : List (List Nat)) (low len : Nat) (ascending : Bool) : Option (List (List Nat)) :=
  imperative_o_merge_pod ogreater fuel arr low len ascending

/-- `ObliviousSort(arr, low, len, ascending)` on an array of `w`-bit integers; `fuel` bounds
the loops and the recursion of `o_sort`. -/
def ObliviousSort (w fuel : Nat) (arr : List Nat) (low len : Nat) (ascending : Bool) :
    Option (List Nat) :=
  o_sort w fuel fuel arr low len ascending

/-- `ObliviousSortPOD(arr, low, len, ascending)` on an array of POD records with the caller's
`T::ogreater`. -/
def ObliviousSortPOD (ogreater : List Nat → List Nat → Bool) (fuel : Nat)
    (arr : List (List Nat)) (low len : Nat) (ascending : Bool) : Option (List (List Nat)) :=
  o_sort_pod ogreater fuel fuel arr low len ascending


/-! ## Comparator networks and 0-1 sequences -/

/-- Pure effect of a comparator on positions `p`, `q`: the two elements are exchanged
exactly when `greater(arr[p], arr[q])` equals `ascending`. -/
def casPure {α : Type} (greater : α → α → Bool) (arr : List α) (c : Nat × Nat × Bool) :
    List α :=
  match arr[c.1]?, arr[c.2.1]? with
  | some x, some y => if (greater x y == c.2.2) then (arr.set c.1 y).set c.2.1 x else arr
  | _, _ => arr

/-- Pure effect of a sequence of comparators. -/
def applyNet {α : Type} (greater : α → α → Bool) (arr : List α) (net : List (Nat × Nat × Bool)) :
    List α :=
  net.foldl (casPure greater) arr

/-- The comparison of the 0-1 principle: `x > y` on Booleans. -/
def gtB (x y : Bool) : Bool := x && !y

/-- A threshold function for `greater`: it never orders two elements against `greater`. -/
def Threshold {α : Type} (greater : α → α → Bool) (f : α → Bool) : Prop :=
  ∀ x y, (greater x y = true → ¬ (f x = false ∧ f y = true)) ∧
    (greater x y = false → ¬ (f x = true ∧ f y = false))

/-- The counters `cs` are exactly the values for which the loop
`for (c = c0; cond(c); c = next(c))` runs its body, in order. -/
def IterOK (cond : Nat → Bool) (next : Nat → Nat) : Nat → List Nat → Prop
  | c, [] => cond c = false
  | c, x :: xs => x = c ∧ cond c = true ∧ IterOK cond next (next c) xs

/-- Sequential composition of the loop bodies over the counters `cs`. -/
def runBodies {σ : Type} (body : Nat → σ → Option σ) : List Nat → σ → Option σ
  | [], s => some s
  | c :: cs, s => (body c s).bind (runBodies body cs)

/-- Comparators `(p, q, ascending)` of one pass of `imperative_o_sort` (fixed `k`, `j`; the
loop over `i`), in execution order: `greater(arr[p], arr[q])` is compared with `ascending`. -/
def sortPass (base : Nat) (asc : Bool) (k j n : Nat) : List (Nat × Nat × Bool) :=
  (List.range n).flatMap (fun i =>
    if i ^^^ j > i then
      [if i &&& k = 0 then (base + i, base + (i ^^^ j), asc)
        else (base + (i ^^^ j), base + i, asc)]
    else [])

/-- The values `2^(c-1), ..., 2, 1` of the loop `for (j = k >> 1; j > 0; j = j >> 1)`
for `k = 2^c`. -/
def halvings : Nat → List Nat
  | 0 => []
  | c + 1 => 2 ^ c :: halvings c

/-- Comparators of the stage `k = 2^c` of `imperative_o_sort`. -/
def sortStage (base : Nat) (asc : Bool) (n c : Nat) : List (Nat × Nat × Bool) :=
  (halvings c).flatMap (fun j => sortPass base asc (2 ^ c) j n)

/-- Comparators of `m` successive stages `k = 2^c, 2^(c+1), ...` of `imperative_o_sort`. -/
def sortStages (base : Nat) (asc : Bool) (n : Nat) : Nat → Nat → List (Nat × Nat × Bool)
  | 0, _ => []
  | m + 1, c => sortStage base asc n c ++ sortStages base asc n m (c + 1)

/-- The comparator network of `imperative_o_sort(arr + base, 2^p, asc)`. -/
def sortNet (base : Nat) (asc : Bool) (p : Nat) : List (Nat × Nat × Bool) :=
  sortStages base asc (2 ^ p) p 1

/-- The loop invariant shared by all loops of the sorter: the array keeps its length and its
elements stay objects on which `ObliviousChoose` is defined. -/
def ArrInv {α : Type} (Good : α → Prop) (L : Nat) (arr : List α) : Prop :=
  arr.length = L ∧ ∀ e ∈ arr, Good e

/-- Comparators of pass `i` of `imperative_o_merge(arr, low, len, asc)` with `n = 1 << l`, in
execution order: for the `t`-th block (`j = t * (n >> i)`) the loop over `k` runs until
`k = (n >> i) / 2` or until `i2 = low + k + j + (n >> i) / 2` reaches `low + len`. -/
def mergePass (low len : Nat) (asc : Bool) (n i : Nat) : List (Nat × Nat × Bool) :=
  (List.range (2 ^ i)).flatMap (fun t =>
    (List.range (min ((n >>> i) / 2) (len - (t * (n >>> i) + (n >>> i) / 2)))).flatMap
      (fun k => [(low + k + t * (n >>> i), low + k + t * (n >>> i) + (n >>> i) / 2, asc)]))

/-- The comparator network of `imperative_o_merge(arr, low, len, asc)` for `log2_ceil(len) = l`. -/
def mergeNet (low len : Nat) (asc : Bool) (l : Nat) : List (Nat × Nat × Bool) :=
  (List.range l).flatMap (fun i => mergePass low len asc (2 ^ l) i)

/-- The comparator network of `o_sort(arr, low, len, asc)`, by the recursion of `o_sort`:
with `m = 2^q` the greatest power of two below `len`, either the sorting network of
`imperative_o_sort` (when `2 * m = len`), or the network sorting the first `m` elements in
the opposite direction, the network of the recursive call and the merge network. -/
def oSortNet : Nat → Nat → Nat → Bool → List (Nat × Nat × Bool)
  | 0, _, _, _ => []
  | depth + 1, low, len, asc =>
    if len > 1 then
      let q := Nat.log2 (len - 1)
      if 2 * 2 ^ q = len then sortNet low asc (q + 1)
      else sortNet low (!asc) q ++ oSortNet depth (low + 2 ^ q) (len - 2 ^ q) asc
        ++ mergeNet low len asc (q + 1)
    else []

/-- Order of two Booleans in direction `d`: `a ≤ b` when `d` (ascending), `b ≤ a` otherwise. -/
def leD (d : Bool) (a b : Bool) : Prop :=
  if d then (a = true → b = true) else (b = true → a = true)

/-- The 0-1 sequence `g` is sorted in direction `d` on the index range `[s, s + n)`. -/
def SortedOn (d : Bool) (g : Nat → Bool) (s n : Nat) : Prop :=
  ∀ x y, s ≤ x → x < y → y < s + n → leD d (g x) (g y)

/-- The 0-1 sequence `g` is bitonic on `[s, s + n)`: it has no four positions
`p < q < r < t` on which its values alternate. -/
def NoAlt (g : Nat → Bool) (s n : Nat) : Prop :=
  ∀ p q r t, s ≤ p → p < q → q < r → r < t → t < s + n →
    ¬ (g p ≠ g q ∧ g q ≠ g r ∧ g r ≠ g t)

/-- One pass of comparators at distance `h` on a 0-1 sequence: positions `x` and `x + h`
with `(x / h) % 2 = 0` are compare-exchanged, the minimum going to `x` when `u x`. -/
def passF (h : Nat) (u : Nat → Bool) (g : Nat → Bool) (x : Nat) : Bool :=
  if (x / h) % 2 = 0 then (if u x then g x && g (x + h) else g x || g (x + h))
  else (if u (x - h) then g (x - h) || g x else g (x - h) && g x)

/-- The passes at distances `2^(c-1), ..., 2, 1` (a bitonic merge of blocks of size `2^c`). -/
def mergeF (u : Nat → Bool) : Nat → (Nat → Bool) → (Nat → Bool)
  | 0, g => g
  | c + 1, g => mergeF u c (passF (2 ^ c) u g)

/-- Direction in which block `a` is sorted after a stage of `imperative_o_sort`: the
requested direction for even blocks, the opposite one for odd blocks. -/
def dirB (asc : Bool) (a : Nat) : Bool := decide (a % 2 = 0) == asc

/-- Direction of the comparators of the stage `k = 2^c` of `imperative_o_sort` at lower
index `x`: the test `(i & k) == 0` against `ascending`. -/
def uSort (asc : Bool) (c : Nat) (x : Nat) : Bool := dirB asc (x / 2 ^ c)

/-- The stages `k = 2^c, 2^(c+1), ...` (`m` of them) of `imperative_o_sort` on a 0-1
sequence. -/
def sortF (asc : Bool) : Nat → Nat → (Nat → Bool) → (Nat → Bool)
  | 0, _, g => g
  | m + 1, c, g => sortF asc m (c + 1) (mergeF (uSort asc c) c g)

/-- Two comparators act on disjoint pairs of positions. -/
def Disj (c c' : Nat × Nat × Bool) : Prop :=
  c.1 ≠ c'.1 ∧ c.1 ≠ c'.2.1 ∧ c.2.1 ≠ c'.1 ∧ c.2.1 ≠ c'.2.1

/-- The 0-1 sequence held by the `n` positions of `b` from `base` on, continued by `pad`. -/
def view (b : List Bool) (base n : Nat) (pad : Bool) (x : Nat) : Bool :=
  if x < n then (b[base + x]?).getD pad else pad

/-- Every comparator of the network acts on two positions of `[lo, hi)`. -/
def NetWithin (net : List (Nat × Nat × Bool)) (lo hi : Nat) : Prop :=
  ∀ c ∈ net, lo ≤ c.1 ∧ c.1 < hi ∧ lo ≤ c.2.1 ∧ c.2.1 < hi

/-! ## The swap predicate and the accesses of `ObliviousAssignEx`, as lists -/

/-- The swap predicate in the words of the specification,
`pred = ogt(arr[i1], arr[i2]) XOR (ascending ? 0 : 1)`, on the 0/1 result `g` of the
comparison. -/
def swapPredXor (g : Nat) (ascending : Bool) : Nat := g ^^^ (if ascending then 0 else 1)

/-- The memory accesses of `ObliviousAssignEx(pred, t_val, f_val, bytes, out)` as pairs
(cursor offset, access width in bytes), in program order: `bytes / 8` accesses of 8 bytes,
a 4-byte access when `(bytes % 8) / 4`, a 2-byte access when `(bytes % 4) / 2`, and the
`uint16_t` access made for a trailing byte when `bytes % 2`. -/
def assignChunks (bytes : Nat) : List (Nat × Nat) :=
  let c8 := (List.range (bytes / 8)).map (fun i => (8 * i, 8))
  let off8 := 8 * (bytes / 8)
  let c4 := if (bytes % 8) / 4 ≠ 0 then [(off8, 4)] else []
  let off4 := if (bytes % 8) / 4 ≠ 0 then off8 + 4 else off8
  let c2 := if (bytes % 4) / 2 ≠ 0 then [(off4, 2)] else []
  let off2 := if (bytes % 4) / 2 ≠ 0 then off4 + 2 else off4
  let c1 := if bytes % 2 ≠ 0 then [(off2, 2)] else []
  c8 ++ c4 ++ c2 ++ c1

/-- The offsets touched by a list of accesses, in order. -/
def touched (chunks : List (Nat × Nat)) : List Nat :=
  chunks.flatMap (fun c => List.range' c.1 c.2)

/-! ## Comparison kernels on doubles -/

/-- The double with 64-bit IEEE-754 encoding `x` is a NaN: the exponent field is all ones and
the fraction is not zero. -/
def isNaN (x : Nat) : Bool :=
  decide ((x / 2 ^ 52) % 2 ^ 11 = 2047) && decide (x % 2 ^ 52 ≠ 0)

/-- The double with encoding `x` is finite: the exponent field is not all ones. -/
def isFiniteDouble (x : Nat) : Bool := !decide ((x / 2 ^ 52) % 2 ^ 11 = 2047)

/-- Order key of the non-NaN double with encoding `x`: the magnitude bits, negated when the
sign bit is set.  Two non-NaN doubles compare as their keys do (`+0.0` and `-0.0` both have
key 0). -/
def doubleKey (x : Nat) : Int :=
  if (x / 2 ^ 63) % 2 = 1 then -((x % 2 ^ 63 : Nat) : Int) else ((x % 2 ^ 63 : Nat) : Int)

/-- The flags written by `comisd`. -/
structure FpFlags where
  zf : Bool
  pf : Bool
  cf : Bool
  deriving DecidableEq, Repr

/-- Flags of `comisd %xmm1, %xmm0` with `xmm0 = x` and `xmm1 = y` (the registers in which the
two `double` arguments arrive): unordered gives ZF = PF = CF = 1, `x > y` gives 000,
`x < y` gives CF = 1 and `x = y` gives ZF = 1. -/
def comisd (x y : Nat) : FpFlags :=
  if isNaN x || isNaN y then { zf := true, pf := true, cf := true }
  else if doubleKey x > doubleKey y then { zf := false, pf := false, cf := false }
  else if doubleKey x < doubleKey y then { zf := false, pf := false, cf := true }
  else { zf := true, pf := false, cf := false }

/-- `ObliviousGreater(double, double)`: `comisd %xmm1, %xmm0; seta %0` (`seta`: CF = 0 and
ZF = 0). -/
def ObliviousGreater_double (x y : Nat) : Nat :=
  let fl := comisd x y
  setcc (!fl.cf && !fl.zf)

/-- `ObliviousGreaterOrEqual(double, double)`: `comisd; setae %0` (`setae`: CF = 0). -/
def ObliviousGreaterOrEqual_double (x y : Nat) : Nat :=
  let fl := comisd x y
  setcc (!fl.cf)

/-- `ObliviousLess(double, double)`: `comisd; setb %0` (`setb`: CF = 1). -/
def ObliviousLess_double (x y : Nat) : Nat :=
  let fl := comisd x y
  setcc fl.cf

/-- `ObliviousLessOrEqual(double, double)`: `comisd; setbe %0` (`setbe`: CF = 1 or ZF = 1). -/
def ObliviousLessOrEqual_double (x y : Nat) : Nat :=
  let fl := comisd x y
  setcc (fl.cf || fl.zf)

/-- `ObliviousEqual` at `double`: there is no `double` overload, so the template is
instantiated and `cmp %2, %1` compares the two 64-bit register images of the operands. -/
def ObliviousEqual_double (x y : Nat) : Nat := ObliviousEqual 64 x y

/-- The host comparison `x == y` of two doubles given by their encodings (IEEE-754: false
when an operand is a NaN, otherwise equality of the values). -/
def ieeeEq (x y : Nat) : Bool :=
  !isNaN x && !isNaN y && decide (doubleKey x = doubleKey y)

/-! ## Directions, runs and bitonic ranges -/

/-- Number of passes of `imperative_o_merge` on `len` elements: the value of `log2_ceil(len)`. -/
def mergeLevels (len : Nat) : Nat := if len ≤ 1 then 0 else Nat.log2 (len - 1) + 1

/-- Order of two elements in direction `d` for the comparison `greater`: `a` may precede `b`
in a range sorted in direction `d`. -/
def dirLe {α : Type} (greater : α → α → Bool) (d : Bool) (a b : α) : Prop :=
  if d then greater a b = false else greater b a = false

/-- The list `s` is sorted in direction `asc`: non-decreasing when `asc`, non-increasing
otherwise. -/
def SortedDir (asc : Bool) (s : List Int) : Prop :=
  if asc then s.Sorted (· ≤ ·) else s.Sorted (· ≥ ·)

/-- A run sorted in direction `d` followed by a run sorted in the opposite direction. -/
def TwoRuns (d : Bool) (s : List Int) : Prop :=
  ∃ t, SortedDir d (s.take t) ∧ SortedDir (!d) (s.drop t)

/-- A bitonic sequence: first monotonically non-decreasing then monotonically non-increasing,
or vice versa. -/
def Bitonic (s : List Int) : Prop := TwoRuns true s ∨ TwoRuns false s

/-- The signed values held by the range `[low, low + len)` of an array of `w`-bit integers. -/
def rangeValues (w : Nat) (arr : List Nat) (low len : Nat) : List Int :=
  ((arr.drop low).take len).map (toSigned w)

/-! ## The sorter with a log of its compare-and-swap steps -/

/-- A comparator of the sorter on a state that also carries the log of the index pairs
`(i1, i2)` of the compare-and-swap steps performed so far. -/
def comparatorT {α : Type} (greater : α → α → Bool) (choose : Bool → α → α → Option α)
    (ascending : Bool) (p q i1 i2 : Nat) (st : List α × List (Nat × Nat)) :
    Option (List α × List (Nat × Nat)) :=
  (comparator greater choose ascending st.1 p q i1 i2).map (fun a => (a, st.2 ++ [(i1, i2)]))

/-- Body of the innermost loop of `imperative_o_sort` with the log of index pairs. -/
def sortBodyT {α : Type} (greater : α → α → Bool) (choose : Bool → α → α → Option α)
    (base : Nat) (ascending : Bool) (k j i : Nat) (st : List α × List (Nat × Nat)) :
    Option (List α × List (Nat × Nat)) :=
  let ij := i ^^^ j
  if ij > i then
    if i &&& k = 0 then
      comparatorT greater choose ascending (base + i) (base + ij) (base + i) (base + ij) st
    else
      comparatorT greater choose ascending (base + ij) (base + i) (base + i) (base + ij) st
  else some st

/-- `imperative_o_sort(arr + base, n, ascending)` with the log of index pairs. -/
def imperative_o_sort_traced {α : Type} (greater : α → α → Bool)
    (choose : Bool → α → α → Option α) (fuel : Nat) (st : List α × List (Nat × Nat))
    (base n : Nat) (ascending : Bool) : Option (List α × List (Nat × Nat)) :=
  forLoop (fun k => decide (k ≤ n)) (fun k => (2 * k) % 2 ^ 32)
    (fun k st =>
      forLoop (fun j => decide (j > 0)) (fun j => j >>> 1)
        (fun j st =>
          forLoop (fun i => decide (i < n)) (fun i => (i + 1) % 2 ^ 32)
            (fun i st => sortBodyT greater choose base ascending k j i st) fuel 0 st)
        fuel (k >>> 1) st)
    fuel 2 st

/-- `imperative_o_merge(arr, low, len, ascending)` with the log of index pairs. -/
def imperative_o_merge_traced {α : Type} (greater : α → α → Bool)
    (choose : Bool → α → α → Option α) (fuel : Nat) (st : List α × List (Nat × Nat))
    (low len : Nat) (ascending : Bool) : Option (List α × List (Nat × Nat)) := do
  let l ← log2_ceil fuel len
  let n := (1 <<< l) % 2 ^ 32
  forLoop (fun i => decide (i < l)) (fun i => (i + 1) % 2 ^ 32)
    (fun i st =>
      forLoop (fun j => decide (j < n)) (fun j => (j + (n >>> i)) % 2 ^ 32)
        (fun j st =>
          forLoop
            (fun k => decide (k < (n >>> i) / 2) &&
              !decide (mergeI2 low k j ((n >>> i) / 2) ≥ (low + len) % 2 ^ 32))
            (fun k => (k + 1) % 2 ^ 32)
            (fun k st =>
              comparatorT greater choose ascending (mergeI1 low k j)
                (mergeI2 low k j ((n >>> i) / 2)) (mergeI1 low k j)
                (mergeI2 low k j ((n >>> i) / 2)) st)
            fuel 0 st)
        fuel 0 st)
    fuel 0 st

/-- `o_sort(arr, low, len, ascending)` with the log of index pairs. -/
def o_sort_traced {α : Type} (greater : α → α → Bool) (choose : Bool → α → α → Option α)
    (fuel : Nat) : Nat → List α × List (Nat × Nat) → Nat → Nat → Bool →
    Option (List α × List (Nat × Nat))
  | 0, _, _, _, _ => none
  | depth + 1, st, low, len, ascending =>
    if len > 1 then do
      let m ← greatest_power_of_two_less_than fuel len
      if (m * 2) % 2 ^ 32 = len then
        imperative_o_sort_traced greater choose fuel st low len ascending
      else do
        let st1 ← imperative_o_sort_traced greater choose fuel st low m (!ascending)
        let st2 ← o_sort_traced greater choose fuel depth st1 ((low + m) % 2 ^ 32)
          ((len + (2 ^ 32 - m)) % 2 ^ 32) ascending
        imperative_o_merge_traced greater choose fuel st2 low len ascending
    else some st

/-- `ObliviousSort(arr, low, len, ascending)` on `w`-bit integers, returning the array and the
sequence of index pairs `(i1, i2)` on which its compare-and-swap steps were performed. -/
def ObliviousSortTraced (w fuel : Nat) (arr : List Nat) (low len : Nat) (ascending : Bool) :
    Option (List Nat × List (Nat × Nat)) :=
  o_sort_traced (fun x y => ObliviousGreater w x y != 0) (ObliviousChooseScalar w) fuel fuel
    (arr, []) low len ascending

/-- The items logged by a loop `for (c = c0; cond(c); c = next(c))` whose iteration `c` logs
`tr c`, within `fuel` evaluations of the loop test. -/
def loopTrace {τ : Type} (cond : Nat → Bool) (next : Nat → Nat) (tr : Nat → List τ) :
    Nat → Nat → List τ
  | 0, _ => []
  | fuel + 1, c => if cond c then tr c ++ loopTrace cond next tr fuel (next c) else []

/-- The index pairs logged by `imperative_o_sort(arr + base, n, _)`: a function of the loop
counters only. -/
def sortTrace (fuel base n : Nat) : List (Nat × Nat) :=
  loopTrace (fun k => decide (k ≤ n)) (fun k => (2 * k) % 2 ^ 32)
    (fun k =>
      loopTrace (fun j => decide (j > 0)) (fun j => j >>> 1)
        (fun j =>
          loopTrace (fun i => decide (i < n)) (fun i => (i + 1) % 2 ^ 32)
            (fun i => if i ^^^ j > i then [(base + i, base + (i ^^^ j))] else []) fuel 0)
        fuel (k >>> 1))
    fuel 2

/-- The index pairs logged by `imperative_o_merge(arr, low, len, _)`. -/
def mergeTrace (fuel low len : Nat) : List (Nat × Nat) :=
  match log2_ceil fuel len with
  | none => []
  | some l =>
    loopTrace (fun i => decide (i < l)) (fun i => (i + 1) % 2 ^ 32)
      (fun i =>
        loopTrace (fun j => decide (j < (1 <<< l) % 2 ^ 32))
          (fun j => (j + (((1 <<< l) % 2 ^ 32) >>> i)) % 2 ^ 32)
          (fun j =>
            loopTrace
              (fun k => decide (k < (((1 <<< l) % 2 ^ 32) >>> i) / 2) &&
                !decide (mergeI2 low k j ((((1 <<< l) % 2 ^ 32) >>> i) / 2)
                  ≥ (low + len) % 2 ^ 32))
              (fun k => (k + 1) % 2 ^ 32)
              (fun k => [(mergeI1 low k j, mergeI2 low k j ((((1 <<< l) % 2 ^ 32) >>> i) / 2))])
              fuel 0)
          fuel 0)
      fuel 0

/-- The index pairs logged by `o_sort(arr, low, len, _)`, by the recursion of `o_sort`. -/
def oSortTrace (fuel : Nat) : Nat → Nat → Nat → List (Nat × Nat)
  | 0, _, _ => []
  | depth + 1, low, len =>
    if len > 1 then
      match greatest_power_of_two_less_than fuel len with
      | none => []
      | some m =>
        if (m * 2) % 2 ^ 32 = len then sortTrace fuel low len
        else sortTrace fuel low m
          ++ oSortTrace fuel depth ((low + m) % 2 ^ 32) ((len + (2 ^ 32 - m)) % 2 ^ 32)
          ++ mergeTrace fuel low len
    else []

/-- The index pair `c = (i1, i2)` satisfies `lo <= i1 < i2 < hi`. -/
def PairWithin (lo hi : Nat) (c : Nat × Nat) : Prop := lo ≤ c.1 ∧ c.1 < c.2 ∧ c.2 < hi

/-! ## The assignment sweep with a log of its accesses -/

/-- The sweep of `ObliviousArrayAssign` with the log of the element indices `pos` accessed. -/
def assignLoopTraced (step i n : Nat) (val : List Nat) :
    Nat → Nat → List (List Nat) → List Nat → Option (List (List Nat) × List Nat)
  | 0, _, _, _ => none
  | fuel + 1, j, arr, trace =>
    if intToSize j < n then do
      let cond := ObliviousEqual 32 (intDiv j step) (intDiv i step) != 0
      let pos ← ObliviousChooseInt cond i j
      let e ← elemAt arr pos
      let r ← ObliviousChoose cond val e
      let j1 ← intAdd j step
      assignLoopTraced step i n val fuel j1 (arr.set (pos % 2 ^ 32) r) (trace ++ [pos])
    else some (arr, trace)

/-- `ObliviousArrayAssign(arr, i, n, val)` together with the list of element indices accessed
by its sweep. -/
def ObliviousArrayAssignTraced (cl size : Nat) (arr : List (List Nat)) (i n : Nat)
    (val : List Nat) : Option (List (List Nat) × List Nat) :=
  assignLoopTraced (sweepStep cl size) i n val (n + 1) 0 arr []

/-- The element indices of a sweep with stride `st` over `n` elements for the index `i`, in
closed form: one iteration for each `j = 0, st, 2 * st, ...` below `n`, that is
`ceil(n / st)` iterations, accessing `i` in the iteration whose group holds `i` and `j` in
the others.  The loops are compared with this list. -/
def sweepPositions (st i n : Nat) : List Nat :=
  (List.range ((n + st - 1) / st)).map (fun t => if t = i / st then i else t * st)

/-- The element indices of a sweep continued from `j` (auxiliary, by the recursion of the
loop). -/
def sweepFrom (st i n : Nat) : Nat → Nat → List Nat
  | 0, _ => []
  | f + 1, j =>
    if j < n ∧ j < 2 ^ 31 then (if j / st = i / st then i else j) :: sweepFrom st i n f (j + st)
    else []

/-! ## Loop counters that wrap -/

/-- The counters reached by `for (k = 2; k <= n; k = 2 * k)` with `n = 2^31`: the powers of
two up to `2^31`, and then 0, where `2 * k` has wrapped. -/
def StuckCounter (k : Nat) : Prop := k = 0 ∨ ∃ c, c ≤ 31 ∧ k = 2 ^ c

/-! # Verification -/

/-! ## Comparison and conditional-move kernels -/

theorem ofInt_lt (w : Nat) (a : Int) : ofInt w a < 2 ^ w := by
  unfold ofInt
  have h : (0:Int) < 2 ^ w := by positivity
  have h1 := Int.emod_lt_of_pos a h
  have h2 := Int.emod_nonneg a (ne_of_gt h)
  zify
  rw [Int.toNat_of_nonneg h2]
  exact_mod_cast h1

theorem toSigned_ofInt (w : Nat) (hw : 0 < w) (a : Int)
    (ha : -2 ^ (w - 1) ≤ a ∧ a < 2 ^ (w - 1)) : toSigned w (ofInt w a) = a := by
  have hlt := ofInt_lt w a
  have h : (0:Int) < 2 ^ w := by positivity
  have h2 := Int.emod_nonneg a (ne_of_gt h)
  have hpow : (2:Int) ^ w = 2 * 2 ^ (w - 1) := by
    obtain ⟨k, rfl⟩ : ∃ k, w = k + 1 := ⟨w - 1, by omega⟩
    simp [pow_succ]; ring
  have hcast : ((ofInt w a : Nat) : Int) = a % 2 ^ w := by
    unfold ofInt; rw [Int.toNat_of_nonneg h2]
  unfold toSigned
  rw [Nat.mod_eq_of_lt hlt]
  by_cases hneg : 0 ≤ a
  · have e : a % 2 ^ w = a := Int.emod_eq_of_lt hneg (by rw [hpow]; linarith [ha.2])
    have : ofInt w a < 2 ^ (w - 1) := by
      zify; rw [hcast, e]; exact ha.2
    rw [if_pos this, hcast, e]
  · have e : a % 2 ^ w = a + 2 ^ w := by
      have : (a + 2 ^ w) % 2 ^ w = a + 2 ^ w :=
        Int.emod_eq_of_lt (by rw [hpow]; linarith [ha.1]) (by linarith [not_le.mp hneg])
      rw [← this, Int.add_emod_self]
    have : ¬ ofInt w a < 2 ^ (w - 1) := by
      zify; rw [hcast, e, hpow]; linarith [ha.1]
    rw [if_neg this, hcast, e]; ring


theorem sub_mod_cases (M x y : Nat) (hx : x < M) (hy : y < M) :
    (x + (M - y)) % M = if x < y then x + M - y else x - y := by
  split_ifs with h
  · rw [Nat.mod_eq_of_lt (by omega)]; omega
  · have : x + (M - y) = (x - y) + M := by omega
    rw [this, Nat.add_mod_right, Nat.mod_eq_of_lt (by omega)]

theorem cmp_flags (w x y : Nat) (hw : 0 < w) (hx : x < 2 ^ w) (hy : y < 2 ^ w) :
    (Obl.cmp w x y).zf = decide (x = y) ∧
    (Obl.cmp w x y).cf = decide (x < y) ∧
    ((Obl.cmp w x y).sf == (Obl.cmp w x y).ovf) = decide (toSigned w y ≤ toSigned w x) := by
  have hpow : 2 ^ w = 2 * 2 ^ (w - 1) := by
    obtain ⟨k, rfl⟩ : ∃ k, w = k + 1 := ⟨w - 1, by omega⟩
    simp [pow_succ]; ring
  have hP : 0 < 2 ^ (w - 1) := by positivity
  have hpowZ : ((2:Int) ^ w) = 2 * ((2 ^ (w - 1) : Nat) : Int) := by exact_mod_cast hpow
  simp only [Obl.cmp, msb, toSigned, hpowZ]
  simp only [Nat.mod_eq_of_lt hx, Nat.mod_eq_of_lt hy, Nat.mod_mod, sub_mod_cases _ x y hx hy]
  generalize 2 ^ (w - 1) = P at *
  generalize 2 ^ w = M at *
  subst hpow
  refine ⟨?_, trivial, ?_⟩
  · by_cases h : x < y <;> simp [h] <;> omega
  · obtain ⟨r, hr, hr2⟩ : ∃ r, r = (if x < y then x + 2 * P - y else x - y) ∧ r < 2 * P := by
      refine ⟨_, rfl, ?_⟩
      split_ifs <;> omega
    have e : r % (2 * P) = r := Nat.mod_eq_of_lt hr2
    simp only [← hr, e]
    clear e
    obtain ⟨A, hA⟩ : ∃ A, A = decide (P ≤ x) := ⟨_, rfl⟩
    obtain ⟨B, hB⟩ : ∃ B, B = decide (P ≤ y) := ⟨_, rfl⟩
    obtain ⟨R, hR⟩ : ∃ R, R = decide (P ≤ r) := ⟨_, rfl⟩
    rw [← hA, ← hB, ← hR]
    have hr3 : (r : Int) = if x < y then (x : Int) + 2 * P - y else (x : Int) - y := by
      rw [hr]; split_ifs <;> omega
    clear hr
    rcases A <;> rcases B <;> rcases R <;> simp at hA hB hR ⊢ <;> split_ifs at hr3 ⊢ <;> omega

theorem ofInt_injOn (w : Nat) (hw : 0 < w) (a b : Int)
    (ha : -2 ^ (w - 1) ≤ a ∧ a < 2 ^ (w - 1)) (hb : -2 ^ (w - 1) ≤ b ∧ b < 2 ^ (w - 1)) :
    ofInt w a = ofInt w b ↔ a = b := by
  constructor
  · intro h
    rw [← toSigned_ofInt w hw a ha, ← toSigned_ofInt w hw b hb, h]
  · rintro rfl; rfl

/-- C7: on signed two's-complement integers of width 16, 32 or 64 the five integer kernels
return 0 or 1 and agree with the signed comparisons `>`, `>=`, `==`, `<`, `<=` made at
that width. -/
theorem signed_kernels_correct (w : Nat) (a b : Int) (hw : w = 16 ∨ w = 32 ∨ w = 64)
    (ha : -2 ^ (w - 1) ≤ a ∧ a < 2 ^ (w - 1)) (hb : -2 ^ (w - 1) ≤ b ∧ b < 2 ^ (w - 1)) :
    ObliviousGreater w (ofInt w a) (ofInt w b) = (if a > b then 1 else 0) ∧
    ObliviousGreaterOrEqual w (ofInt w a) (ofInt w b) = (if a ≥ b then 1 else 0) ∧
    ObliviousEqual w (ofInt w a) (ofInt w b) = (if a = b then 1 else 0) ∧
    ObliviousLess w (ofInt w a) (ofInt w b) = (if a < b then 1 else 0) ∧
    ObliviousLessOrEqual w (ofInt w a) (ofInt w b) = (if a ≤ b then 1 else 0) := by
  have hw0 : 0 < w := by omega
  obtain ⟨hz, -, hs⟩ := cmp_flags w (ofInt w a) (ofInt w b) hw0 (ofInt_lt w a) (ofInt_lt w b)
  rw [toSigned_ofInt w hw0 a ha, toSigned_ofInt w hw0 b hb] at hs
  have hinj := ofInt_injOn w hw0 a b ha hb
  have hne : ((Obl.cmp w (ofInt w a) (ofInt w b)).sf != (Obl.cmp w (ofInt w a) (ofInt w b)).ovf)
      = decide (a < b) := by
    have : ((Obl.cmp w (ofInt w a) (ofInt w b)).sf != (Obl.cmp w (ofInt w a) (ofInt w b)).ovf)
        = !((Obl.cmp w (ofInt w a) (ofInt w b)).sf == (Obl.cmp w (ofInt w a) (ofInt w b)).ovf) := by
      cases (Obl.cmp w (ofInt w a) (ofInt w b)).sf <;>
        cases (Obl.cmp w (ofInt w a) (ofInt w b)).ovf <;> rfl
    rw [this, hs]
    by_cases h : b ≤ a
    · simp [h]
    · simp [h]; omega
  simp only [ObliviousGreater, ObliviousGreaterOrEqual, ObliviousEqual, ObliviousLess,
    ObliviousLessOrEqual, setcc, hz, hs, hne, hinj]
  rcases lt_trichotomy a b with h | h | h
  · have h1 : ¬ a = b := by omega
    have h2 : ¬ b ≤ a := by omega
    have h3 : ¬ a > b := by omega
    have h4 : ¬ a ≥ b := by omega
    simp [h, h1, h2, h3, h4, h.le]
  · subst h
    simp
  · have h1 : ¬ a = b := by omega
    have h2 : ¬ a < b := by omega
    have h3 : ¬ a ≤ b := by omega
    simp [h, h1, h2, h3, h.le]

/-- Witness for C7 at the test's overflow case: `(int32_t) 2147483648` is `-2147483648`,
which is not greater than 42 at width 32. -/
theorem signed_kernels_correct_witness :
    ObliviousGreater 32 (ofInt 32 (-2147483648)) (ofInt 32 42) = (if (-2147483648 : Int) > 42 then 1 else 0) ∧
    ObliviousGreaterOrEqual 32 (ofInt 32 (-2147483648)) (ofInt 32 42) = (if (-2147483648 : Int) ≥ 42 then 1 else 0) ∧
    ObliviousEqual 32 (ofInt 32 (-2147483648)) (ofInt 32 42) = (if (-2147483648 : Int) = 42 then 1 else 0) ∧
    ObliviousLess 32 (ofInt 32 (-2147483648)) (ofInt 32 42) = (if (-2147483648 : Int) < 42 then 1 else 0) ∧
    ObliviousLessOrEqual 32 (ofInt 32 (-2147483648)) (ofInt 32 42) = (if (-2147483648 : Int) ≤ 42 then 1 else 0) :=
  signed_kernels_correct 32 (-2147483648) 42 (by decide) (by decide) (by decide)

/-- C8: `ObliviousGreater` on the 32-bit unsigned operands `0x80000000` and `1` returns 0
(the `setg` condition reads the signed flags) although `0x80000000 > 1` as unsigned numbers;
likewise `ObliviousLess` returns 1 and the two non-strict kernels are wrong the same way. -/
theorem unsigned_greater_top_bit :
    (1 : Nat) < 2147483648 ∧ 2147483648 < 2 ^ 32 ∧
    ObliviousGreater 32 2147483648 1 = 0 ∧
    ObliviousGreaterOrEqual 32 2147483648 1 = 0 ∧
    ObliviousLess 32 2147483648 1 = 1 ∧
    ObliviousLessOrEqual 32 2147483648 1 = 1 := by
  decide

/-- C9: for a predicate in {0,1} and `w`-bit integers `t`, `f` (w = 16, 32 or 64),
`ObliviousAssign` stores `t` when the predicate is 1 and `f` when it is 0. -/
theorem ObliviousAssign_correct (w pred t f : Nat) (_hw : w = 16 ∨ w = 32 ∨ w = 64)
    (hp : pred = 0 ∨ pred = 1) (ht : t < 2 ^ w) (hf : f < 2 ^ w) :
    ObliviousAssign w pred t f = (if pred = 1 then t else f) := by
  unfold ObliviousAssign
  rw [Nat.mod_eq_of_lt ht, Nat.mod_eq_of_lt hf]
  rcases hp with rfl | rfl <;> simp

/-- Witness for C9: selecting between two 16-bit values with predicate 1. -/
theorem ObliviousAssign_correct_witness :
    ObliviousAssign 16 1 4 65531 = (if (1 : Nat) = 1 then 4 else 65531) :=
  ObliviousAssign_correct 16 1 4 65531 (by decide) (by decide) (by decide) (by decide)

/-! ## Oblivious selection -/

theorem leValue_lt (l : List Nat) (h : ∀ b ∈ l, b < 256) : leValue l < 256 ^ l.length := by
  induction l with
  | nil => simp [leValue]
  | cons b bs ih =>
    have hb := h b (List.mem_cons_self _ _)
    have := ih (fun x hx => h x (List.mem_cons_of_mem _ hx))
    simp only [leValue, List.length_cons, pow_succ]
    omega

theorem leBytes_leValue (l : List Nat) (h : ∀ b ∈ l, b < 256) :
    leBytes l.length (leValue l) = l := by
  induction l with
  | nil => rfl
  | cons b bs ih =>
    have hb := h b (List.mem_cons_self _ _)
    have := ih (fun x hx => h x (List.mem_cons_of_mem _ hx))
    simp only [leValue, List.length_cons, leBytes]
    have e1 : (b + 256 * leValue bs) % 256 = b := by omega
    have e2 : (b + 256 * leValue bs) / 256 = leValue bs := by omega
    rw [e1, e2, this]

theorem assignChunk_eq (w k : Nat) (p : Bool) (t f out : List Nat) (off : Nat)
    (hw : w = 8 * k)
    (ht : ∀ b ∈ t, b < 256) (hf : ∀ b ∈ f, b < 256)
    (hlt : off + k ≤ t.length) (hlf : off + k ≤ f.length) (hlo : off + k ≤ out.length) :
    assignChunk w p t f off out
      = some (out.take off ++ ((if p then t else f).drop off).take k ++ out.drop (off + k)) := by
  have hk : w / 8 = k := by omega
  have hlen : ∀ l : List Nat, off + k ≤ l.length → ((l.drop off).take k).length = k := by
    intro l hl; simp; omega
  have hbytes : ∀ l : List Nat, (∀ b ∈ l, b < 256) → ∀ b ∈ (l.drop off).take k, b < 256 :=
    fun l hl b hb => hl b (List.mem_of_mem_drop (List.mem_of_mem_take hb))
  have hv : ∀ l : List Nat, (∀ b ∈ l, b < 256) → off + k ≤ l.length →
      leValue ((l.drop off).take k) < 2 ^ w := by
    intro l hl hlen'
    have := leValue_lt _ (hbytes l hl)
    rw [hlen l hlen'] at this
    rw [hw, pow_mul]; exact this
  simp only [assignChunk, load, store, hk, if_pos hlt, if_pos hlf, if_pos hlo, ObliviousAssign]
  rw [Nat.mod_eq_of_lt (hv t ht hlt), Nat.mod_eq_of_lt (hv f hf hlf)]
  cases p
  · have := leBytes_leValue _ (hbytes f hf)
    rw [hlen f hlf] at this
    simp [this]
  · have := leBytes_leValue _ (hbytes t ht)
    rw [hlen t hlt] at this
    simp [this]

theorem chunk_fill (s out : List Nat) (off k : Nat) (hlen : out.length = s.length)
    (htake : out.take off = s.take off) (hk : off + k ≤ s.length) :
    (out.take off ++ (s.drop off).take k ++ out.drop (off + k)).length = s.length ∧
    (out.take off ++ (s.drop off).take k ++ out.drop (off + k)).take (off + k)
      = s.take (off + k) := by
  have h1 : (out.take off).length = off := by simp; omega
  have h2 : ((s.drop off).take k).length = k := by simp; omega
  constructor
  · simp only [List.length_append, h1, h2, List.length_drop]; omega
  · have h3 : (out.take off ++ (s.drop off).take k).length = off + k := by
      simp only [List.length_append, h1, h2]
    rw [List.take_append_of_le_length (by omega), List.take_of_length_le (by omega), htake]
    rw [List.take_add]

theorem assignChunk_fill (w k : Nat) (p : Bool) (t f out : List Nat) (off : Nat)
    (hw : w = 8 * k) (ht : ∀ b ∈ t, b < 256) (hf : ∀ b ∈ f, b < 256)
    (hlf : f.length = t.length) (hlo : out.length = t.length)
    (htake : out.take off = (if p then t else f).take off) (hk : off + k ≤ t.length) :
    ∃ out1, assignChunk w p t f off out = some out1 ∧ out1.length = t.length ∧
      out1.take (off + k) = (if p then t else f).take (off + k) := by
  have hs : (if p then t else f).length = t.length := by cases p <;> simp [hlf]
  refine ⟨_, assignChunk_eq w k p t f out off hw ht hf hk (by omega) (by omega), ?_⟩
  have := chunk_fill (if p then t else f) out off k (by omega) htake (by omega)
  rw [hs] at this
  exact this

theorem assignLoop8_fill (p : Bool) (t f : List Nat)
    (ht : ∀ b ∈ t, b < 256) (hf : ∀ b ∈ f, b < 256) (hlf : f.length = t.length) :
    ∀ (iters off : Nat) (out : List Nat), out.length = t.length →
      out.take off = (if p then t else f).take off → off + 8 * iters ≤ t.length →
      ∃ out1, assignLoop8 p t f iters off out = some (out1, off + 8 * iters) ∧
        out1.length = t.length ∧
        out1.take (off + 8 * iters) = (if p then t else f).take (off + 8 * iters) := by
  intro iters
  induction iters with
  | zero => intro off out hlo htake _; exact ⟨out, rfl, hlo, by simpa using htake⟩
  | succ n ih =>
    intro off out hlo htake hk
    obtain ⟨o1, h1, h2, h3⟩ :=
      assignChunk_fill 64 8 p t f out off rfl ht hf hlf hlo htake (by omega)
    obtain ⟨o2, h4, h5, h6⟩ := ih (off + 8) o1 h2 h3 (by omega)
    refine ⟨o2, ?_, h5, ?_⟩
    · simp only [assignLoop8, h1, h4]
      congr 2; omega
    · rw [show off + 8 * (n + 1) = off + 8 + 8 * n by omega]; exact h6

theorem ObliviousAssignEx_even (p : Bool) (t f out : List Nat)
    (ht : ∀ b ∈ t, b < 256) (hf : ∀ b ∈ f, b < 256) (hlf : f.length = t.length)
    (hlo : out.length = t.length) (heven : t.length % 2 = 0) :
    ObliviousAssignEx p t f t.length out = some (if p then t else f) := by
  obtain ⟨o8, h8, l8, t8⟩ := assignLoop8_fill p t f ht hf hlf (t.length / 8) 0 out hlo
    (by simp) (by omega)
  simp only [Nat.zero_add] at h8 t8
  have hs : (if p then t else f).length = t.length := by cases p <;> simp [hlf]
  have fin : ∀ (o : List Nat) (m : Nat), o.length = t.length →
      o.take m = (if p then t else f).take m → m = t.length → o = (if p then t else f) := by
    intro o m h1 h2 hm
    subst hm
    rwa [List.take_of_length_le (by omega), List.take_of_length_le (by omega)] at h2
  unfold ObliviousAssignEx
  simp only [h8]
  by_cases c4 : t.length % 8 / 4 ≠ 0
  · obtain ⟨o4, h4, l4, t4⟩ := assignChunk_fill 32 4 p t f o8 _ rfl ht hf hlf l8 t8 (by omega)
    rw [if_pos c4, h4]
    simp only [Option.map_some']
    by_cases c2 : t.length % 4 / 2 ≠ 0
    · obtain ⟨o2, h2, l2, t2⟩ := assignChunk_fill 16 2 p t f o4 _ rfl ht hf hlf l4 t4 (by omega)
      rw [if_pos c2, h2]
      simp only [Option.map_some']
      rw [if_neg (by omega)]
      rw [fin o2 _ l2 t2 (by omega)]
    · rw [if_neg c2]
      simp only []
      rw [if_neg (by omega)]
      rw [fin o4 _ l4 t4 (by omega)]
  · rw [if_neg c4]
    simp only []
    by_cases c2 : t.length % 4 / 2 ≠ 0
    · obtain ⟨o2, h2, l2, t2⟩ := assignChunk_fill 16 2 p t f o8 _ rfl ht hf hlf l8 t8 (by omega)
      rw [if_pos c2, h2]
      simp only [Option.map_some']
      rw [if_neg (by omega)]
      rw [fin o2 _ l2 t2 (by omega)]
    · rw [if_neg c2]
      simp only []
      rw [if_neg (by omega)]
      rw [fin o8 _ l8 t8 (by omega)]

theorem ObliviousChoose_spec (p : Bool) (t f : List Nat)
    (ht : ∀ b ∈ t, b < 256) (hf : ∀ b ∈ f, b < 256) (hlen : f.length = t.length)
    (heven : t.length % 2 = 0) :
    ObliviousChoose p t f = some (if p then t else f) :=
  ObliviousAssignEx_even p t f (List.replicate t.length 0) ht hf hlen (by simp) heven

/-- C6: for POD values `t`, `f` of the same even byte size, `ObliviousChoose p t f` is
`p ? t : f` byte for byte (and the call stays inside the three objects). -/
theorem ObliviousChoose_even (p : Bool) (t f : List Nat)
    (ht : ∀ b ∈ t, b < 256) (hf : ∀ b ∈ f, b < 256) (hlen : f.length = t.length)
    (heven : t.length % 2 = 0) :
    ObliviousChoose p t f = some (if p then t else f) ∧
    ∀ i, i < t.length → ∃ r, ObliviousChoose p t f = some r ∧
      r[i]? = if p then t[i]? else f[i]? := by
  have h := ObliviousAssignEx_even p t f (List.replicate t.length 0) ht hf hlen (by simp) heven
  refine ⟨h, fun i _ => ⟨_, h, ?_⟩⟩
  cases p <;> simp

/-- Witness for C6: a 12-byte value (one 8-byte and one 4-byte chunk). -/
theorem ObliviousChoose_even_witness :
    ObliviousChoose false [1, 2, 3, 4, 5, 6, 7, 8, 9, 10, 11, 12]
        [21, 22, 23, 24, 25, 26, 27, 28, 29, 30, 31, 255]
      = some (if false then [1, 2, 3, 4, 5, 6, 7, 8, 9, 10, 11, 12]
          else [21, 22, 23, 24, 25, 26, 27, 28, 29, 30, 31, 255]) ∧
    ∀ i, i < [1, 2, 3, 4, 5, 6, 7, 8, 9, 10, 11, 12].length →
      ∃ r, ObliviousChoose false [1, 2, 3, 4, 5, 6, 7, 8, 9, 10, 11, 12]
          [21, 22, 23, 24, 25, 26, 27, 28, 29, 30, 31, 255] = some r ∧
        r[i]? = if false then [1, 2, 3, 4, 5, 6, 7, 8, 9, 10, 11, 12][i]?
          else [21, 22, 23, 24, 25, 26, 27, 28, 29, 30, 31, 255][i]? :=
  ObliviousChoose_even false [1, 2, 3, 4, 5, 6, 7, 8, 9, 10, 11, 12]
    [21, 22, 23, 24, 25, 26, 27, 28, 29, 30, 31, 255] (by decide) (by decide) (by decide)
    (by decide)

/-! ## Oblivious array access -/

theorem toSigned_of_lt (w x : Nat) (hw : 0 < w) (hx : x < 2 ^ (w - 1)) :
    toSigned w x = (x : Int) := by
  have hpow : 2 ^ w = 2 * 2 ^ (w - 1) := by
    obtain ⟨k, rfl⟩ : ∃ k, w = k + 1 := ⟨w - 1, by omega⟩
    simp [pow_succ]; ring
  unfold toSigned
  rw [Nat.mod_eq_of_lt (by omega), if_pos hx]

theorem ofInt_natCast (w x : Nat) (hx : x < 2 ^ w) : ofInt w (x : Int) = x := by
  unfold ofInt
  have : ((x : Int) % 2 ^ w) = ((x % 2 ^ w : Nat) : Int) := by push_cast; rfl
  rw [this, Int.toNat_natCast, Nat.mod_eq_of_lt hx]

theorem intToSize_of_lt (j : Nat) (hj : j < 2 ^ 31) : intToSize j = j := by
  unfold intToSize
  rw [Nat.mod_eq_of_lt (by omega), if_pos hj]

theorem intToSize_of_ge (j : Nat) (hj : 2 ^ 31 ≤ j) (hj2 : j < 2 ^ 32) :
    2 ^ 64 - 2 ^ 31 ≤ intToSize j := by
  unfold intToSize
  rw [Nat.mod_eq_of_lt hj2, if_neg (by omega)]
  omega

theorem intDiv_of_lt (a b : Nat) (ha : a < 2 ^ 31) (hb : b < 2 ^ 31) : intDiv a b = a / b := by
  unfold intDiv
  rw [toSigned_of_lt 32 a (by decide) ha, toSigned_of_lt 32 b (by decide) hb,
    ← Int.ofNat_tdiv, ofInt_natCast]
  exact lt_of_le_of_lt (Nat.div_le_self a b) (by omega)

theorem ObliviousEqual_eq (w x y : Nat) (hw : 0 < w) (hx : x < 2 ^ w) (hy : y < 2 ^ w) :
    ObliviousEqual w x y = if x = y then 1 else 0 := by
  unfold ObliviousEqual setcc
  simp only [(cmp_flags w x y hw hx hy).1]
  by_cases h : x = y <;> simp [h]

theorem leBytes_length (k v : Nat) : (leBytes k v).length = k := by
  induction k generalizing v with
  | zero => rfl
  | succ n ih => simp [leBytes, ih]

theorem leBytes_lt (k v : Nat) : ∀ b ∈ leBytes k v, b < 256 := by
  induction k generalizing v with
  | zero => simp [leBytes]
  | succ n ih =>
    intro b hb
    simp only [leBytes, List.mem_cons] at hb
    rcases hb with rfl | hb
    · omega
    · exact ih _ b hb

theorem leValue_leBytes (k v : Nat) : leValue (leBytes k v) = v % 256 ^ k := by
  induction k generalizing v with
  | zero => simp [leBytes, leValue, Nat.mod_one]
  | succ n ih =>
    simp only [leBytes, leValue, ih, pow_succ]
    rw [mul_comm (256 ^ n) 256, Nat.mod_mul]

theorem ObliviousChooseInt_eq (p : Bool) (t f : Nat) (ht : t < 2 ^ 32) (hf : f < 2 ^ 32) :
    ObliviousChooseInt p t f = some (if p then t else f) := by
  unfold ObliviousChooseInt
  rw [(ObliviousChoose_spec p _ _ (leBytes_lt 4 t) (leBytes_lt 4 f)
    (by simp [leBytes_length]) (by simp [leBytes_length]))]
  norm_num at ht hf
  cases p <;> simp [leValue_leBytes, Nat.mod_eq_of_lt, ht, hf]

theorem elemAt_of_lt {α : Type} (arr : List α) (pos : Nat) (h : pos < 2 ^ 31) :
    elemAt arr pos = arr[pos]? := by
  unfold elemAt
  rw [Nat.mod_eq_of_lt (by omega), if_pos h]

theorem group_eq_iff (st j i : Nat) (hst : 0 < st) (hdvd : st ∣ j) :
    j / st = i / st ↔ j ≤ i ∧ i < j + st := by
  obtain ⟨q, rfl⟩ := hdvd
  rw [Nat.mul_div_cancel_left q hst]
  have h1 : q ≤ i / st ↔ q * st ≤ i := Nat.le_div_iff_mul_le hst
  have h2 : i / st < q + 1 ↔ i < (q + 1) * st := Nat.div_lt_iff_lt_mul hst
  have e1 : q * st = st * q := mul_comm _ _
  have e2 : (q + 1) * st = st * q + st := by ring
  rw [e1] at h1
  rw [e2] at h2
  constructor
  · intro h; exact ⟨h1.mp (by omega), h2.mp (by omega)⟩
  · rintro ⟨h3, h4⟩
    have := h1.mpr h3
    have := h2.mpr h4
    omega

theorem sweep_test (n j : Nat) (hn : n ≤ 2 ^ 64 - 2 ^ 31) (hj : j < 2 ^ 32) :
    intToSize j < n ↔ (j < n ∧ j < 2 ^ 31) := by
  by_cases h : j < 2 ^ 31
  · rw [intToSize_of_lt j h]
    exact ⟨fun h' => ⟨h', h⟩, fun h' => h'.1⟩
  · have := intToSize_of_ge j (by omega) hj
    constructor
    · intro h'; omega
    · intro h'; omega

theorem sweep_cond (st i j : Nat) (hst2 : st < 2 ^ 31) (hi2 : i < 2 ^ 31) (hj : j < 2 ^ 31) :
    (ObliviousEqual 32 (intDiv j st) (intDiv i st) != 0) = decide (j / st = i / st) := by
  rw [intDiv_of_lt j st hj hst2, intDiv_of_lt i st hi2 hst2,
    ObliviousEqual_eq 32 _ _ (by decide)
      (lt_of_le_of_lt (Nat.div_le_self j st) (by omega))
      (lt_of_le_of_lt (Nat.div_le_self i st) (by omega))]
  by_cases h : j / st = i / st <;> simp [h]

theorem intAdd_of_lt (a b : Nat) (h : a + b < 2 ^ 31) : intAdd a b = some (a + b) := by
  unfold intAdd
  rw [toSigned_of_lt 32 a (by decide) (by omega), toSigned_of_lt 32 b (by decide) (by omega)]
  have hs : ((a : Int) + (b : Int)) = ((a + b : Nat) : Int) := by push_cast; rfl
  simp only [hs]
  rw [if_pos (by constructor <;> omega), ofInt_natCast 32 (a + b) (by omega)]

/-- The increment `j += step` at `j = 2^31 - 64`, `step = 64` overflows `int` and is undefined;
below the bound it is the sum. -/
theorem intAdd_overflow : intAdd 2147483584 64 = none ∧ intAdd 64 64 = some 128 := by
  decide

theorem sweep_count (st n t : Nat) (hst : 0 < st) : t < (n + st - 1) / st ↔ t * st < n := by
  have h : t + 1 ≤ (n + st - 1) / st ↔ (t + 1) * st ≤ n + st - 1 := Nat.le_div_iff_mul_le hst
  have e : (t + 1) * st = t * st + st := by ring
  rw [e] at h
  constructor
  · intro ht
    have := h.mp (by omega)
    omega
  · intro ht
    have := h.mpr (by omega)
    omega

theorem sweep_counter_bound (st n : Nat) (hst : 0 < st)
    (hn : (n + st - 1) / st * st < 2 ^ 31) :
    n < 2 ^ 31 ∧ ∀ j, st ∣ j → j < n → j + st < 2 ^ 31 := by
  constructor
  · by_contra hcon
    have := (sweep_count st n ((n + st - 1) / st) hst).mpr (by omega)
    omega
  · rintro j ⟨t, rfl⟩ hj
    rw [Nat.mul_comm] at hj ⊢
    have ht := (sweep_count st n t hst).mpr hj
    have h1 : (t + 1) * st ≤ (n + st - 1) / st * st := Nat.mul_le_mul_right st (by omega)
    have e : (t + 1) * st = t * st + st := by ring
    omega

theorem accessLoop_spec (st i n size : Nat) (arr : List (List Nat)) (ai : List Nat)
    (hst : 0 < st) (hst2 : st < 2 ^ 31) (hi : i < n) (hn : n < 2 ^ 31)
    (hstep : ∀ j, st ∣ j → j < n → j + st < 2 ^ 31)
    (hlen : arr.length = n) (hwf : WellFormed size arr)
    (heven : size % 2 = 0) (hai : arr[i]? = some ai) :
    ∀ (f j : Nat) (result trace : List Nat), st ∣ j → j < 2 ^ 31 →
      result.length = size → (∀ b ∈ result, b < 256) → n ≤ j + f →
      (∀ p ∈ trace, p < n) →
      ∃ tr, accessLoop st i n arr (f + 1) j result trace
          = some (if j ≤ i then ai else result, tr) ∧
        tr.map (· / st) = trace.map (· / st) ++ sweepGroups st n (f + 1) j ∧
        (∀ p ∈ tr, p < n) := by
  have hi2 : i < 2 ^ 31 := by omega
  have hn64 : n ≤ 2 ^ 64 - 2 ^ 31 := by omega
  intro f
  induction f with
  | zero =>
    intro j result trace _ hj _ _ hmin htr
    have hexit : ¬ (j < n ∧ j < 2 ^ 31) := by
      intro h; simp only [Nat.add_zero] at hmin
      omega
    have hji : ¬ j ≤ i := by
      intro h; exact hexit ⟨by omega, by omega⟩
    refine ⟨trace, ?_, ?_, htr⟩
    · simp only [accessLoop, sweep_test n j hn64 (by omega), if_neg hexit, if_neg hji]
    · simp only [sweepGroups, if_neg hexit, List.append_nil]
  | succ f ih =>
    intro j result trace hdvd hj hrl hrb hmin htr
    by_cases hc : j < n ∧ j < 2 ^ 31
    · obtain ⟨hjn, hj31⟩ := hc
      have hjst := hstep j hdvd hjn
      have hgrp := group_eq_iff st j i hst hdvd
      -- the element read
      have hpos : (if decide (j / st = i / st) then i else j) < n := by
        split_ifs <;> assumption
      have hpos2 : (if decide (j / st = i / st) then i else j) < 2 ^ 31 := by
        split_ifs <;> assumption
      obtain ⟨e, he⟩ : ∃ e, arr[if decide (j / st = i / st) then i else j]? = some e := by
        rw [List.getElem?_eq_getElem (by omega)]; exact ⟨_, rfl⟩
      have hewf := hwf e (List.getElem?_mem he)
      have hchoose := (ObliviousChoose_spec (decide (j / st = i / st)) e result hewf.2 hrb
        (by rw [hrl, hewf.1]) (by rw [hewf.1]; exact heven))
      have hnext : intAdd j st = some (j + st) := intAdd_of_lt j st (by omega)
      have hr' : (if decide (j / st = i / st) then e else result).length = size ∧
          ∀ b ∈ (if decide (j / st = i / st) then e else result), b < 256 := by
        split_ifs
        · exact hewf
        · exact ⟨hrl, hrb⟩
      obtain ⟨tr, h1, h2, h3⟩ := ih (j + st) (if decide (j / st = i / st) then e else result)
        (trace ++ [if decide (j / st = i / st) then i else j])
        (Dvd.dvd.add hdvd (dvd_refl st)) (by omega) hr'.1 hr'.2 (by omega)
        (by
          intro p hp
          rcases List.mem_append.mp hp with hp | hp
          · exact htr p hp
          · rw [List.mem_singleton] at hp; rw [hp]; exact hpos)
      refine ⟨tr, ?_, ?_, h3⟩
      · rw [accessLoop, if_pos ((sweep_test n j hn64 (by omega)).mpr ⟨hjn, hj31⟩)]
        simp only [sweep_cond st i j hst2 hi2 hj31,
          ObliviousChooseInt_eq _ i j (by omega) (by omega), Option.bind_eq_bind,
          Option.some_bind, elemAt_of_lt arr _ hpos2, he, hchoose, hnext, h1]
        congr 2
        by_cases hg : j / st = i / st
        · have := hgrp.mp hg
          simp only [hg, decide_True, if_true] at he ⊢
          rw [hai] at he
          rw [if_neg (by omega), if_pos (by omega)]
          exact (Option.some.inj he).symm
        · simp only [hg, decide_False]
          by_cases hji : j ≤ i
          · have : j + st ≤ i := by
              by_contra hcon
              exact hg (hgrp.mpr ⟨hji, by omega⟩)
            rw [if_pos this, if_pos hji]
          · rw [if_neg (by omega), if_neg hji]; rfl
      · rw [h2]
        simp only [List.map_append, List.map_cons, List.map_nil, List.append_assoc,
          List.singleton_append]
        have hc' : j < n ∧ j < 2 ^ 31 := ⟨hjn, hj31⟩
        have hsg : sweepGroups st n (f + 1 + 1) j
            = (j / st) :: sweepGroups st n (f + 1) (j + st) := by
          rw [sweepGroups, if_pos hc']
        rw [hsg]
        congr 2
        by_cases hg : j / st = i / st
        · simp [hg]
        · simp [hg]
    · have hji : ¬ j ≤ i := by
        intro h; exact hc ⟨by omega, by omega⟩
      refine ⟨trace, ?_, ?_, htr⟩
      · simp only [accessLoop, sweep_test n j hn64 (by omega), if_neg hc, if_neg hji]
      · simp only [sweepGroups, if_neg hc, List.append_nil]

theorem sweepStep_bounds (cl size : Nat) (hcl : cl < 2 ^ 31) (hsize : 0 < size) :
    0 < sweepStep cl size ∧ sweepStep cl size < 2 ^ 31 := by
  unfold sweepStep
  split_ifs with h
  · have h1 : cl / size ≤ cl := Nat.div_le_self _ _
    have h2 : 0 < cl / size := Nat.div_pos (le_of_lt h) hsize
    rw [Nat.mod_eq_of_lt (by omega)]
    exact ⟨h2, by omega⟩
  · exact ⟨by decide, by decide⟩

theorem ObliviousArrayAccessTraced_spec (cl size n i : Nat) (arr : List (List Nat))
    (hcl : cl < 2 ^ 31) (hsize : 0 < size) (heven : size % 2 = 0) (hwf : WellFormed size arr)
    (hlen : arr.length = n)
    (hn : (n + sweepStep cl size - 1) / sweepStep cl size * sweepStep cl size < 2 ^ 31)
    (hi : i < n) :
    ∃ ai tr, arr[i]? = some ai ∧ ObliviousArrayAccessTraced cl size arr i n = some (ai, tr) ∧
      tr.map (· / sweepStep cl size)
        = 0 :: sweepGroups (sweepStep cl size) n (n + 1) 0 ∧ (∀ p ∈ tr, p < n) := by
  obtain ⟨hst, hst2⟩ := sweepStep_bounds cl size hcl hsize
  obtain ⟨hn31, hstep⟩ := sweep_counter_bound (sweepStep cl size) n hst hn
  obtain ⟨ai, hai⟩ : ∃ ai, arr[i]? = some ai := by
    rw [List.getElem?_eq_getElem (by omega)]; exact ⟨_, rfl⟩
  obtain ⟨a0, ha0⟩ : ∃ a0, arr[0]? = some a0 := by
    rw [List.getElem?_eq_getElem (by omega)]; exact ⟨_, rfl⟩
  have h0 := hwf a0 (List.getElem?_mem ha0)
  obtain ⟨tr, h1, h2, h3⟩ := accessLoop_spec (sweepStep cl size) i n size arr ai hst hst2 hi
    hn31 hstep hlen hwf heven hai n 0 a0 [0] (dvd_zero _) (by decide)
    h0.1 h0.2 (by omega) (by intro p hp; rw [List.mem_singleton] at hp; omega)
  refine ⟨ai, tr, hai, ?_, ?_, h3⟩
  · simp only [ObliviousArrayAccessTraced, ha0, Option.bind_eq_bind, Option.some_bind, h1,
      Nat.zero_le, if_true]
  · rw [h2]; simp

/-- C4 (amended): for every even element size, every `N >= 1` for which the `int` counter of
the sweep does not overflow (`ceil(N / step) * step < 2^31`, the value of `j` when the loop
exits; `step` is the stride of the sweep), every array `v` of `N` such elements and every
index `0 <= i < N`, `ObliviousArrayAccess(v, i, N)` returns `v[i]` (whatever the relation of
the element size to the cache line). -/
theorem ObliviousArrayAccess_correct (cl size n i : Nat) (arr : List (List Nat))
    (hcl : cl < 2 ^ 31) (hsize : 0 < size) (heven : size % 2 = 0) (hwf : WellFormed size arr)
    (hlen : arr.length = n)
    (hn : (n + sweepStep cl size - 1) / sweepStep cl size * sweepStep cl size < 2 ^ 31)
    (hi : i < n) :
    ObliviousArrayAccess cl size arr i n = arr[i]? := by
  obtain ⟨ai, tr, h1, h2, -, -⟩ :=
    ObliviousArrayAccessTraced_spec cl size n i arr hcl hsize heven hwf hlen hn hi
  rw [ObliviousArrayAccess, h2, h1]; rfl

/-- Witness for C4 (amended): three 2-byte elements, index 2. -/
theorem ObliviousArrayAccess_correct_witness :
    ObliviousArrayAccess 64 2 [[1, 0], [2, 0], [3, 0]] 2 3 = [[1, 0], [2, 0], [3, 0]][2]? :=
  ObliviousArrayAccess_correct 64 2 3 2 [[1, 0], [2, 0], [3, 0]] (by decide) (by decide)
    (by decide) (by simp [WellFormed]) rfl (by decide) (by decide)

/-- C4 as stated fails for one-byte elements: `ObliviousChoose` (documented as supporting
types of size > 1 byte) makes a 16-bit access on the 1-byte objects, so the call on a
one-element `char` array is undefined instead of returning `v[0]`. -/
theorem ObliviousArrayAccess_one_byte :
    ObliviousArrayAccess 64 1 [[7]] 0 1 = none ∧
    ObliviousArrayAccess 64 1 [[7]] 0 1 ≠ [[7]][0]? := by
  decide

/-! ## Oblivious array assignment -/

theorem set_self_of_getElem? {α : Type} (l : List α) (j : Nat) (e : α) (h : l[j]? = some e) :
    l.set j e = l := by
  apply List.ext_getElem?
  intro k
  by_cases hk : j = k
  · subst hk
    have hlt : j < l.length := by
      obtain ⟨hlt, -⟩ := List.getElem?_eq_some.mp h; exact hlt
    rw [List.getElem?_set_self hlt, h]
  · rw [List.getElem?_set_ne hk]

theorem WellFormed_set (size : Nat) (arr : List (List Nat)) (k : Nat) (v : List Nat)
    (hwf : WellFormed size arr) (hv : v.length = size ∧ ∀ b ∈ v, b < 256) :
    WellFormed size (arr.set k v) := by
  intro e he
  rcases List.mem_or_eq_of_mem_set he with h | h
  · exact hwf e h
  · rw [h]; exact hv

theorem assignLoop_spec (st i n size : Nat) (val : List Nat)
    (hst : 0 < st) (hst2 : st < 2 ^ 31) (hi : i < n) (hn : n < 2 ^ 31)
    (hstep : ∀ j, st ∣ j → j < n → j + st < 2 ^ 31) (heven : size % 2 = 0)
    (hval : val.length = size ∧ ∀ b ∈ val, b < 256) :
    ∀ (f j : Nat) (arr : List (List Nat)), st ∣ j → j < 2 ^ 31 → arr.length = n →
      WellFormed size arr → n ≤ j + f →
      assignLoop st i n val (f + 1) j arr = some (if j ≤ i then arr.set i val else arr) := by
  have hi2 : i < 2 ^ 31 := by omega
  have hn64 : n ≤ 2 ^ 64 - 2 ^ 31 := by omega
  intro f
  induction f with
  | zero =>
    intro j arr _ hj _ _ hmin
    have hexit : ¬ (j < n ∧ j < 2 ^ 31) := by
      intro h; simp only [Nat.add_zero] at hmin
      omega
    have hji : ¬ j ≤ i := by
      intro h; exact hexit ⟨by omega, by omega⟩
    simp only [assignLoop, sweep_test n j hn64 (by omega), if_neg hexit, if_neg hji]
  | succ f ih =>
    intro j arr hdvd hj hlen hwf hmin
    by_cases hc : j < n ∧ j < 2 ^ 31
    · obtain ⟨hjn, hj31⟩ := hc
      have hjst := hstep j hdvd hjn
      have hgrp := group_eq_iff st j i hst hdvd
      have hpos : (if decide (j / st = i / st) then i else j) < n := by
        split_ifs <;> assumption
      have hpos2 : (if decide (j / st = i / st) then i else j) < 2 ^ 31 := by
        split_ifs <;> assumption
      obtain ⟨e, he⟩ : ∃ e, arr[if decide (j / st = i / st) then i else j]? = some e := by
        rw [List.getElem?_eq_getElem (by omega)]; exact ⟨_, rfl⟩
      have hewf := hwf e (List.getElem?_mem he)
      have hchoose := (ObliviousChoose_spec (decide (j / st = i / st)) val e hval.2 hewf.2
        (by rw [hval.1, hewf.1]) (by rw [hval.1]; exact heven))
      have hnext : intAdd j st = some (j + st) := intAdd_of_lt j st (by omega)
      have hposmod : (if decide (j / st = i / st) then i else j) % 2 ^ 32
          = (if decide (j / st = i / st) then i else j) := Nat.mod_eq_of_lt (by omega)
      have hr' : (if decide (j / st = i / st) then val else e).length = size ∧
          ∀ b ∈ (if decide (j / st = i / st) then val else e), b < 256 := by
        split_ifs
        · exact hval
        · exact hewf
      have h1 := ih (j + st)
        (arr.set (if decide (j / st = i / st) then i else j)
          (if decide (j / st = i / st) then val else e))
        (Dvd.dvd.add hdvd (dvd_refl st)) (by omega) (by rw [List.length_set]; exact hlen)
        (WellFormed_set size arr _ _ hwf hr') (by omega)
      rw [assignLoop, if_pos ((sweep_test n j hn64 (by omega)).mpr ⟨hjn, hj31⟩)]
      simp only [sweep_cond st i j hst2 hi2 hj31,
        ObliviousChooseInt_eq _ i j (by omega) (by omega), Option.bind_eq_bind,
        Option.some_bind, elemAt_of_lt arr _ hpos2, he, hchoose, hnext, hposmod, h1]
      congr 1
      by_cases hg : j / st = i / st
      · have := hgrp.mp hg
        simp only [hg, decide_True, if_true]
        rw [if_neg (by omega), if_pos (by omega)]
      · simp only [hg, decide_False, Bool.false_eq_true, if_false] at he ⊢
        rw [set_self_of_getElem? arr j e he]
        by_cases hji : j ≤ i
        · have : j + st ≤ i := by
            by_contra hcon
            exact hg (hgrp.mpr ⟨hji, by omega⟩)
          rw [if_pos this, if_pos hji]
        · rw [if_neg (by omega), if_neg hji]
    · have hji : ¬ j ≤ i := by
        intro h; exact hc ⟨by omega, by omega⟩
      simp only [assignLoop, sweep_test n j hn64 (by omega), if_neg hc, if_neg hji]

/-- C5 (amended): for every even element size, every `N` for which the `int` counter of the
sweep does not overflow (`ceil(N / step) * step < 2^31`, the value of `j` when the loop exits;
`step` is the stride of the sweep), every array `v` of `N` such elements, every index
`0 <= i < N` and every value `x`, after `ObliviousArrayAssign(v, i, N, x)` the array is `v`
with position `i` replaced by `x`. -/
theorem ObliviousArrayAssign_correct (cl size n i : Nat) (arr : List (List Nat))
    (val : List Nat) (hcl : cl < 2 ^ 31) (hsize : 0 < size) (heven : size % 2 = 0)
    (hwf : WellFormed size arr) (hval : val.length = size ∧ ∀ b ∈ val, b < 256)
    (hlen : arr.length = n)
    (hn : (n + sweepStep cl size - 1) / sweepStep cl size * sweepStep cl size < 2 ^ 31)
    (hi : i < n) :
    ObliviousArrayAssign cl size arr i n val = some (arr.set i val) ∧
    (arr.set i val)[i]? = some val ∧ ∀ j, j ≠ i → (arr.set i val)[j]? = arr[j]? := by
  obtain ⟨hst, hst2⟩ := sweepStep_bounds cl size hcl hsize
  obtain ⟨hn31, hstep⟩ := sweep_counter_bound (sweepStep cl size) n hst hn
  have h := assignLoop_spec (sweepStep cl size) i n size val hst hst2 hi hn31 hstep
    heven hval n 0 arr (dvd_zero _) (by decide) hlen hwf (by omega)
  refine ⟨?_, ?_, ?_⟩
  · rw [ObliviousArrayAssign, h, if_pos (Nat.zero_le _)]
  · rw [List.getElem?_set_self (by omega)]
  · intro j hj
    rw [List.getElem?_set_ne (Ne.symm hj)]

/-- Witness for C5 (amended): three 2-byte elements, position 1 replaced. -/
theorem ObliviousArrayAssign_correct_witness :
    ObliviousArrayAssign 64 2 [[1, 0], [2, 0], [3, 0]] 1 3 [9, 9]
      = some ([[1, 0], [2, 0], [3, 0]].set 1 [9, 9]) ∧
    ([[1, 0], [2, 0], [3, 0]].set 1 [9, 9])[1]? = some [9, 9] ∧
    ∀ j, j ≠ 1 → ([[1, 0], [2, 0], [3, 0]].set 1 [9, 9])[j]? = [[1, 0], [2, 0], [3, 0]][j]? :=
  ObliviousArrayAssign_correct 64 2 3 1 [[1, 0], [2, 0], [3, 0]] [9, 9] (by decide) (by decide)
    (by decide) (by simp [WellFormed]) (by decide) rfl (by decide) (by decide)

/-- C5 as stated fails for one-byte elements: the 16-bit access of `ObliviousChoose` leaves
the 1-byte objects, so the call is undefined instead of storing `x` at position 0. -/
theorem ObliviousArrayAssign_one_byte :
    ObliviousArrayAssign 64 1 [[7]] 0 1 [9] = none ∧
    ObliviousArrayAssign 64 1 [[7]] 0 1 [9] ≠ some ([[7]].set 0 [9]) := by
  decide

/-! ## Cache lines touched by the access sweep -/

theorem line_of_byte (cl base size st p b : Nat) (hcl : st * size = cl) (hbase : cl ∣ base)
    (hb : b < size) (hst : 0 < st) : (base + p * size + b) / cl = base / cl + p / st := by
  obtain ⟨c, rfl⟩ := hbase
  have hclpos : 0 < cl := by
    rw [← hcl]; exact Nat.mul_pos hst (by omega)
  have hp : p = st * (p / st) + p % st := (Nat.div_add_mod p st).symm
  have hr : p % st < st := Nat.mod_lt _ hst
  have h1 : p % st * size + b < cl := by
    have : (p % st + 1) * size ≤ st * size := Nat.mul_le_mul_right size hr
    rw [hcl] at this
    have e : (p % st + 1) * size = p % st * size + size := by ring
    omega
  have h2 : cl * c + p * size + b = cl * (c + p / st) + (p % st * size + b) := by
    conv_lhs => rw [hp]
    rw [← hcl]; ring
  rw [h2, Nat.mul_add_div hclpos, Nat.div_eq_of_lt h1, Nat.mul_div_cancel_left c hclpos]
  omega

theorem linesOf_group (cl base size st p : Nat) (hcl : st * size = cl) (hbase : cl ∣ base)
    (hst : 0 < st) :
    linesOf cl base size p
      = ((List.range size).map (fun _ => base / cl + p / st)).dedup := by
  unfold linesOf
  congr 1
  apply List.map_congr_left
  intro b hb
  exact line_of_byte cl base size st p b hcl hbase (List.mem_range.mp hb) hst

theorem sweepStep_cases (cl base size : Nat) (hsize : 0 < size)
    (hcl : cl < 2 ^ 31) (halign : cl < 2 * size ∨ (size ∣ cl ∧ cl ∣ base)) :
    sweepStep cl size = 1 ∨
      (sweepStep cl size * size = cl ∧ cl ∣ base ∧ 0 < sweepStep cl size) := by
  have hpos := (sweepStep_bounds cl size hcl hsize).1
  unfold sweepStep at hpos ⊢
  by_cases h : size < cl
  · rw [if_pos h] at hpos ⊢
    have : cl / size ≤ cl := Nat.div_le_self _ _
    rw [Nat.mod_eq_of_lt (by omega)] at hpos ⊢
    rcases halign with h' | ⟨h1, h2⟩
    · left
      have : cl / size < 2 := by
        rw [Nat.div_lt_iff_lt_mul hsize]; omega
      omega
    · right
      exact ⟨Nat.div_mul_cancel h1, h2, hpos⟩
  · left; rw [if_neg h]

theorem linesOf_group_head (cl base size st p : Nat)
    (hg : st = 1 ∨ (st * size = cl ∧ cl ∣ base ∧ 0 < st)) :
    linesOf cl base size p = linesOf cl base size (p / st * st) := by
  rcases hg with rfl | ⟨h1, h2, h3⟩
  · rw [Nat.div_one, Nat.mul_one]
  · rw [linesOf_group cl base size st p h1 h2 h3,
      linesOf_group cl base size st (p / st * st) h1 h2 h3, Nat.mul_div_cancel _ h3]

/-! ## Bitwise arithmetic on loop counters -/

theorem testBit_false_iff (i b : Nat) : i.testBit b = false ↔ (i / 2 ^ b) % 2 = 0 := by
  rw [Nat.testBit_to_div_mod]
  have := Nat.mod_two_eq_zero_or_one (i / 2 ^ b)
  rcases this with h | h <;> simp [h]

theorem lo_lt_of_clear (i b : Nat) (h : (i / 2 ^ b) % 2 = 0) : i % 2 ^ (b + 1) < 2 ^ b := by
  have hpos : 0 < 2 ^ b := by positivity
  have e : i % 2 ^ (b + 1) = i % 2 ^ b + 2 ^ b * ((i / 2 ^ b) % 2) := by
    rw [pow_succ, Nat.mod_mul]
  rw [e, h, Nat.mul_zero, Nat.add_zero]
  exact Nat.mod_lt _ hpos

theorem xor_two_pow_of_clear (i b : Nat) (h : (i / 2 ^ b) % 2 = 0) :
    i ^^^ 2 ^ b = i + 2 ^ b := by
  apply Nat.eq_of_testBit_eq
  intro m
  rw [Nat.testBit_xor, Nat.testBit_two_pow, Nat.add_comm]
  have hb : i.testBit b = false := (testBit_false_iff i b).mpr h
  rcases Nat.lt_trichotomy m b with hm | hm | hm
  · rw [Nat.testBit_two_pow_add_gt hm]
    have : ¬ b = m := by omega
    simp [this]
  · subst hm
    rw [Nat.testBit_two_pow_add_eq]
    simp
  · have hlo := lo_lt_of_clear i b h
    have hdecomp : i = 2 ^ (b + 1) * (i / 2 ^ (b + 1)) + i % 2 ^ (b + 1) :=
      (Nat.div_add_mod i _).symm
    have hpow : 2 ^ (b + 1) = 2 * 2 ^ b := by rw [pow_succ]; ring
    have h1 : 2 ^ b + i = 2 ^ (b + 1) * (i / 2 ^ (b + 1)) + (2 ^ b + i % 2 ^ (b + 1)) := by
      omega
    have h2 : 2 ^ b + i % 2 ^ (b + 1) < 2 ^ (b + 1) := by omega
    have h3 : i % 2 ^ (b + 1) < 2 ^ (b + 1) := by omega
    have hm' : ¬ m < b + 1 := by omega
    have hne : ¬ b = m := by omega
    rw [h1, Nat.testBit_mul_pow_two_add _ h2, if_neg hm']
    conv_lhs => rw [hdecomp, Nat.testBit_mul_pow_two_add _ h3, if_neg hm']
    simp [hne]

theorem xor_two_pow_of_set (i b : Nat) (h : (i / 2 ^ b) % 2 = 1) :
    i ^^^ 2 ^ b = i - 2 ^ b := by
  have hpos : 0 < 2 ^ b := by positivity
  have hge : 2 ^ b ≤ i := by
    by_contra hlt
    rw [Nat.div_eq_of_lt (by omega)] at h
    simp at h
  have hclear : ((i - 2 ^ b) / 2 ^ b) % 2 = 0 := by
    have : (i - 2 ^ b) / 2 ^ b = i / 2 ^ b - 1 := by
      obtain ⟨d, hd⟩ : ∃ d, i = d + 2 ^ b := ⟨i - 2 ^ b, by omega⟩
      rw [hd, Nat.add_sub_cancel, Nat.add_div_right _ hpos]
      rfl
    rw [this]; omega
  have := xor_two_pow_of_clear (i - 2 ^ b) b hclear
  have e : i = (i - 2 ^ b) ^^^ 2 ^ b := by rw [this]; omega
  conv_lhs => rw [e]
  rw [Nat.xor_assoc, Nat.xor_self, Nat.xor_zero]

theorem and_two_pow_eq_zero (i c : Nat) : i &&& 2 ^ c = 0 ↔ (i / 2 ^ c) % 2 = 0 := by
  rw [← testBit_false_iff]
  constructor
  · intro h
    have := congrArg (fun x => x.testBit c) h
    simpa [Nat.testBit_and, Nat.testBit_two_pow] using this
  · intro h
    apply Nat.eq_of_testBit_eq
    intro m
    rw [Nat.testBit_and, Nat.testBit_two_pow, Nat.zero_testBit]
    by_cases hm : c = m
    · subst hm; simp [h]
    · simp [hm]

/-! ## Comparator networks -/

theorem set_perm_cons {α : Type} : ∀ (t : List α) (q : Nat) (y a : α), t[q]? = some y →
    (y :: t.set q a).Perm (a :: t) := by
  intro t
  induction t with
  | nil => intro q y a h; simp at h
  | cons b t ih =>
    intro q y a h
    cases q with
    | zero =>
      simp only [List.getElem?_cons_zero, Option.some.injEq] at h
      subst h
      simp only [List.set_cons_zero]
      exact List.Perm.swap _ _ _
    | succ q =>
      simp only [List.getElem?_cons_succ] at h
      simp only [List.set_cons_succ]
      exact (List.Perm.swap _ _ _).trans (((ih q y a h).cons b).trans (List.Perm.swap _ _ _))

theorem swap_perm {α : Type} : ∀ (l : List α) (p q : Nat) (x y : α), l[p]? = some x →
    l[q]? = some y → ((l.set p y).set q x).Perm l := by
  intro l
  induction l with
  | nil => intro p q x y h; simp at h
  | cons a t ih =>
    intro p q x y hp hq
    cases p with
    | zero =>
      simp only [List.getElem?_cons_zero, Option.some.injEq] at hp
      subst hp
      cases q with
      | zero =>
        simp only [List.getElem?_cons_zero, Option.some.injEq] at hq
        subst hq
        simp
      | succ q =>
        simp only [List.getElem?_cons_succ] at hq
        simp only [List.set_cons_zero, List.set_cons_succ]
        exact set_perm_cons t q y a hq
    | succ p =>
      simp only [List.getElem?_cons_succ] at hp
      cases q with
      | zero =>
        simp only [List.getElem?_cons_zero, Option.some.injEq] at hq
        subst hq
        simp only [List.set_cons_zero, List.set_cons_succ]
        exact set_perm_cons t p x a hp
      | succ q =>
        simp only [List.getElem?_cons_succ] at hq
        simp only [List.set_cons_succ]
        exact (ih p q x y hp hq).cons a

theorem casPure_perm {α : Type} (greater : α → α → Bool) (arr : List α) (c : Nat × Nat × Bool) :
    (casPure greater arr c).Perm arr := by
  unfold casPure
  split
  · rename_i x y hx hy
    split_ifs
    · exact swap_perm arr _ _ x y hx hy
    · exact List.Perm.refl _
  · exact List.Perm.refl _

theorem applyNet_perm {α : Type} (greater : α → α → Bool) (net : List (Nat × Nat × Bool)) :
    ∀ arr : List α, (applyNet greater arr net).Perm arr := by
  induction net with
  | nil => intro arr; exact List.Perm.refl _
  | cons c net ih =>
    intro arr
    exact (ih (casPure greater arr c)).trans (casPure_perm greater arr c)

theorem casPure_length {α : Type} (greater : α → α → Bool) (arr : List α) (c : Nat × Nat × Bool) :
    (casPure greater arr c).length = arr.length :=
  (casPure_perm greater arr c).length_eq

theorem applyNet_length {α : Type} (greater : α → α → Bool) (net : List (Nat × Nat × Bool))
    (arr : List α) : (applyNet greater arr net).length = arr.length :=
  (applyNet_perm greater net arr).length_eq

theorem applyNet_append {α : Type} (greater : α → α → Bool) (arr : List α)
    (n1 n2 : List (Nat × Nat × Bool)) :
    applyNet greater arr (n1 ++ n2) = applyNet greater (applyNet greater arr n1) n2 := by
  simp [applyNet, List.foldl_append]

theorem casPure_frame {α : Type} (greater : α → α → Bool) (arr : List α)
    (c : Nat × Nat × Bool) (k : Nat) (h1 : k ≠ c.1) (h2 : k ≠ c.2.1) :
    (casPure greater arr c)[k]? = arr[k]? := by
  unfold casPure
  split
  · split_ifs
    · rw [List.getElem?_set_ne (Ne.symm h2), List.getElem?_set_ne (Ne.symm h1)]
    · rfl
  · rfl

theorem applyNet_frame {α : Type} (greater : α → α → Bool) (net : List (Nat × Nat × Bool))
    (k : Nat) (h : ∀ c ∈ net, k ≠ c.1 ∧ k ≠ c.2.1) :
    ∀ arr : List α, (applyNet greater arr net)[k]? = arr[k]? := by
  induction net with
  | nil => intro arr; rfl
  | cons c net ih =>
    intro arr
    have hc := h c (List.mem_cons_self _ _)
    have := ih (fun c' hc' => h c' (List.mem_cons_of_mem _ hc')) (casPure greater arr c)
    simp only [applyNet, List.foldl_cons] at this ⊢
    rw [this, casPure_frame greater arr c k hc.1 hc.2]

theorem casPure_map {α : Type} (greater : α → α → Bool) (f : α → Bool)
    (hf : Threshold greater f) (arr : List α) (c : Nat × Nat × Bool) :
    (casPure greater arr c).map f = casPure gtB (arr.map f) c := by
  unfold casPure
  simp only [List.getElem?_map]
  cases hx : arr[c.1]? with
  | none => simp
  | some x =>
    cases hy : arr[c.2.1]? with
    | none => simp
    | some y =>
      simp only [Option.map_some']
      have hxy := hf x y
      have hx' : (arr.map f)[c.1]? = some (f x) := by simp [hx]
      have hy' : (arr.map f)[c.2.1]? = some (f y) := by simp [hy]
      have hsame : f x = f y → ((arr.map f).set c.1 (f y)).set c.2.1 (f x) = arr.map f := by
        intro e
        have a1 : (arr.map f).set c.1 (f y) = arr.map f :=
          set_self_of_getElem? _ _ _ (by rw [hx', e])
        rw [a1, e, set_self_of_getElem? _ _ _ hy']
      rcases c with ⟨p, q, d⟩
      simp only [gtB] at *
      cases hg : greater x y <;> cases d <;> cases hfx : f x <;> cases hfy : f y <;>
        simp_all [List.map_set]

theorem applyNet_map {α : Type} (greater : α → α → Bool) (f : α → Bool)
    (hf : Threshold greater f) (net : List (Nat × Nat × Bool)) :
    ∀ arr : List α, (applyNet greater arr net).map f = applyNet gtB (arr.map f) net := by
  induction net with
  | nil => intro arr; rfl
  | cons c net ih =>
    intro arr
    have := ih (casPure greater arr c)
    simp only [applyNet, List.foldl_cons] at this ⊢
    rw [this, casPure_map greater f hf]

theorem forLoop_eq_runBodies {σ : Type} (cond : Nat → Bool) (next : Nat → Nat)
    (body : Nat → σ → Option σ) :
    ∀ (cs : List Nat) (fuel c : Nat) (s : σ), IterOK cond next c cs → cs.length < fuel →
      forLoop cond next body fuel c s = runBodies body cs s := by
  intro cs
  induction cs with
  | nil =>
    intro fuel c s h hf
    obtain ⟨f, rfl⟩ : ∃ f, fuel = f + 1 := ⟨fuel - 1, by simp at hf; omega⟩
    simp only [IterOK] at h
    simp [forLoop, h, runBodies]
  | cons x xs ih =>
    intro fuel c s h hf
    obtain ⟨f, rfl⟩ : ∃ f, fuel = f + 1 := ⟨fuel - 1, by simp at hf; omega⟩
    obtain ⟨rfl, hc, hrest⟩ := h
    simp only [forLoop, hc, if_true, runBodies]
    cases hb : body x s with
    | none => rfl
    | some s1 =>
      simp only [Option.some_bind, Option.bind_eq_bind]
      exact ih f (next x) s1 hrest (by simp at hf; omega)

/-- Running bodies that all succeed and preserve an invariant. -/
theorem runBodies_eq_foldl {σ : Type} (body : Nat → σ → Option σ) (g : Nat → σ → σ)
    (P : σ → Prop) (cs : List Nat)
    (h : ∀ c ∈ cs, ∀ s, P s → body c s = some (g c s) ∧ P (g c s)) :
    ∀ s, P s → runBodies body cs s = some (cs.foldl (fun s c => g c s) s) ∧
      P (cs.foldl (fun s c => g c s) s) := by
  induction cs with
  | nil => intro s hs; exact ⟨rfl, hs⟩
  | cons c cs ih =>
    intro s hs
    obtain ⟨h1, h2⟩ := h c (List.mem_cons_self _ _) s hs
    have := ih (fun c' hc' => h c' (List.mem_cons_of_mem _ hc')) (g c s) h2
    simp only [runBodies, h1, Option.some_bind, Option.bind_eq_bind, List.foldl_cons]
    exact this

theorem swapPred_eq (b asc : Bool) : swapPred b asc = (b == asc) := by
  cases b <;> cases asc <;> decide

theorem swapStep_eq {α : Type} (choose : Bool → α → α → Option α) (Good : α → Prop)
    (hchoose : ∀ p a b, Good a → Good b → choose p a b = some (if p then a else b))
    (arr : List α) (pred : Bool) (i1 i2 : Nat) (x y : α) (hne : i1 ≠ i2)
    (h1 : arr[i1]? = some x) (h2 : arr[i2]? = some y) (hg : ∀ e ∈ arr, Good e) :
    swapStep choose arr pred i1 i2 = some (if pred then (arr.set i1 y).set i2 x else arr) := by
  have gx := hg x (List.getElem?_mem h1)
  have gy := hg y (List.getElem?_mem h2)
  have h3 : ∀ v, (arr.set i1 v)[i2]? = some y := by
    intro v; rw [List.getElem?_set_ne hne, h2]
  simp only [swapStep, h1, h2, Option.bind_eq_bind, Option.some_bind, hchoose pred y x gy gx,
    h3, hchoose pred x y gx gy]
  cases pred
  · simp only [Bool.false_eq_true, if_false]
    rw [set_self_of_getElem? arr i1 x h1, set_self_of_getElem? arr i2 y h2]
  · simp only [if_true]

theorem comparator_eq {α : Type} (greater : α → α → Bool) (choose : Bool → α → α → Option α)
    (Good : α → Prop)
    (hchoose : ∀ p a b, Good a → Good b → choose p a b = some (if p then a else b))
    (asc : Bool) (arr : List α) (p q i1 i2 : Nat) (hne : p ≠ q)
    (hpq : (i1 = p ∧ i2 = q) ∨ (i1 = q ∧ i2 = p))
    (hp : p < arr.length) (hq : q < arr.length) (hg : ∀ e ∈ arr, Good e) :
    comparator greater choose asc arr p q i1 i2 = some (casPure greater arr (p, q, asc)) := by
  have h1 : arr[p]? = some arr[p] := List.getElem?_eq_getElem hp
  have h2 : arr[q]? = some arr[q] := List.getElem?_eq_getElem hq
  simp only [comparator, casPure, h1, h2, Option.bind_eq_bind, Option.some_bind, swapPred_eq]
  rcases hpq with ⟨rfl, rfl⟩ | ⟨rfl, rfl⟩
  · rw [swapStep_eq choose Good hchoose arr _ i1 i2 _ _ hne h1 h2 hg]
  · rw [swapStep_eq choose Good hchoose arr _ i1 i2 _ _ (Ne.symm hne) h2 h1 hg]
    split_ifs
    · rw [List.set_comm _ _ _ hne]
    · rfl

/-! ## The loops of `imperative_o_sort` as a comparator network -/

theorem ArrInv_applyNet {α : Type} (Good : α → Prop) (L : Nat) (greater : α → α → Bool)
    (net : List (Nat × Nat × Bool)) (arr : List α) (h : ArrInv Good L arr) :
    ArrInv Good L (applyNet greater arr net) := by
  have hp := applyNet_perm greater net arr
  exact ⟨by rw [hp.length_eq]; exact h.1, fun e he => h.2 e (hp.subset he)⟩

theorem runBodies_net {α : Type} (Good : α → Prop) (L : Nat) (greater : α → α → Bool)
    (body : Nat → List α → Option (List α)) (nets : Nat → List (Nat × Nat × Bool))
    (cs : List Nat)
    (h : ∀ c ∈ cs, ∀ s, ArrInv Good L s → body c s = some (applyNet greater s (nets c))) :
    ∀ s, ArrInv Good L s → runBodies body cs s = some (applyNet greater s (cs.flatMap nets)) := by
  induction cs with
  | nil => intro s _; rfl
  | cons c cs ih =>
    intro s hs
    have h1 := h c (List.mem_cons_self _ _) s hs
    have h2 := ih (fun c' hc' => h c' (List.mem_cons_of_mem _ hc')) _
      (ArrInv_applyNet Good L greater (nets c) s hs)
    simp only [runBodies, h1, Option.some_bind, Option.bind_eq_bind, h2, List.flatMap_cons,
      applyNet_append]

theorem iter_count (n : Nat) (hn : n < 2 ^ 32) : ∀ (m c : Nat), c + m = n →
    IterOK (fun i => decide (i < n)) (fun i => (i + 1) % 2 ^ 32) c (List.range' c m) := by
  intro m
  induction m with
  | zero => intro c h; simp [IterOK]; omega
  | succ m ih =>
    intro c h
    simp only [List.range', IterOK, true_and, decide_eq_true_eq]
    refine ⟨by omega, ?_⟩
    rw [Nat.mod_eq_of_lt (by omega)]
    exact ih (c + 1) (by omega)

theorem iter_halvings : ∀ c : Nat,
    IterOK (fun j => decide (j > 0)) (fun j => j >>> 1) (2 ^ c >>> 1) (halvings c) := by
  intro c
  induction c with
  | zero => simp [IterOK, halvings]
  | succ c ih =>
    have e : 2 ^ (c + 1) >>> 1 = 2 ^ c := by
      rw [Nat.shiftRight_eq_div_pow, pow_succ]; simp
    rw [e]
    simp only [halvings, IterOK, true_and, decide_eq_true_eq]
    exact ⟨by positivity, ih⟩

theorem partner_lt (i b p : Nat) (h : (i / 2 ^ b) % 2 = 0) (hi : i < 2 ^ p) (hb : b < p) :
    i + 2 ^ b < 2 ^ p := by
  obtain ⟨d, rfl⟩ : ∃ d, p = b + 1 + d := ⟨p - (b + 1), by omega⟩
  have hpos : 0 < 2 ^ b := by positivity
  have hpow : 2 ^ (b + 1 + d) = 2 ^ b * (2 * 2 ^ d) := by rw [pow_add, pow_succ]; ring
  rw [hpow] at hi ⊢
  have hq : i / 2 ^ b < 2 * 2 ^ d := (Nat.div_lt_iff_lt_mul hpos).mpr (by rw [mul_comm]; exact hi)
  have hq2 : i / 2 ^ b + 2 ≤ 2 * 2 ^ d := by omega
  have hmod := Nat.div_add_mod i (2 ^ b)
  have hlt := Nat.mod_lt i hpos
  have : 2 ^ b * (i / 2 ^ b + 2) ≤ 2 ^ b * (2 * 2 ^ d) := Nat.mul_le_mul_left _ hq2
  have e : 2 ^ b * (i / 2 ^ b + 2) = 2 ^ b * (i / 2 ^ b) + 2 ^ b + 2 ^ b := by ring
  omega

theorem xor_gt_iff (i b : Nat) : i ^^^ 2 ^ b > i ↔ (i / 2 ^ b) % 2 = 0 := by
  have hpos : 0 < 2 ^ b := by positivity
  rcases Nat.mod_two_eq_zero_or_one (i / 2 ^ b) with h | h
  · rw [xor_two_pow_of_clear i b h]; simp [h]
  · rw [xor_two_pow_of_set i b h]; simp [h]

theorem mem_halvings (c j : Nat) : j ∈ halvings c ↔ ∃ b, b < c ∧ j = 2 ^ b := by
  induction c with
  | zero => simp [halvings]
  | succ c ih =>
    simp only [halvings, List.mem_cons, ih]
    constructor
    · rintro (rfl | ⟨b, hb, rfl⟩)
      · exact ⟨c, by omega, rfl⟩
      · exact ⟨b, by omega, rfl⟩
    · rintro ⟨b, hb, rfl⟩
      by_cases h : b = c
      · left; rw [h]
      · right; exact ⟨b, by omega, rfl⟩

theorem halvings_length (c : Nat) : (halvings c).length = c := by
  induction c with
  | zero => rfl
  | succ c ih => simp [halvings, ih]

section SortRefinement

variable {α : Type} (greater : α → α → Bool) (choose : Bool → α → α → Option α)
  (Good : α → Prop)
  (hchoose : ∀ p a b, Good a → Good b → choose p a b = some (if p then a else b))

include hchoose

theorem sortBody_eq (base : Nat) (asc : Bool) (k b p i L : Nat) (arr : List α)
    (hb : b < p) (hi : i < 2 ^ p) (hL : base + 2 ^ p ≤ L) (hinv : ArrInv Good L arr) :
    sortBody greater choose base asc k (2 ^ b) i arr
      = some (applyNet greater arr
          (if i ^^^ 2 ^ b > i then
            [if i &&& k = 0 then (base + i, base + (i ^^^ 2 ^ b), asc)
              else (base + (i ^^^ 2 ^ b), base + i, asc)]
          else [])) := by
  unfold sortBody
  by_cases hgt : i ^^^ 2 ^ b > i
  · have hclear := (xor_gt_iff i b).mp hgt
    have hx := xor_two_pow_of_clear i b hclear
    have hlt := partner_lt i b p hclear hi hb
    have hpos : 0 < 2 ^ b := by positivity
    simp only [hgt, if_true]
    rw [hx]
    by_cases hk : i &&& k = 0
    · simp only [hk, if_true]
      rw [comparator_eq greater choose Good hchoose asc arr _ _ _ _ (by omega)
        (Or.inl ⟨rfl, rfl⟩) (by rw [hinv.1]; omega) (by rw [hinv.1]; omega) hinv.2]
      rfl
    · simp only [hk, if_false]
      rw [comparator_eq greater choose Good hchoose asc arr _ _ _ _ (by omega)
        (Or.inr ⟨rfl, rfl⟩) (by rw [hinv.1]; omega) (by rw [hinv.1]; omega) hinv.2]
      rfl
  · simp only [hgt, if_false]
    rfl

theorem sortPass_run (base : Nat) (asc : Bool) (k b p L fuel : Nat) (arr : List α)
    (hb : b < p) (hp : p ≤ 31) (hL : base + 2 ^ p ≤ L) (hfuel : 2 ^ p < fuel)
    (hinv : ArrInv Good L arr) :
    forLoop (fun i => decide (i < 2 ^ p)) (fun i => (i + 1) % 2 ^ 32)
        (fun i arr => sortBody greater choose base asc k (2 ^ b) i arr) fuel 0 arr
      = some (applyNet greater arr (sortPass base asc k (2 ^ b) (2 ^ p))) := by
  have hn : 2 ^ p < 2 ^ 32 := Nat.pow_lt_pow_right (by decide : 1 < 2) (by omega : p < 32)
  rw [forLoop_eq_runBodies _ _ _ (List.range' 0 (2 ^ p)) fuel 0 arr
    (iter_count (2 ^ p) hn (2 ^ p) 0 (by omega)) (by simpa using hfuel)]
  rw [runBodies_net Good L greater _
    (fun i => if i ^^^ 2 ^ b > i then
        [if i &&& k = 0 then (base + i, base + (i ^^^ 2 ^ b), asc)
          else (base + (i ^^^ 2 ^ b), base + i, asc)]
      else []) _ _ arr hinv]
  · rw [← List.range_eq_range']; rfl
  · intro i hi s hs
    have hi' : i < 2 ^ p := by
      have := List.mem_range'_1.mp hi; omega
    exact sortBody_eq greater choose Good hchoose base asc k b p i L s hb hi' hL hs

theorem sortStage_run (base : Nat) (asc : Bool) (c p L fuel : Nat) (arr : List α)
    (hc : c ≤ p) (hp : p ≤ 31) (hL : base + 2 ^ p ≤ L) (hfuel : 2 ^ p < fuel)
    (hinv : ArrInv Good L arr) :
    forLoop (fun j => decide (j > 0)) (fun j => j >>> 1)
        (fun j arr =>
          forLoop (fun i => decide (i < 2 ^ p)) (fun i => (i + 1) % 2 ^ 32)
            (fun i arr => sortBody greater choose base asc (2 ^ c) j i arr) fuel 0 arr)
        fuel (2 ^ c >>> 1) arr
      = some (applyNet greater arr (sortStage base asc (2 ^ p) c)) := by
  have hcp : c < 2 ^ p := lt_of_le_of_lt hc (Nat.lt_two_pow p)
  rw [forLoop_eq_runBodies _ _ _ (halvings c) fuel _ arr (iter_halvings c)
    (by rw [halvings_length]; omega)]
  rw [runBodies_net Good L greater _ (fun j => sortPass base asc (2 ^ c) j (2 ^ p)) _ _ arr hinv]
  · rfl
  · intro j hj s hs
    obtain ⟨b, hb, rfl⟩ := (mem_halvings c j).mp hj
    exact sortPass_run greater choose Good hchoose base asc (2 ^ c) b p L fuel s (by omega) hp
      hL hfuel hs

theorem sortStages_run (base : Nat) (asc : Bool) (p L fuel : Nat)
    (hp : p ≤ 30) (hL : base + 2 ^ p ≤ L) (hfuel : 2 ^ p < fuel) :
    ∀ (m c g : Nat) (arr : List α), c + m = p + 1 → m < g → ArrInv Good L arr →
      forLoop (fun k => decide (k ≤ 2 ^ p)) (fun k => (2 * k) % 2 ^ 32)
        (fun k arr =>
          forLoop (fun j => decide (j > 0)) (fun j => j >>> 1)
            (fun j arr =>
              forLoop (fun i => decide (i < 2 ^ p)) (fun i => (i + 1) % 2 ^ 32)
                (fun i arr => sortBody greater choose base asc k j i arr) fuel 0 arr)
            fuel (k >>> 1) arr)
        g (2 ^ c) arr
      = some (applyNet greater arr (sortStages base asc (2 ^ p) m c)) := by
  intro m
  induction m with
  | zero =>
    intro c g arr hc hg _
    obtain ⟨f, rfl⟩ : ∃ f, g = f + 1 := ⟨g - 1, by omega⟩
    have : ¬ 2 ^ c ≤ 2 ^ p := by
      rw [show c = p + 1 by omega]
      exact not_le.mpr (Nat.pow_lt_pow_right (by decide : 1 < 2) (by omega : p < p + 1))
    simp [forLoop, this, sortStages, applyNet]
  | succ m ih =>
    intro c g arr hc hg hinv
    obtain ⟨f, rfl⟩ : ∃ f, g = f + 1 := ⟨g - 1, by omega⟩
    have hcp : c ≤ p := by omega
    have hle : 2 ^ c ≤ 2 ^ p := Nat.pow_le_pow_right (by decide) hcp
    have hnext : (2 * 2 ^ c) % 2 ^ 32 = 2 ^ (c + 1) := by
      rw [pow_succ, mul_comm]
      apply Nat.mod_eq_of_lt
      rw [← pow_succ]
      exact Nat.pow_lt_pow_right (by decide : 1 < 2) (by omega : c + 1 < 32)
    rw [forLoop]
    simp only [hle, decide_True, if_true]
    rw [sortStage_run greater choose Good hchoose base asc c p L fuel arr hcp (by omega) hL
      hfuel hinv]
    simp only [Option.some_bind, Option.bind_eq_bind, hnext]
    rw [ih (c + 1) f _ (by omega) (by omega) (ArrInv_applyNet Good L greater _ arr hinv)]
    simp only [sortStages, applyNet_append]

theorem imperative_o_sort_gen_eq (base : Nat) (asc : Bool) (p L fuel : Nat) (arr : List α)
    (hp : p ≤ 30) (hL : base + 2 ^ p ≤ L) (hfuel : 2 ^ p < fuel)
    (hinv : ArrInv Good L arr) :
    imperative_o_sort_gen greater choose fuel arr base (2 ^ p) asc
      = some (applyNet greater arr (sortNet base asc p)) := by
  have hplt : p < 2 ^ p := Nat.lt_two_pow p
  exact sortStages_run greater choose Good hchoose base asc p L fuel hp hL hfuel p 1 fuel arr
    (by omega) (by omega) hinv

end SortRefinement

/-! ## The loops of `imperative_o_merge` as a comparator network -/

theorem iter_count_gen (cond : Nat → Bool) (cnt : Nat) (hcnt : cnt < 2 ^ 32)
    (h1 : ∀ k, k < cnt → cond k = true) (h2 : cond cnt = false) :
    ∀ (m c : Nat), c + m = cnt →
      IterOK cond (fun i => (i + 1) % 2 ^ 32) c (List.range' c m) := by
  intro m
  induction m with
  | zero => intro c h; simp only [List.range', IterOK]; rw [show c = cnt by omega]; exact h2
  | succ m ih =>
    intro c h
    simp only [List.range', IterOK, true_and]
    refine ⟨h1 c (by omega), ?_⟩
    rw [Nat.mod_eq_of_lt (by omega)]
    exact ih (c + 1) (by omega)

theorem iter_stride (n bs cnt : Nat) (hn : n = cnt * bs) (hbs : 0 < bs) (hlt : n < 2 ^ 32) :
    ∀ (m t : Nat), t + m = cnt →
      IterOK (fun j => decide (j < n)) (fun j => (j + bs) % 2 ^ 32) (t * bs)
        ((List.range' t m).map (· * bs)) := by
  intro m
  induction m with
  | zero =>
    intro t h
    simp only [List.range', List.map_nil, IterOK, decide_eq_false_iff_not, not_lt]
    rw [hn, show t = cnt by omega]
  | succ m ih =>
    intro t h
    have h1 : t * bs + bs ≤ n := by
      rw [hn]
      have : (t + 1) * bs ≤ cnt * bs := Nat.mul_le_mul_right bs (by omega)
      have e : (t + 1) * bs = t * bs + bs := by ring
      omega
    simp only [List.range', List.map_cons, IterOK, true_and, decide_eq_true_eq]
    refine ⟨by omega, ?_⟩
    rw [Nat.mod_eq_of_lt (by omega)]
    have e : t * bs + bs = (t + 1) * bs := by ring
    rw [e]
    exact ih (t + 1) (by omega)

theorem shift_pow (l i : Nat) (hi : i ≤ l) : 2 ^ l >>> i = 2 ^ (l - i) := by
  rw [Nat.shiftRight_eq_div_pow]
  exact Nat.pow_div hi (by decide)

section MergeRefinement

variable {α : Type} (greater : α → α → Bool) (choose : Bool → α → α → Option α)
  (Good : α → Prop)
  (hchoose : ∀ p a b, Good a → Good b → choose p a b = some (if p then a else b))

include hchoose

theorem mergeInner_run (low len : Nat) (asc : Bool) (n j half L fuel : Nat) (arr : List α)
    (hhalf : 0 < half) (hwrap : low + n ≤ 2 ^ 32) (hj : j + 2 * half ≤ n)
    (hlt : low + len < 2 ^ 32) (hL : low + len ≤ L) (hfuel : n < fuel)
    (hinv : ArrInv Good L arr) :
    forLoop
        (fun k => decide (k < half) && !decide (mergeI2 low k j half ≥ (low + len) % 2 ^ 32))
        (fun k => (k + 1) % 2 ^ 32)
        (fun k arr =>
          comparator greater choose asc arr (mergeI1 low k j) (mergeI2 low k j half)
            (mergeI1 low k j) (mergeI2 low k j half))
        fuel 0 arr
      = some (applyNet greater arr
          ((List.range (min half (len - (j + half)))).flatMap
            (fun k => [(low + k + j, low + k + j + half, asc)]))) := by
  have hI1 : ∀ k, k ≤ half → mergeI1 low k j = low + k + j := by
    intro k hk; unfold mergeI1; exact Nat.mod_eq_of_lt (by omega)
  have hI2 : ∀ k, k < half → mergeI2 low k j half = low + k + j + half := by
    intro k hk; unfold mergeI2; rw [hI1 k (by omega)]; exact Nat.mod_eq_of_lt (by omega)
  have hend : (low + len) % 2 ^ 32 = low + len := Nat.mod_eq_of_lt hlt
  have hcond : ∀ k, 
      (decide (k < half) && !decide (mergeI2 low k j half ≥ (low + len) % 2 ^ 32))
        = decide (k < min half (len - (j + half))) := by
    intro k
    by_cases hk2 : k < half
    · rw [hI2 k hk2, hend]
      by_cases h3 : k < len - (j + half)
      · have : ¬ (low + k + j + half ≥ low + len) := by omega
        simp [hk2, h3, this]
      · have : low + k + j + half ≥ low + len := by omega
        simp [hk2, h3, this]
    · have : ¬ k < min half (len - (j + half)) := by omega
      simp [hk2, this]
  have hcnt : min half (len - (j + half)) ≤ n := by omega
  have hiter := iter_count_gen
    (fun k => decide (k < half) && !decide (mergeI2 low k j half ≥ (low + len) % 2 ^ 32))
    (min half (len - (j + half))) (by omega)
    (fun k hk => by simp only [hcond]; simpa using hk)
    (by simp only [hcond]; simp) (min half (len - (j + half))) 0 (by omega)
  rw [forLoop_eq_runBodies _ _ _ (List.range' 0 (min half (len - (j + half)))) fuel 0 arr
    hiter (by rw [List.length_range']; omega)]
  rw [runBodies_net Good L greater _ (fun k => [(low + k + j, low + k + j + half, asc)]) _ _
    arr hinv]
  · rw [← List.range_eq_range']
  · intro k hk s hs
    have hk' : k < min half (len - (j + half)) := by
      have := List.mem_range'_1.mp hk; omega
    have hk2 : k < half := by omega
    have hk3 : k < len - (j + half) := by omega
    simp only []
    rw [hI1 k (by omega), hI2 k hk2]
    rw [comparator_eq greater choose Good hchoose asc s _ _ _ _ (by omega)
      (Or.inl ⟨rfl, rfl⟩) (by rw [hs.1]; omega) (by rw [hs.1]; omega) hs.2]
    rfl

theorem mergePass_run (low len : Nat) (asc : Bool) (l i L fuel : Nat) (arr : List α)
    (hi : i < l) (hl : l ≤ 31) (hwrap : low + 2 ^ l ≤ 2 ^ 32)
    (hlt : low + len < 2 ^ 32) (hL : low + len ≤ L) (hfuel : 2 ^ l < fuel)
    (hinv : ArrInv Good L arr) :
    forLoop (fun j => decide (j < 2 ^ l)) (fun j => (j + (2 ^ l >>> i)) % 2 ^ 32)
        (fun j arr =>
          forLoop
            (fun k => decide (k < (2 ^ l >>> i) / 2) &&
              !decide (mergeI2 low k j ((2 ^ l >>> i) / 2) ≥ (low + len) % 2 ^ 32))
            (fun k => (k + 1) % 2 ^ 32)
            (fun k arr =>
              comparator greater choose asc arr (mergeI1 low k j)
                (mergeI2 low k j ((2 ^ l >>> i) / 2)) (mergeI1 low k j)
                (mergeI2 low k j ((2 ^ l >>> i) / 2)))
            fuel 0 arr)
        fuel 0 arr
      = some (applyNet greater arr (mergePass low len asc (2 ^ l) i)) := by
  have hbs : 2 ^ l >>> i = 2 ^ (l - i) := shift_pow l i (by omega)
  have hbs2 : 2 ^ (l - i) = 2 * 2 ^ (l - i - 1) := by
    rw [show l - i = (l - i - 1) + 1 by omega, pow_succ]; simp; ring
  have hhalf : 2 ^ (l - i) / 2 = 2 ^ (l - i - 1) := by rw [hbs2]; simp
  have hn : 2 ^ l = 2 ^ i * 2 ^ (l - i) := by rw [← pow_add]; congr 1; omega
  have hpos : 0 < 2 ^ (l - i) := by positivity
  have hcnt : 2 ^ i ≤ 2 ^ l := Nat.pow_le_pow_right (by decide) (by omega)
  have hzero : (0 : Nat) = 0 * 2 ^ (l - i) := by simp
  have h32 : 2 ^ l < 2 ^ 32 := Nat.pow_lt_pow_right (by decide : 1 < 2) (by omega : l < 32)
  rw [hbs, hhalf]
  conv_lhs => rw [hzero]
  rw [forLoop_eq_runBodies _ _ _ ((List.range' 0 (2 ^ i)).map (· * 2 ^ (l - i))) fuel _ arr
    (iter_stride (2 ^ l) (2 ^ (l - i)) (2 ^ i) hn hpos h32 (2 ^ i) 0 (by omega))
    (by rw [List.length_map, List.length_range']; omega)]
  rw [runBodies_net Good L greater _
    (fun j => (List.range (min (2 ^ (l - i - 1)) (len - (j + 2 ^ (l - i - 1))))).flatMap
      (fun k => [(low + k + j, low + k + j + 2 ^ (l - i - 1), asc)])) _ _ arr hinv]
  · unfold mergePass
    rw [hbs, hhalf, ← List.range_eq_range', List.flatMap_map]
  · intro j hj s hs
    obtain ⟨t, ht, rfl⟩ := List.mem_map.mp hj
    have ht' : t < 2 ^ i := by
      have := List.mem_range'_1.mp ht; omega
    have hj2 : t * 2 ^ (l - i) + 2 * 2 ^ (l - i - 1) ≤ 2 ^ l := by
      rw [← hbs2, hn]
      have : (t + 1) * 2 ^ (l - i) ≤ 2 ^ i * 2 ^ (l - i) := Nat.mul_le_mul_right _ (by omega)
      have e : (t + 1) * 2 ^ (l - i) = t * 2 ^ (l - i) + 2 ^ (l - i) := by ring
      omega
    simp only [Nat.zero_mul]
    exact mergeInner_run greater choose Good hchoose low len asc (2 ^ l) _ _ L fuel s
      (by positivity) hwrap hj2
      hlt hL hfuel hs

end MergeRefinement

theorem gpot_loop (n q : Nat) (hq : q ≤ 30) (h1 : 2 ^ q < n) (h2 : n ≤ 2 ^ (q + 1)) :
    ∀ (d t g : Nat), t + d = q + 1 → d < g →
      whileCounter (fun k => decide (k < n)) (fun k => (k <<< 1) % 2 ^ 32) g (2 ^ t)
        = some (2 ^ (q + 1)) := by
  intro d
  induction d with
  | zero =>
    intro t g ht hg
    obtain ⟨f, rfl⟩ : ∃ f, g = f + 1 := ⟨g - 1, by omega⟩
    have : t = q + 1 := by omega
    subst this
    simp [whileCounter, not_lt.mpr h2]
  | succ d ih =>
    intro t g ht hg
    obtain ⟨f, rfl⟩ : ∃ f, g = f + 1 := ⟨g - 1, by omega⟩
    have hlt : 2 ^ t < n := lt_of_le_of_lt (Nat.pow_le_pow_right (by decide) (by omega)) h1
    have hnext : (2 ^ t <<< 1) % 2 ^ 32 = 2 ^ (t + 1) := by
      rw [Nat.shiftLeft_eq, pow_one, ← pow_succ]
      exact Nat.mod_eq_of_lt (Nat.pow_lt_pow_right (by decide : 1 < 2) (by omega : t + 1 < 32))
    simp only [whileCounter, hlt, decide_True, if_true, hnext]
    exact ih (t + 1) f (by omega) (by omega)

theorem greatest_power_of_two_less_than_eq (fuel n q : Nat) (hq : q ≤ 30) (h1 : 2 ^ q < n)
    (h2 : n ≤ 2 ^ (q + 1)) (hfuel : 32 < fuel) :
    greatest_power_of_two_less_than fuel n = some (2 ^ q) := by
  unfold greatest_power_of_two_less_than
  have := gpot_loop n q hq h1 h2 (q + 1) 0 fuel (by omega) (by omega)
  rw [pow_zero] at this
  rw [this]
  simp [Nat.shiftRight_eq_div_pow, pow_succ]

theorem log2Loop_eq : ∀ (e g k n : Nat), 2 ^ e ≤ n → n < 2 ^ (e + 1) → e < g → k + e < 2 ^ 32 →
    log2Loop g k n = some (k + e) := by
  intro e
  induction e with
  | zero =>
    intro g k n h1 h2 hg _
    obtain ⟨f, rfl⟩ : ∃ f, g = f + 1 := ⟨g - 1, by omega⟩
    have : ¬ n > 1 := by simp at h2; omega
    simp [log2Loop, this]
  | succ e ih =>
    intro g k n h1 h2 hg hk
    obtain ⟨f, rfl⟩ : ∃ f, g = f + 1 := ⟨g - 1, by omega⟩
    have hpos : 0 < 2 ^ e := by positivity
    have hn : n > 1 := by
      have : 2 ^ (e + 1) = 2 * 2 ^ e := by rw [pow_succ]; ring
      omega
    have e1 : 2 ^ e ≤ n / 2 := by
      have : 2 ^ (e + 1) = 2 * 2 ^ e := by rw [pow_succ]; ring
      omega
    have e2 : n / 2 < 2 ^ (e + 1) := by
      have : 2 ^ (e + 1 + 1) = 2 * 2 ^ (e + 1) := by rw [pow_succ]; ring
      omega
    simp only [log2Loop, hn, if_true]
    rw [Nat.mod_eq_of_lt (by omega), ih f (k + 1) (n / 2) e1 e2 (by omega) (by omega)]
    congr 1; omega

theorem log2_ceil_eq (fuel n q : Nat) (hq : q ≤ 30) (h1 : 2 ^ q < n) (h2 : n ≤ 2 ^ (q + 1))
    (hfuel : 32 < fuel) : log2_ceil fuel n = some (q + 1) := by
  unfold log2_ceil
  have hpow : 2 ^ (q + 1) = 2 * 2 ^ q := by rw [pow_succ]; ring
  have hpow2 : 2 ^ (q + 1 + 1) = 2 * 2 ^ (q + 1) := by rw [pow_succ]; ring
  have hb1 : 2 ^ (q + 1) < 2 ^ 32 :=
    Nat.pow_lt_pow_right (by decide : 1 < 2) (by omega : q + 1 < 32)
  have hb0 : 2 ^ q < 2 ^ 32 := Nat.pow_lt_pow_right (by decide : 1 < 2) (by omega : q < 32)
  by_cases hn : n = 2 ^ (q + 1)
  · rw [log2Loop_eq (q + 1) fuel 0 n (by omega) (by omega) (by omega) (by omega)]
    simp only [Option.map_some', Nat.zero_add, Nat.one_shiftLeft]
    rw [Nat.mod_eq_of_lt hb1, if_neg (by omega)]
  · rw [log2Loop_eq q fuel 0 n (by omega) (by omega) (by omega) (by omega)]
    simp only [Option.map_some', Nat.zero_add, Nat.one_shiftLeft]
    rw [Nat.mod_eq_of_lt hb0, if_pos h1, Nat.mod_eq_of_lt (by omega)]

/-! ## `o_sort` as a comparator network -/

theorem log2_pred_bounds (len : Nat) (h : 1 < len) :
    2 ^ Nat.log2 (len - 1) < len ∧ len ≤ 2 ^ (Nat.log2 (len - 1) + 1) := by
  have h1 := Nat.log2_self_le (n := len - 1) (by omega)
  have h2 := Nat.lt_log2_self (n := len - 1)
  omega

section SorterRefinement

variable {α : Type} (greater : α → α → Bool) (choose : Bool → α → α → Option α)
  (Good : α → Prop)
  (hchoose : ∀ p a b, Good a → Good b → choose p a b = some (if p then a else b))

include hchoose

theorem imperative_o_merge_gen_eq (low len : Nat) (asc : Bool) (q L fuel : Nat) (arr : List α)
    (hq : q ≤ 30) (h1 : 2 ^ q < len) (h2 : len ≤ 2 ^ (q + 1))
    (hwrap : low + 2 ^ (q + 1) ≤ 2 ^ 32) (hlt : low + len < 2 ^ 32) (hL : low + len ≤ L)
    (hfuel : 2 ^ (q + 1) < fuel) (hfuel2 : 32 < fuel) (hinv : ArrInv Good L arr) :
    imperative_o_merge_gen greater choose fuel arr low len asc
      = some (applyNet greater arr (mergeNet low len asc (q + 1))) := by
  have hb1 : 2 ^ (q + 1) < 2 ^ 32 :=
    Nat.pow_lt_pow_right (by decide : 1 < 2) (by omega : q + 1 < 32)
  unfold imperative_o_merge_gen
  rw [log2_ceil_eq fuel len q hq h1 h2 hfuel2]
  simp only [Option.some_bind, Option.bind_eq_bind, Nat.one_shiftLeft, Nat.mod_eq_of_lt hb1]
  rw [forLoop_eq_runBodies _ _ _ (List.range' 0 (q + 1)) fuel 0 arr
    (iter_count (q + 1) (by omega) (q + 1) 0 (by omega)) (by rw [List.length_range']; omega)]
  rw [runBodies_net Good L greater _ (fun i => mergePass low len asc (2 ^ (q + 1)) i) _ _ arr
    hinv]
  · unfold mergeNet
    rw [← List.range_eq_range']
  · intro i hi s hs
    have hi' : i < q + 1 := by
      have := List.mem_range'_1.mp hi; omega
    exact mergePass_run greater choose Good hchoose low len asc (q + 1) i L fuel s hi'
      (by omega) hwrap hlt hL hfuel hs

theorem o_sort_gen_eq (L fuel : Nat) :
    ∀ (depth low len : Nat) (asc : Bool) (arr : List α), len < 2 ^ depth →
      low + 2 * len < 2 ^ 32 → low + len ≤ L → 2 * len < fuel → 32 < fuel →
      ArrInv Good L arr →
      o_sort_gen greater choose fuel (depth + 1) arr low len asc
        = some (applyNet greater arr (oSortNet (depth + 1) low len asc)) := by
  intro depth
  induction depth with
  | zero =>
    intro low len asc arr hd _ _ _ _ _
    have : ¬ len > 1 := by simp at hd; omega
    simp [o_sort_gen, oSortNet, this, applyNet]
  | succ d ih =>
    intro low len asc arr hd hwrap hL hfuel hfuel2 hinv
    rw [o_sort_gen, oSortNet]
    by_cases hlen : len > 1
    · obtain ⟨hq1, hq2⟩ := log2_pred_bounds len hlen
      generalize Nat.log2 (len - 1) = q at hq1 hq2
      have hpow : 2 ^ (q + 1) = 2 * 2 ^ q := by rw [pow_succ]; ring
      have hq : q ≤ 30 := by
        by_contra hcon
        have : 2 ^ 31 ≤ 2 ^ q := Nat.pow_le_pow_right (by decide) (by omega)
        omega
      simp only [hlen, if_true]
      rw [greatest_power_of_two_less_than_eq fuel len q hq hq1 hq2 hfuel2]
      simp only [Option.some_bind, Option.bind_eq_bind]
      have hm : (2 ^ q * 2) % 2 ^ 32 = 2 * 2 ^ q := by
        rw [mul_comm]; exact Nat.mod_eq_of_lt (by omega)
      rw [hm]
      by_cases hpw : 2 * 2 ^ q = len
      · simp only [hpw, if_true]
        have hq' : q + 1 ≤ 30 := by
          by_contra hcon
          have : 2 ^ 30 ≤ 2 ^ q := Nat.pow_le_pow_right (by decide) (by omega)
          omega
        have := imperative_o_sort_gen_eq greater choose Good hchoose low asc (q + 1) L fuel arr
          (by omega) (by omega) (by omega) hinv
        rw [hpow, hpw] at this
        exact this
      · simp only [hpw, if_false]
        rw [imperative_o_sort_gen_eq greater choose Good hchoose low (!asc) q L fuel arr
          hq (by omega) (by omega) hinv]
        simp only [Option.some_bind, Option.bind_eq_bind]
        have e1 : (low + 2 ^ q) % 2 ^ 32 = low + 2 ^ q := Nat.mod_eq_of_lt (by omega)
        have e2 : (len + (2 ^ 32 - 2 ^ q)) % 2 ^ 32 = len - 2 ^ q := by
          have : len + (2 ^ 32 - 2 ^ q) = (len - 2 ^ q) + 2 ^ 32 := by omega
          rw [this, Nat.add_mod_right]
          exact Nat.mod_eq_of_lt (by omega)
        rw [e1, e2]
        have hinv1 := ArrInv_applyNet Good L greater (sortNet low (!asc) q) arr hinv
        rw [ih (low + 2 ^ q) (len - 2 ^ q) asc _ (by rw [pow_succ] at hd; omega) (by omega)
          (by omega) (by omega) hfuel2 hinv1]
        simp only [Option.some_bind, Option.bind_eq_bind]
        have hinv2 := ArrInv_applyNet Good L greater
          (oSortNet (d + 1) (low + 2 ^ q) (len - 2 ^ q) asc) _ hinv1
        rw [imperative_o_merge_gen_eq greater choose Good hchoose low len asc q L fuel _ hq hq1
          hq2 (by omega) (by omega) hL (by omega) hfuel2 hinv2]
        simp only [applyNet_append]
    · simp only [hlen, if_false]
      rfl

end SorterRefinement

/-! ## Bitonic networks on 0-1 sequences -/

theorem alt_or_aux : ∀ a0 a1 a2 a3 b0 b1 b2 b3 : Bool,
    ¬ (a0 ≠ a1 ∧ a1 ≠ a2 ∧ a2 ≠ a3) → ¬ (a0 ≠ a1 ∧ a1 ≠ b2 ∧ b2 ≠ b3) →
    ¬ (a2 ≠ a3 ∧ a3 ≠ b0 ∧ b0 ≠ b1) → ¬ (b0 ≠ b1 ∧ b1 ≠ b2 ∧ b2 ≠ b3) →
    ¬ (a0 ≠ a1 ∧ a1 ≠ a2 ∧ a2 ≠ b3) → ¬ (a3 ≠ b0 ∧ b0 ≠ b1 ∧ b1 ≠ b2) →
    ¬ ((a0 || b0) ≠ (a1 || b1) ∧ (a1 || b1) ≠ (a2 || b2) ∧ (a2 || b2) ≠ (a3 || b3)) := by
  intro a0 a1 a2 a3 b0 b1 b2 b3
  cases a0 <;> cases a1 <;> cases a2 <;> cases a3 <;> cases b0 <;> cases b1 <;>
    cases b2 <;> cases b3 <;> simp

theorem alt_and_aux : ∀ a0 a1 a2 a3 b0 b1 b2 b3 : Bool,
    ¬ (a0 ≠ a1 ∧ a1 ≠ a2 ∧ a2 ≠ a3) → ¬ (a0 ≠ a1 ∧ a1 ≠ b2 ∧ b2 ≠ b3) →
    ¬ (a2 ≠ a3 ∧ a3 ≠ b0 ∧ b0 ≠ b1) → ¬ (b0 ≠ b1 ∧ b1 ≠ b2 ∧ b2 ≠ b3) →
    ¬ (a0 ≠ a1 ∧ a1 ≠ a2 ∧ a2 ≠ b3) → ¬ (a3 ≠ b0 ∧ b0 ≠ b1 ∧ b1 ≠ b2) →
    ¬ ((a0 && b0) ≠ (a1 && b1) ∧ (a1 && b1) ≠ (a2 && b2) ∧ (a2 && b2) ≠ (a3 && b3)) := by
  intro a0 a1 a2 a3 b0 b1 b2 b3
  cases a0 <;> cases a1 <;> cases a2 <;> cases a3 <;> cases b0 <;> cases b1 <;>
    cases b2 <;> cases b3 <;> simp

theorem halfclean_or (g : Nat → Bool) (s h : Nat) (hN : NoAlt g s (2 * h)) :
    NoAlt (fun x => g x || g (x + h)) s h := by
  intro p q r t hp hpq hqr hrt ht
  exact alt_or_aux (g p) (g q) (g r) (g t) (g (p + h)) (g (q + h)) (g (r + h)) (g (t + h))
    (hN p q r t hp hpq hqr hrt (by omega))
    (hN p q (r + h) (t + h) hp hpq (by omega) (by omega) (by omega))
    (hN r t (p + h) (q + h) (by omega) hrt (by omega) (by omega) (by omega))
    (hN (p + h) (q + h) (r + h) (t + h) (by omega) (by omega) (by omega) (by omega) (by omega))
    (hN p q r (t + h) hp hpq hqr (by omega) (by omega))
    (hN t (p + h) (q + h) (r + h) (by omega) (by omega) (by omega) (by omega) (by omega))

theorem halfclean_and (g : Nat → Bool) (s h : Nat) (hN : NoAlt g s (2 * h)) :
    NoAlt (fun x => g x && g (x + h)) s h := by
  intro p q r t hp hpq hqr hrt ht
  exact alt_and_aux (g p) (g q) (g r) (g t) (g (p + h)) (g (q + h)) (g (r + h)) (g (t + h))
    (hN p q r t hp hpq hqr hrt (by omega))
    (hN p q (r + h) (t + h) hp hpq (by omega) (by omega) (by omega))
    (hN r t (p + h) (q + h) (by omega) hrt (by omega) (by omega) (by omega))
    (hN (p + h) (q + h) (r + h) (t + h) (by omega) (by omega) (by omega) (by omega) (by omega))
    (hN p q r (t + h) hp hpq hqr (by omega) (by omega))
    (hN t (p + h) (q + h) (r + h) (by omega) (by omega) (by omega) (by omega) (by omega))

theorem halfclean_cross (g : Nat → Bool) (s h : Nat) (hN : NoAlt g s (2 * h)) :
    (∀ x, s ≤ x → x < s + h → (g x && g (x + h)) = false) ∨
    (∀ x, s ≤ x → x < s + h → (g x || g (x + h)) = true) := by
  by_contra hcon
  rw [not_or] at hcon
  obtain ⟨h1, h2⟩ := hcon
  push_neg at h1 h2
  obtain ⟨x, hx1, hx2, hx3⟩ := h1
  obtain ⟨y, hy1, hy2, hy3⟩ := h2
  have hx4 : g x = true ∧ g (x + h) = true := by
    cases hgx : g x <;> cases hgx' : g (x + h) <;> simp_all
  have hy4 : g y = false ∧ g (y + h) = false := by
    cases hgy : g y <;> cases hgy' : g (y + h) <;> simp_all
  rcases Nat.lt_trichotomy x y with hxy | hxy | hxy
  · exact hN x y (x + h) (y + h) hx1 hxy (by omega) (by omega) (by omega)
      (by simp [hx4.1, hx4.2, hy4.1, hy4.2])
  · subst hxy
    rw [hx4.1] at hy4
    exact Bool.noConfusion hy4.1
  · exact hN y x (y + h) (x + h) hy1 hxy (by omega) (by omega) (by omega)
      (by simp [hx4.1, hx4.2, hy4.1, hy4.2])

theorem NoAlt_congr (f f' : Nat → Bool) (s n : Nat) (h : ∀ x, s ≤ x → x < s + n → f x = f' x)
    (hN : NoAlt f' s n) : NoAlt f s n := by
  intro p q r t hp hpq hqr hrt ht
  rw [h p hp (by omega), h q (by omega) (by omega), h r (by omega) (by omega),
    h t (by omega) ht]
  exact hN p q r t hp hpq hqr hrt ht

theorem NoAlt_shift (F : Nat → Bool) (s n h : Nat) (hN : NoAlt F s n) :
    NoAlt (fun x => F (x - h)) (s + h) n := by
  intro p q r t hp hpq hqr hrt ht
  exact hN (p - h) (q - h) (r - h) (t - h) (by omega) (by omega) (by omega) (by omega)
    (by omega)

theorem block_index (c a x : Nat) (h1 : 2 ^ c * a ≤ x) (h2 : x < 2 ^ c * a + 2 ^ c) :
    x / 2 ^ c = a := by
  have hpos : 0 < 2 ^ c := by positivity
  apply Nat.div_eq_of_lt_le
  · rw [mul_comm]; exact h1
  · rw [Nat.succ_mul, mul_comm]; exact h2

theorem passF_lower (c a : Nat) (u : Nat → Bool) (g : Nat → Bool) (x : Nat)
    (h1 : 2 ^ (c + 1) * a ≤ x) (h2 : x < 2 ^ (c + 1) * a + 2 ^ c) :
    passF (2 ^ c) u g x = if u x then g x && g (x + 2 ^ c) else g x || g (x + 2 ^ c) := by
  have e : 2 ^ (c + 1) * a = 2 ^ c * (2 * a) := by rw [pow_succ]; ring
  have := block_index c (2 * a) x (by omega) (by omega)
  unfold passF
  rw [this, if_pos (by omega)]

theorem passF_upper (c a : Nat) (u : Nat → Bool) (g : Nat → Bool) (x : Nat)
    (h1 : 2 ^ (c + 1) * a + 2 ^ c ≤ x) (h2 : x < 2 ^ (c + 1) * a + 2 ^ (c + 1)) :
    passF (2 ^ c) u g x
      = if u (x - 2 ^ c) then g (x - 2 ^ c) || g x else g (x - 2 ^ c) && g x := by
  have e : 2 ^ (c + 1) * a = 2 ^ c * (2 * a) := by rw [pow_succ]; ring
  have e2 : 2 ^ (c + 1) = 2 ^ c + 2 ^ c := by rw [pow_succ]; ring
  have e3 : 2 ^ c * (2 * a + 1) = 2 ^ c * (2 * a) + 2 ^ c := by ring
  have := block_index c (2 * a + 1) x (by omega) (by omega)
  unfold passF
  rw [this, if_neg (by omega)]

theorem mergeF_const (u : Nat → Bool) : ∀ (c : Nat) (g : Nat → Bool) (a : Nat) (v : Bool),
    (∀ x, 2 ^ c * a ≤ x → x < 2 ^ c * a + 2 ^ c → g x = v) →
    ∀ x, 2 ^ c * a ≤ x → x < 2 ^ c * a + 2 ^ c → mergeF u c g x = v := by
  intro c
  induction c with
  | zero => intro g a v hg x h1 h2; exact hg x h1 h2
  | succ c ih =>
    intro g a v hg x h1 h2
    have e : 2 ^ (c + 1) * a = 2 ^ c * (2 * a) := by rw [pow_succ]; ring
    have e2 : 2 ^ (c + 1) = 2 ^ c + 2 ^ c := by rw [pow_succ]; ring
    have e3 : 2 ^ c * (2 * a + 1) = 2 ^ c * (2 * a) + 2 ^ c := by ring
    have hg1 : ∀ y, 2 ^ (c + 1) * a ≤ y → y < 2 ^ (c + 1) * a + 2 ^ (c + 1) →
        passF (2 ^ c) u g y = v := by
      intro y hy1 hy2
      by_cases hlow : y < 2 ^ (c + 1) * a + 2 ^ c
      · rw [passF_lower c a u g y hy1 hlow, hg y hy1 hy2, hg (y + 2 ^ c) (by omega) (by omega)]
        cases u y <;> cases v <;> rfl
      · rw [passF_upper c a u g y (by omega) hy2, hg y hy1 hy2,
          hg (y - 2 ^ c) (by omega) (by omega)]
        cases u (y - 2 ^ c) <;> cases v <;> rfl
    simp only [mergeF]
    by_cases hlow : x < 2 ^ (c + 1) * a + 2 ^ c
    · exact ih (passF (2 ^ c) u g) (2 * a) v
        (fun y hy1 hy2 => hg1 y (by omega) (by omega)) x (by omega) (by omega)
    · exact ih (passF (2 ^ c) u g) (2 * a + 1) v
        (fun y hy1 hy2 => hg1 y (by omega) (by omega)) x (by omega) (by omega)

theorem mergeF_sorts (u : Nat → Bool) : ∀ (c : Nat) (g : Nat → Bool) (a : Nat) (d : Bool),
    NoAlt g (2 ^ c * a) (2 ^ c) →
    (∀ x, 2 ^ c * a ≤ x → x < 2 ^ c * a + 2 ^ c → u x = d) →
    SortedOn d (mergeF u c g) (2 ^ c * a) (2 ^ c) := by
  intro c
  induction c with
  | zero =>
    intro g a d _ _ x y hx hxy hy
    simp at hx hy
    omega
  | succ c ih =>
    intro g a d hN hu
    have e : 2 ^ (c + 1) * a = 2 ^ c * (2 * a) := by rw [pow_succ]; ring
    have e2 : 2 ^ (c + 1) = 2 * 2 ^ c := by rw [pow_succ]; ring
    have e3 : 2 ^ c * (2 * a + 1) = 2 ^ c * (2 * a) + 2 ^ c := by ring
    have hN : NoAlt g (2 ^ (c + 1) * a) (2 * 2 ^ c) := by rw [← e2]; exact hN
    -- values after the first pass
    have hlo : ∀ x, 2 ^ (c + 1) * a ≤ x → x < 2 ^ (c + 1) * a + 2 ^ c →
        passF (2 ^ c) u g x = if d then g x && g (x + 2 ^ c) else g x || g (x + 2 ^ c) := by
      intro x h1 h2
      rw [passF_lower c a u g x h1 h2, hu x h1 (by omega)]
    have hhi : ∀ x, 2 ^ (c + 1) * a + 2 ^ c ≤ x → x < 2 ^ (c + 1) * a + 2 ^ (c + 1) →
        passF (2 ^ c) u g x
          = if d then g (x - 2 ^ c) || g x else g (x - 2 ^ c) && g x := by
      intro x h1 h2
      rw [passF_upper c a u g x h1 h2, hu (x - 2 ^ c) (by omega) (by omega)]
    have hor := halfclean_or g (2 ^ (c + 1) * a) (2 ^ c) hN
    have hand := halfclean_and g (2 ^ (c + 1) * a) (2 ^ c) hN
    have hcross := halfclean_cross g (2 ^ (c + 1) * a) (2 ^ c) hN
    -- both halves are bitonic after the first pass
    have hN1 : NoAlt (passF (2 ^ c) u g) (2 ^ c * (2 * a)) (2 ^ c) := by
      cases d
      · exact NoAlt_congr _ _ _ _ (fun x h1 h2 => by rw [hlo x (by omega) (by omega)])
          (by rw [← e]; exact hor)
      · exact NoAlt_congr _ _ _ _ (fun x h1 h2 => by rw [hlo x (by omega) (by omega)])
          (by rw [← e]; exact hand)
    have hN2 : NoAlt (passF (2 ^ c) u g) (2 ^ c * (2 * a + 1)) (2 ^ c) := by
      have hsub : ∀ x, 2 ^ c * (2 * a + 1) ≤ x → x - 2 ^ c + 2 ^ c = x := by
        intro x hx; omega
      cases d
      · refine NoAlt_congr _ (fun x => (fun y => g y && g (y + 2 ^ c)) (x - 2 ^ c)) _ _
          (fun x h1 h2 => ?_) (by rw [e3, ← e]; exact NoAlt_shift _ _ _ _ hand)
        rw [hhi x (by omega) (by omega)]
        simp only [Bool.false_eq_true, if_false]
        rw [hsub x h1]
      · refine NoAlt_congr _ (fun x => (fun y => g y || g (y + 2 ^ c)) (x - 2 ^ c)) _ _
          (fun x h1 h2 => ?_) (by rw [e3, ← e]; exact NoAlt_shift _ _ _ _ hor)
        rw [hhi x (by omega) (by omega)]
        simp only [if_true]
        rw [hsub x h1]
    have hs1 := ih (passF (2 ^ c) u g) (2 * a) d hN1
      (fun x h1 h2 => hu x (by omega) (by omega))
    have hs2 := ih (passF (2 ^ c) u g) (2 * a + 1) d hN2
      (fun x h1 h2 => hu x (by omega) (by omega))
    intro x y hx hxy hy
    simp only [mergeF]
    by_cases hy1 : y < 2 ^ (c + 1) * a + 2 ^ c
    · exact hs1 x y (by omega) hxy (by omega)
    · by_cases hx1 : x < 2 ^ (c + 1) * a + 2 ^ c
      · -- `x` in the lower half, `y` in the upper half
        rcases hcross with hc | hc
        · -- all minima are 0
          cases d
          · have hy0 : mergeF u c (passF (2 ^ c) u g) y = false :=
              mergeF_const u c _ (2 * a + 1) false (fun z h1 h2 => by
                rw [hhi z (by omega) (by omega)]
                simp only [Bool.false_eq_true, if_false]
                have := hc (z - 2 ^ c) (by omega) (by omega)
                rwa [show z - 2 ^ c + 2 ^ c = z by omega] at this) y (by omega) (by omega)
            simp [leD, hy0]
          · have hx0 : mergeF u c (passF (2 ^ c) u g) x = false :=
              mergeF_const u c _ (2 * a) false (fun z h1 h2 => by
                rw [hlo z (by omega) (by omega)]
                simp only [if_true]
                exact hc z (by omega) (by omega)) x (by omega) (by omega)
            simp [leD, hx0]
        · -- all maxima are 1
          cases d
          · have hx0 : mergeF u c (passF (2 ^ c) u g) x = true :=
              mergeF_const u c _ (2 * a) true (fun z h1 h2 => by
                rw [hlo z (by omega) (by omega)]
                simp only [Bool.false_eq_true, if_false]
                exact hc z (by omega) (by omega)) x (by omega) (by omega)
            simp [leD, hx0]
          · have hy0 : mergeF u c (passF (2 ^ c) u g) y = true :=
              mergeF_const u c _ (2 * a + 1) true (fun z h1 h2 => by
                rw [hhi z (by omega) (by omega)]
                simp only [if_true]
                have := hc (z - 2 ^ c) (by omega) (by omega)
                rwa [show z - 2 ^ c + 2 ^ c = z by omega] at this) y (by omega) (by omega)
            simp [leD, hy0]
      · exact hs2 x y (by omega) hxy (by omega)

theorem bitonic_of_sorted_halves (d : Bool) (g : Nat → Bool) (s h : Nat)
    (h1 : SortedOn d g s h) (h2 : SortedOn (!d) g (s + h) h) : NoAlt g s (2 * h) := by
  intro p q r t hp hpq hqr hrt ht hcon
  by_cases hr : r < s + h
  · have a1 := h1 p q hp hpq (by omega)
    have a2 := h1 q r (by omega) hqr hr
    revert a1 a2 hcon
    unfold leD
    cases d <;> cases g p <;> cases g q <;> cases g r <;> cases g t <;> simp
  · by_cases hq : s + h ≤ q
    · have a1 := h2 q r hq hqr (by omega)
      have a2 := h2 r t (by omega) hrt (by omega)
      revert a1 a2 hcon
      unfold leD
      cases d <;> cases g p <;> cases g q <;> cases g r <;> cases g t <;> simp
    · have a1 := h1 p q hp hpq (by omega)
      have a2 := h2 r t (by omega) hrt (by omega)
      revert a1 a2 hcon
      unfold leD
      cases d <;> cases g p <;> cases g q <;> cases g r <;> cases g t <;> simp

theorem sortF_blocks (asc : Bool) : ∀ (m c : Nat) (g : Nat → Bool),
    (∀ a, SortedOn (dirB asc a) g (2 ^ c * a) (2 ^ c)) →
    ∀ a, SortedOn (dirB asc a) (sortF asc m (c + 1) g) (2 ^ (c + m) * a) (2 ^ (c + m)) := by
  intro m
  induction m with
  | zero => intro c g h a; exact h a
  | succ m ih =>
    intro c g h a
    have key : ∀ a, SortedOn (dirB asc a) (mergeF (uSort asc (c + 1)) (c + 1) g)
        (2 ^ (c + 1) * a) (2 ^ (c + 1)) := by
      intro a
      have e : 2 ^ (c + 1) * a = 2 ^ c * (2 * a) := by rw [pow_succ]; ring
      have e2 : 2 ^ (c + 1) = 2 * 2 ^ c := by rw [pow_succ]; ring
      have e3 : 2 ^ c * (2 * a + 1) = 2 ^ c * (2 * a) + 2 ^ c := by ring
      apply mergeF_sorts
      · have e4 : 2 * 2 ^ c * a = 2 ^ c * (2 * a) := by ring
        rw [e2, e4]
        apply bitonic_of_sorted_halves asc
        · have := h (2 * a)
          have hd : dirB asc (2 * a) = asc := by
            unfold dirB; cases asc <;> simp
          rwa [hd] at this
        · have := h (2 * a + 1)
          have hd : dirB asc (2 * a + 1) = !asc := by
            unfold dirB
            have hodd : (2 * a + 1) % 2 = 1 := by omega
            rw [hodd]
            cases asc <;> simp
          rwa [hd, e3] at this
      · intro x h1 h2
        unfold uSort
        rw [block_index (c + 1) a x h1 h2]
    have := ih (c + 1) _ key a
    rw [show c + (m + 1) = c + 1 + m by omega]
    exact this

theorem sortF_sorts (asc : Bool) (p : Nat) (g : Nat → Bool) :
    SortedOn asc (sortF asc p 1 g) 0 (2 ^ p) := by
  have h0 : ∀ a, SortedOn (dirB asc a) g (2 ^ 0 * a) (2 ^ 0) := by
    intro a x y hx hxy hy
    simp at hx hy
    omega
  have := sortF_blocks asc p 0 g h0 0
  simp only [Nat.zero_add, Nat.mul_zero] at this
  have hd : dirB asc 0 = asc := by unfold dirB; cases asc <;> simp
  rwa [hd] at this

/-! ## The sorting network on 0-1 arrays -/

theorem casPure_local {α : Type} (greater : α → α → Bool) (arr arr1 : List α)
    (c : Nat × Nat × Bool) (x : Nat) (h1 : arr1[c.1]? = arr[c.1]?)
    (h2 : arr1[c.2.1]? = arr[c.2.1]?) (hx : x = c.1 ∨ x = c.2.1) :
    (casPure greater arr1 c)[x]? = (casPure greater arr c)[x]? := by
  unfold casPure
  rw [h1, h2]
  cases ha : arr[c.1]? with
  | none => simp only []; rcases hx with rfl | rfl <;> simp [h1, h2, ha]
  | some a =>
    cases hb : arr[c.2.1]? with
    | none => simp only []; rcases hx with rfl | rfl <;> simp [h1, h2, hb]
    | some b =>
      simp only []
      have l1 : c.1 < arr.length := (List.getElem?_eq_some.mp ha).1
      have l2 : c.2.1 < arr.length := (List.getElem?_eq_some.mp hb).1
      have l1' : c.1 < arr1.length := (List.getElem?_eq_some.mp (h1.trans ha)).1
      have l2' : c.2.1 < arr1.length := (List.getElem?_eq_some.mp (h2.trans hb)).1
      split_ifs
      · rcases hx with rfl | rfl
        · by_cases hpq : c.2.1 = c.1
          · rw [hpq] at l2 l2' ⊢
            rw [List.getElem?_set_self (by simpa using l1'),
              List.getElem?_set_self (by simpa using l1)]
          · rw [List.getElem?_set_ne hpq, List.getElem?_set_ne hpq,
              List.getElem?_set_self l1', List.getElem?_set_self l1]
        · rw [List.getElem?_set_self (by simpa using l2'),
            List.getElem?_set_self (by simpa using l2)]
      · rcases hx with rfl | rfl
        · exact h1
        · exact h2

theorem applyNet_disjoint {α : Type} (greater : α → α → Bool) :
    ∀ (net : List (Nat × Nat × Bool)) (arr : List α), net.Pairwise Disj →
      ∀ c ∈ net, ∀ x, (x = c.1 ∨ x = c.2.1) →
        (applyNet greater arr net)[x]? = (casPure greater arr c)[x]? := by
  intro net
  induction net with
  | nil => intro arr _ c hc; simp at hc
  | cons c0 rest ih =>
    intro arr hpw c hc x hx
    rw [List.pairwise_cons] at hpw
    obtain ⟨hd, hrest⟩ := hpw
    have hstep : applyNet greater arr (c0 :: rest) = applyNet greater (casPure greater arr c0) rest :=
      rfl
    rw [hstep]
    rcases List.mem_cons.mp hc with rfl | hc'
    · apply applyNet_frame
      intro c' hc'
      have := hd c' hc'
      rcases hx with rfl | rfl
      · exact ⟨this.1, this.2.1⟩
      · exact ⟨this.2.2.1, this.2.2.2⟩
    · rw [ih (casPure greater arr c0) hrest c hc' x hx]
      have := hd c hc'
      exact casPure_local greater arr _ c x
        (casPure_frame greater arr c0 c.1 (Ne.symm this.1) (Ne.symm this.2.2.1))
        (casPure_frame greater arr c0 c.2.1 (Ne.symm this.2.1) (Ne.symm this.2.2.2)) hx

theorem casPure_gtB (arr : List Bool) (p q : Nat) (d a b : Bool) (hpq : p ≠ q)
    (ha : arr[p]? = some a) (hb : arr[q]? = some b) :
    (casPure gtB arr (p, q, d))[p]? = some (if d then a && b else a || b) ∧
    (casPure gtB arr (p, q, d))[q]? = some (if d then a || b else a && b) := by
  have l1 : p < arr.length := (List.getElem?_eq_some.mp ha).1
  have l2 : q < arr.length := (List.getElem?_eq_some.mp hb).1
  unfold casPure
  simp only [ha, hb]
  by_cases h : (gtB a b == d) = true
  · rw [if_pos h, List.getElem?_set_ne (Ne.symm hpq), List.getElem?_set_self l1,
      List.getElem?_set_self (by simpa using l2)]
    revert h; unfold gtB
    cases a <;> cases b <;> cases d <;> simp
  · rw [if_neg h, ha, hb]
    revert h; unfold gtB
    cases a <;> cases b <;> cases d <;> simp

theorem sortPass_normal (base : Nat) (asc : Bool) (k bb n : Nat) :
    sortPass base asc k (2 ^ bb) n
      = (List.range n).flatMap (fun i =>
          if (i / 2 ^ bb) % 2 = 0 then
            [if i &&& k = 0 then (base + i, base + (i + 2 ^ bb), asc)
              else (base + (i + 2 ^ bb), base + i, asc)]
          else []) := by
  unfold sortPass
  congr 1
  funext i
  by_cases h : (i / 2 ^ bb) % 2 = 0
  · rw [if_pos ((xor_gt_iff i bb).mpr h), if_pos h, xor_two_pow_of_clear i bb h]
  · rw [if_neg (fun hc => h ((xor_gt_iff i bb).mp hc)), if_neg h]

theorem parity_shift (i j : Nat) (hj : 0 < j) (h : (i / j) % 2 = 0) : ((i + j) / j) % 2 = 1 := by
  rw [Nat.add_div_right i hj]
  omega

theorem sortPass_pairwise (base : Nat) (asc : Bool) (k bb n : Nat) :
    (sortPass base asc k (2 ^ bb) n).Pairwise Disj := by
  rw [sortPass_normal, List.pairwise_flatMap]
  have hj : 0 < 2 ^ bb := by positivity
  constructor
  · intro i _
    split_ifs <;> simp
  · refine (List.pairwise_lt_range n).imp ?_
    intro i i' hlt c hc c' hc'
    by_cases h : (i / 2 ^ bb) % 2 = 0
    · by_cases h' : (i' / 2 ^ bb) % 2 = 0
      · rw [if_pos h, List.mem_singleton] at hc
        rw [if_pos h', List.mem_singleton] at hc'
        have p1 := parity_shift i _ hj h
        have p2 := parity_shift i' _ hj h'
        have n1 : i + 2 ^ bb ≠ i' := by
          intro e; rw [e] at p1; omega
        have n2 : i ≠ i' + 2 ^ bb := by
          intro e; rw [← e] at p2; omega
        subst hc hc'
        unfold Disj
        by_cases hk : i &&& k = 0 <;> by_cases hk' : i' &&& k = 0 <;>
          simp only [hk, hk', if_true, if_false] <;> refine ⟨?_, ?_, ?_, ?_⟩ <;> omega
      · rw [if_neg h'] at hc'; simp at hc'
    · rw [if_neg h] at hc; simp at hc

theorem view_eq_of_getElem? (b : List Bool) (base n : Nat) (pad : Bool) (x : Nat) (v : Bool)
    (hx : x < n) (hv : b[base + x]? = some v) : view b base n pad x = v := by
  unfold view
  rw [if_pos hx, hv]; rfl

theorem view_pad (b : List Bool) (base n : Nat) (pad : Bool) (x : Nat) (hx : n ≤ x) :
    view b base n pad x = pad := by
  unfold view
  rw [if_neg (by omega)]

theorem uSort_eq (asc : Bool) (c x : Nat) :
    uSort asc c x = if x &&& 2 ^ c = 0 then asc else !asc := by
  unfold uSort dirB
  by_cases h : x &&& 2 ^ c = 0
  · rw [if_pos h, (and_two_pow_eq_zero x c).mp h]
    cases asc <;> simp
  · rw [if_neg h]
    have : ¬ (x / 2 ^ c) % 2 = 0 := fun hc => h ((and_two_pow_eq_zero x c).mpr hc)
    cases asc <;> simp [this]

theorem upper_partner_ge (x bb p : Nat) (hb : bb < p) (hx : 2 ^ p ≤ x)
    (hodd : ¬ (x / 2 ^ bb) % 2 = 0) : 2 ^ p ≤ x - 2 ^ bb := by
  have hj : 0 < 2 ^ bb := by positivity
  obtain ⟨e, rfl⟩ : ∃ e, p = bb + 1 + e := ⟨p - (bb + 1), by omega⟩
  have hn : 2 ^ (bb + 1 + e) = 2 ^ bb * (2 * 2 ^ e) := by rw [pow_add, pow_succ]; ring
  rw [hn] at hx ⊢
  have h1 : 2 * 2 ^ e ≤ x / 2 ^ bb := (Nat.le_div_iff_mul_le hj).mpr (by rw [mul_comm]; exact hx)
  have h2 : 2 * 2 ^ e + 1 ≤ x / 2 ^ bb := by omega
  have h3 : (2 * 2 ^ e + 1) * 2 ^ bb ≤ x := (Nat.le_div_iff_mul_le hj).mp h2
  have e3 : (2 * 2 ^ e + 1) * 2 ^ bb = 2 ^ bb * (2 * 2 ^ e) + 2 ^ bb := by ring
  omega

theorem sortPass_view (b : List Bool) (base : Nat) (asc : Bool) (c bb p : Nat) (pad : Bool)
    (hb : bb < p) (hL : base + 2 ^ p ≤ b.length) :
    view (applyNet gtB b (sortPass base asc (2 ^ c) (2 ^ bb) (2 ^ p))) base (2 ^ p) pad
      = passF (2 ^ bb) (uSort asc c) (view b base (2 ^ p) pad) := by
  have hj : 0 < 2 ^ bb := by positivity
  have hpw := sortPass_pairwise base asc (2 ^ c) bb (2 ^ p)
  have hget : ∀ y, y < 2 ^ p → b[base + y]? = some (view b base (2 ^ p) pad y) := by
    intro y hy
    unfold view
    rw [if_pos hy, List.getElem?_eq_getElem (by omega)]; rfl
  have hmem : ∀ i, i < 2 ^ p → (i / 2 ^ bb) % 2 = 0 →
      (if i &&& 2 ^ c = 0 then (base + i, base + (i + 2 ^ bb), asc)
        else (base + (i + 2 ^ bb), base + i, asc)) ∈
        sortPass base asc (2 ^ c) (2 ^ bb) (2 ^ p) := by
    intro i hi hclear
    rw [sortPass_normal, List.mem_flatMap]
    exact ⟨i, List.mem_range.mpr hi, by rw [if_pos hclear]; exact List.mem_singleton.mpr rfl⟩
  funext x
  by_cases hx : x < 2 ^ p
  · by_cases hclear : (x / 2 ^ bb) % 2 = 0
    · have hpart := partner_lt x bb p hclear hx hb
      have ha := hget x hx
      have ha' := hget (x + 2 ^ bb) hpart
      have hm := hmem x hx hclear
      unfold passF
      rw [if_pos hclear, uSort_eq]
      by_cases hk : x &&& 2 ^ c = 0
      · rw [if_pos hk] at hm ⊢
        apply view_eq_of_getElem? _ _ _ _ _ _ hx
        rw [applyNet_disjoint gtB _ b hpw _ hm (base + x) (Or.inl rfl)]
        exact (casPure_gtB b _ _ asc _ _ (by omega) ha ha').1
      · rw [if_neg hk] at hm ⊢
        apply view_eq_of_getElem? _ _ _ _ _ _ hx
        rw [applyNet_disjoint gtB _ b hpw _ hm (base + x) (Or.inr rfl)]
        rw [(casPure_gtB b _ _ asc _ _ (by omega) ha' ha).2]
        cases asc <;> simp [Bool.or_comm, Bool.and_comm]
    · have hge : 2 ^ bb ≤ x := by
        by_contra hlt
        rw [Nat.div_eq_of_lt (by omega)] at hclear
        simp at hclear
      have hi : x - 2 ^ bb < 2 ^ p := by omega
      have hiclear : ((x - 2 ^ bb) / 2 ^ bb) % 2 = 0 := by
        obtain ⟨d, hd⟩ : ∃ d, x = d + 2 ^ bb := ⟨x - 2 ^ bb, by omega⟩
        rw [hd, Nat.add_sub_cancel]
        rw [hd, Nat.add_div_right _ hj] at hclear
        omega
      have hxi : x - 2 ^ bb + 2 ^ bb = x := by omega
      have ha := hget x hx
      have ha' := hget (x - 2 ^ bb) hi
      have hm := hmem (x - 2 ^ bb) hi hiclear
      rw [hxi] at hm
      unfold passF
      rw [if_neg hclear, uSort_eq]
      by_cases hk : (x - 2 ^ bb) &&& 2 ^ c = 0
      · rw [if_pos hk] at hm ⊢
        apply view_eq_of_getElem? _ _ _ _ _ _ hx
        rw [applyNet_disjoint gtB _ b hpw _ hm (base + x) (Or.inr rfl)]
        exact (casPure_gtB b _ _ asc _ _ (by omega) ha' ha).2
      · rw [if_neg hk] at hm ⊢
        apply view_eq_of_getElem? _ _ _ _ _ _ hx
        rw [applyNet_disjoint gtB _ b hpw _ hm (base + x) (Or.inl rfl)]
        rw [(casPure_gtB b _ _ asc _ _ (by omega) ha ha').1]
        cases asc <;> simp [Bool.or_comm, Bool.and_comm]
  · rw [view_pad _ _ _ _ _ (by omega)]
    unfold passF
    by_cases hclear : (x / 2 ^ bb) % 2 = 0
    · rw [if_pos hclear, view_pad b base (2 ^ p) pad (x + 2 ^ bb) (by omega),
        view_pad b base (2 ^ p) pad x (by omega)]
      cases uSort asc c x <;> cases pad <;> rfl
    · have := upper_partner_ge x bb p hb (by omega) hclear
      rw [if_neg hclear, view_pad b base (2 ^ p) pad (x - 2 ^ bb) this,
        view_pad b base (2 ^ p) pad x (by omega)]
      cases uSort asc c (x - 2 ^ bb) <;> cases pad <;> rfl

theorem sortStage_view (base : Nat) (asc : Bool) (c p : Nat) (pad : Bool) :
    ∀ (c' : Nat) (b : List Bool), c' ≤ p → base + 2 ^ p ≤ b.length →
      view (applyNet gtB b ((halvings c').flatMap (fun j => sortPass base asc (2 ^ c) j (2 ^ p))))
          base (2 ^ p) pad
        = mergeF (uSort asc c) c' (view b base (2 ^ p) pad) := by
  intro c'
  induction c' with
  | zero => intro b _ _; rfl
  | succ c' ih =>
    intro b hc hL
    simp only [halvings, List.flatMap_cons, applyNet_append, mergeF]
    rw [ih _ (by omega) (by rw [applyNet_length]; exact hL),
      sortPass_view b base asc c c' p pad (by omega) hL]

theorem sortStages_view (base : Nat) (asc : Bool) (p : Nat) (pad : Bool) :
    ∀ (m c : Nat) (b : List Bool), c + m ≤ p + 1 → base + 2 ^ p ≤ b.length →
      view (applyNet gtB b (sortStages base asc (2 ^ p) m c)) base (2 ^ p) pad
        = sortF asc m c (view b base (2 ^ p) pad) := by
  intro m
  induction m with
  | zero => intro c b _ _; rfl
  | succ m ih =>
    intro c b hc hL
    simp only [sortStages, applyNet_append, sortF]
    rw [ih (c + 1) _ (by omega) (by rw [applyNet_length]; exact hL)]
    unfold sortStage
    rw [sortStage_view base asc c p pad c b (by omega) hL]

theorem sortNet_sorted (b : List Bool) (base : Nat) (asc : Bool) (p : Nat) (pad : Bool)
    (hL : base + 2 ^ p ≤ b.length) :
    SortedOn asc (view (applyNet gtB b (sortNet base asc p)) base (2 ^ p) pad) 0 (2 ^ p) := by
  unfold sortNet
  rw [sortStages_view base asc p pad p 1 b (by omega) hL]
  exact sortF_sorts asc p _

/-! ## The merge network and the sorter on 0-1 arrays -/

theorem mergePass_eq (low len : Nat) (asc : Bool) (l i : Nat) (hi : i < l) :
    mergePass low len asc (2 ^ l) i
      = (List.range (2 ^ i)).flatMap (fun t =>
          (List.range (min (2 ^ (l - 1 - i)) (len - (t * (2 * 2 ^ (l - 1 - i)) + 2 ^ (l - 1 - i))))).flatMap
            (fun k => [(low + k + t * (2 * 2 ^ (l - 1 - i)),
              low + k + t * (2 * 2 ^ (l - 1 - i)) + 2 ^ (l - 1 - i), asc)])) := by
  have hbs : 2 ^ l >>> i = 2 * 2 ^ (l - 1 - i) := by
    rw [shift_pow l i (by omega), show l - i = (l - 1 - i) + 1 by omega, pow_succ]; ring
  have hhalf : (2 * 2 ^ (l - 1 - i)) / 2 = 2 ^ (l - 1 - i) := by simp
  unfold mergePass
  rw [hbs, hhalf]

theorem lower_index (t k h : Nat) (hk : k < h) :
    ((k + t * (2 * h)) / h) % 2 = 0 := by
  have hh : 0 < h := by omega
  have e : k + t * (2 * h) = k + h * (2 * t) := by ring
  rw [e, Nat.add_mul_div_left _ _ hh, Nat.div_eq_of_lt hk]
  omega

theorem mergePass_mem_iff (low len : Nat) (asc : Bool) (l i : Nat) (hi : i < l)
    (hlen : len ≤ 2 ^ l) (c : Nat × Nat × Bool) :
    c ∈ mergePass low len asc (2 ^ l) i ↔
      ∃ y, (y / 2 ^ (l - 1 - i)) % 2 = 0 ∧ y + 2 ^ (l - 1 - i) < len ∧
        c = (low + y, low + y + 2 ^ (l - 1 - i), asc) := by
  have hh : 0 < 2 ^ (l - 1 - i) := by positivity
  have hn : 2 ^ l = 2 ^ i * (2 * 2 ^ (l - 1 - i)) := by
    rw [← pow_succ', ← pow_add]; congr 1; omega
  rw [mergePass_eq low len asc l i hi]
  generalize 2 ^ (l - 1 - i) = h at *
  simp only [List.mem_flatMap, List.mem_range, List.mem_singleton]
  constructor
  · rintro ⟨t, ht, k, hk, rfl⟩
    refine ⟨k + t * (2 * h), lower_index t k h (by omega), by omega, ?_⟩
    simp only [Nat.add_assoc]
  · rintro ⟨y, hy1, hy2, rfl⟩
    have hbs : 0 < 2 * h := by omega
    have hdm := Nat.div_add_mod y (2 * h)
    have hmod := Nat.mod_lt y hbs
    have hk : y % (2 * h) < h := by
      by_contra hcon
      have e : y = (y % (2 * h) - h) + h * (2 * (y / (2 * h)) + 1) := by
        have : h * (2 * (y / (2 * h)) + 1) = 2 * h * (y / (2 * h)) + h := by ring
        omega
      rw [e, Nat.add_mul_div_left _ _ hh, Nat.div_eq_of_lt (by omega)] at hy1
      omega
    have ht : y / (2 * h) < 2 ^ i := by
      rw [Nat.div_lt_iff_lt_mul hbs, ← hn]; omega
    refine ⟨y / (2 * h), ht, y % (2 * h), ?_, ?_⟩
    · have e : y / (2 * h) * (2 * h) = 2 * h * (y / (2 * h)) := by ring
      rw [e]; omega
    · have e : y / (2 * h) * (2 * h) = 2 * h * (y / (2 * h)) := by ring
      rw [e]
      have : low + y % (2 * h) + 2 * h * (y / (2 * h)) = low + y := by omega
      rw [this]

theorem mergePass_pairwise (low len : Nat) (asc : Bool) (l i : Nat) (hi : i < l) :
    (mergePass low len asc (2 ^ l) i).Pairwise Disj := by
  rw [mergePass_eq low len asc l i hi]
  generalize 2 ^ (l - 1 - i) = h
  rw [List.pairwise_flatMap]
  constructor
  · intro t _
    rw [List.pairwise_flatMap]
    constructor
    · intro k _; simp
    · refine (List.pairwise_lt_range _).imp_of_mem ?_
      intro k k' hk hk' hlt c hc c' hc'
      rw [List.mem_singleton] at hc hc'
      rw [List.mem_range] at hk hk'
      subst hc hc'
      unfold Disj
      refine ⟨?_, ?_, ?_, ?_⟩ <;> simp only [] <;> omega
  · refine (List.pairwise_lt_range _).imp ?_
    intro t t' hlt c hc c' hc'
    simp only [List.mem_flatMap, List.mem_range, List.mem_singleton] at hc hc'
    obtain ⟨k, hk, rfl⟩ := hc
    obtain ⟨k', hk', rfl⟩ := hc'
    have : (t + 1) * (2 * h) ≤ t' * (2 * h) := Nat.mul_le_mul_right _ (by omega)
    have e : (t + 1) * (2 * h) = t * (2 * h) + 2 * h := by ring
    unfold Disj
    refine ⟨?_, ?_, ?_, ?_⟩ <;> simp only [] <;> omega

theorem mergePass_view (b : List Bool) (low len : Nat) (asc : Bool) (l i : Nat)
    (hi : i < l) (hlen : len ≤ 2 ^ l) (hL : low + len ≤ b.length) :
    view (applyNet gtB b (mergePass low len asc (2 ^ l) i)) low len asc
      = passF (2 ^ (l - 1 - i)) (fun _ => asc) (view b low len asc) := by
  have hh : 0 < 2 ^ (l - 1 - i) := by positivity
  have hpw := mergePass_pairwise low len asc l i hi
  have hmem := mergePass_mem_iff low len asc l i hi hlen
  generalize 2 ^ (l - 1 - i) = h at *
  have hget : ∀ y, y < len → b[low + y]? = some (view b low len asc y) := by
    intro y hy
    unfold view
    rw [if_pos hy, List.getElem?_eq_getElem (by omega)]; rfl
  funext x
  unfold passF
  by_cases hx : x < len
  · by_cases hclear : (x / h) % 2 = 0
    · rw [if_pos hclear]
      simp only [if_true]
      by_cases hpart : x + h < len
      · have hm := (hmem (low + x, low + x + h, asc)).mpr ⟨x, hclear, hpart, rfl⟩
        apply view_eq_of_getElem? _ _ _ _ _ _ hx
        rw [applyNet_disjoint gtB _ b hpw _ hm (low + x) (Or.inl rfl)]
        rw [(casPure_gtB b _ _ asc _ _ (by omega) (hget x hx)
          (by rw [Nat.add_assoc]; exact hget (x + h) hpart)).1]
      · -- the comparator of `x` is skipped: nothing touches `x`
        apply view_eq_of_getElem? _ _ _ _ _ _ hx
        rw [applyNet_frame gtB _ (low + x) ?_ b, hget x hx, view_pad b low len asc (x + h) (by omega)]
        · cases asc <;> simp
        · intro c hc
          obtain ⟨y, hy1, hy2, rfl⟩ := (hmem c).mp hc
          have hy3 := parity_shift y h hh hy1
          constructor
          · simp only []; omega
          · simp only []
            intro e
            have : x = y + h := by omega
            rw [this] at hclear; omega
    · have hge : h ≤ x := by
        by_contra hlt
        rw [Nat.div_eq_of_lt (by omega)] at hclear
        simp at hclear
      have hiclear : ((x - h) / h) % 2 = 0 := by
        obtain ⟨d, hd⟩ : ∃ d, x = d + h := ⟨x - h, by omega⟩
        rw [hd, Nat.add_sub_cancel]
        rw [hd, Nat.add_div_right _ hh] at hclear
        omega
      have hxi : x - h + h = x := by omega
      have hm := (hmem (low + (x - h), low + (x - h) + h, asc)).mpr
        ⟨x - h, hiclear, by omega, rfl⟩
      have e : low + (x - h) + h = low + x := by omega
      rw [e] at hm
      rw [if_neg hclear]
      simp only [if_true]
      apply view_eq_of_getElem? _ _ _ _ _ _ hx
      rw [applyNet_disjoint gtB _ b hpw _ hm (low + x) (Or.inr rfl)]
      rw [(casPure_gtB b _ _ asc _ _ (by omega) (hget (x - h) (by omega)) (hget x hx)).2]
  · rw [view_pad _ _ _ _ _ (by omega)]
    by_cases hclear : (x / h) % 2 = 0
    · rw [if_pos hclear, view_pad b low len asc (x + h) (by omega),
        view_pad b low len asc x (by omega)]
      cases asc <;> rfl
    · rw [if_neg hclear, view_pad b low len asc x (by omega)]
      cases asc <;> simp

theorem mergeNet_view_aux (low len : Nat) (asc : Bool) (l : Nat) (hlen : len ≤ 2 ^ l) :
    ∀ (m s : Nat) (b : List Bool), s + m = l → low + len ≤ b.length →
      view (applyNet gtB b ((List.range' s m).flatMap (fun i => mergePass low len asc (2 ^ l) i)))
          low len asc
        = mergeF (fun _ => asc) m (view b low len asc) := by
  intro m
  induction m with
  | zero => intro s b _ _; rfl
  | succ m ih =>
    intro s b hs hL
    simp only [List.range', List.flatMap_cons, applyNet_append, mergeF]
    rw [ih (s + 1) _ (by omega) (by rw [applyNet_length]; exact hL),
      mergePass_view b low len asc l s (by omega) hlen hL]
    rw [show l - 1 - s = m by omega]

theorem mergeNet_view (b : List Bool) (low len : Nat) (asc : Bool) (l : Nat)
    (hlen : len ≤ 2 ^ l) (hL : low + len ≤ b.length) :
    view (applyNet gtB b (mergeNet low len asc l)) low len asc
      = mergeF (fun _ => asc) l (view b low len asc) := by
  unfold mergeNet
  rw [List.range_eq_range']
  exact mergeNet_view_aux low len asc l hlen l 0 b (by omega) hL

theorem NetWithin_append (n1 n2 : List (Nat × Nat × Bool)) (lo hi : Nat)
    (h1 : NetWithin n1 lo hi) (h2 : NetWithin n2 lo hi) : NetWithin (n1 ++ n2) lo hi := by
  intro c hc
  rcases List.mem_append.mp hc with h | h
  · exact h1 c h
  · exact h2 c h

theorem NetWithin_mono (net : List (Nat × Nat × Bool)) (lo hi lo' hi' : Nat)
    (h : NetWithin net lo hi) (h1 : lo' ≤ lo) (h2 : hi ≤ hi') : NetWithin net lo' hi' := by
  intro c hc
  have := h c hc
  omega

theorem sortPass_within (base : Nat) (asc : Bool) (k bb p : Nat) (hb : bb < p) :
    NetWithin (sortPass base asc k (2 ^ bb) (2 ^ p)) base (base + 2 ^ p) := by
  intro c hc
  rw [sortPass_normal, List.mem_flatMap] at hc
  obtain ⟨i, hi, hc⟩ := hc
  rw [List.mem_range] at hi
  by_cases hclear : (i / 2 ^ bb) % 2 = 0
  · rw [if_pos hclear, List.mem_singleton] at hc
    have := partner_lt i bb p hclear hi hb
    have hj : 0 < 2 ^ bb := by positivity
    subst hc
    split_ifs <;> simp only [] <;> omega
  · rw [if_neg hclear] at hc; simp at hc

theorem sortStages_within (base : Nat) (asc : Bool) (p : Nat) :
    ∀ (m c : Nat), c + m ≤ p + 1 →
      NetWithin (sortStages base asc (2 ^ p) m c) base (base + 2 ^ p) := by
  intro m
  induction m with
  | zero => intro c _ x hx; simp [sortStages] at hx
  | succ m ih =>
    intro c hc
    simp only [sortStages]
    apply NetWithin_append _ _ _ _ _ (ih (c + 1) (by omega))
    intro x hx
    unfold sortStage at hx
    rw [List.mem_flatMap] at hx
    obtain ⟨j, hj, hx⟩ := hx
    obtain ⟨bb, hbb, rfl⟩ := (mem_halvings c j).mp hj
    exact sortPass_within base asc (2 ^ c) bb p (by omega) x hx

theorem sortNet_within (base : Nat) (asc : Bool) (p : Nat) :
    NetWithin (sortNet base asc p) base (base + 2 ^ p) :=
  sortStages_within base asc p p 1 (by omega)

theorem mergeNet_within (low len : Nat) (asc : Bool) (l : Nat) (hlen : len ≤ 2 ^ l) :
    NetWithin (mergeNet low len asc l) low (low + len) := by
  intro c hc
  unfold mergeNet at hc
  rw [List.mem_flatMap] at hc
  obtain ⟨i, hi, hc⟩ := hc
  rw [List.mem_range] at hi
  obtain ⟨y, _, hy2, rfl⟩ := (mergePass_mem_iff low len asc l i hi hlen c).mp hc
  have hj : 0 < 2 ^ (l - 1 - i) := by positivity
  simp only []
  omega

theorem oSortNet_within : ∀ (depth low len : Nat) (asc : Bool),
    NetWithin (oSortNet depth low len asc) low (low + len) := by
  intro depth
  induction depth with
  | zero => intro low len asc c hc; simp [oSortNet] at hc
  | succ d ih =>
    intro low len asc
    rw [oSortNet]
    by_cases hlen : len > 1
    · obtain ⟨hq1, hq2⟩ := log2_pred_bounds len hlen
      simp only [hlen, if_true]
      generalize Nat.log2 (len - 1) = q at hq1 hq2
      have hpow : 2 ^ (q + 1) = 2 * 2 ^ q := by rw [pow_succ]; ring
      by_cases hpw : 2 * 2 ^ q = len
      · simp only [hpw, if_true]
        have := sortNet_within low asc (q + 1)
        rw [hpow, hpw] at this
        exact this
      · simp only [hpw, if_false]
        apply NetWithin_append
        · apply NetWithin_append
          · exact NetWithin_mono _ _ _ _ _ (sortNet_within low (!asc) q) (le_refl _) (by omega)
          · exact NetWithin_mono _ _ _ _ _ (ih (low + 2 ^ q) (len - 2 ^ q) asc) (by omega)
              (by omega)
        · exact mergeNet_within low len asc (q + 1) hq2
    · simp only [hlen, if_false]
      intro c hc; simp at hc

theorem applyNet_outside {α : Type} (greater : α → α → Bool) (net : List (Nat × Nat × Bool))
    (lo hi k : Nat) (h : NetWithin net lo hi) (hk : k < lo ∨ hi ≤ k) (arr : List α) :
    (applyNet greater arr net)[k]? = arr[k]? := by
  apply applyNet_frame
  intro c hc
  have := h c hc
  omega

theorem SortedOn_congr (d : Bool) (g g' : Nat → Bool) (s n : Nat)
    (h : ∀ x, s ≤ x → x < s + n → g x = g' x) (hs : SortedOn d g' s n) : SortedOn d g s n := by
  intro x y hx hxy hy
  rw [h x hx (by omega), h y (by omega) hy]
  exact hs x y hx hxy hy

theorem oSortNet_sorted : ∀ (depth low len : Nat) (asc : Bool) (b : List Bool),
    len < 2 ^ depth → low + len ≤ b.length →
    SortedOn asc (view (applyNet gtB b (oSortNet (depth + 1) low len asc)) low len asc) 0 len := by
  intro depth
  induction depth with
  | zero =>
    intro low len asc b hd _ x y _ hxy hy
    simp at hd; omega
  | succ d ih =>
    intro low len asc b hd hL
    rw [oSortNet]
    by_cases hlen : len > 1
    · obtain ⟨hq1, hq2⟩ := log2_pred_bounds len hlen
      simp only [hlen, if_true]
      generalize Nat.log2 (len - 1) = q at hq1 hq2
      have hpow : 2 ^ (q + 1) = 2 * 2 ^ q := by rw [pow_succ]; ring
      by_cases hpw : 2 * 2 ^ q = len
      · simp only [hpw, if_true]
        have := sortNet_sorted b low asc (q + 1) asc (by omega)
        rw [hpow, hpw] at this
        exact this
      · simp only [hpw, if_false, applyNet_append]
        -- the three phases
        have hL1 : low + 2 ^ q ≤ b.length := by omega
        have hs1 := sortNet_sorted b low (!asc) q asc hL1
        have hlen1 := applyNet_length gtB (sortNet low (!asc) q) b
        have hs2 := ih (low + 2 ^ q) (len - 2 ^ q) asc (applyNet gtB b (sortNet low (!asc) q))
          (by rw [pow_succ] at hd; omega) (by rw [hlen1]; omega)
        have hlen2 := applyNet_length gtB (oSortNet (d + 1) (low + 2 ^ q) (len - 2 ^ q) asc)
          (applyNet gtB b (sortNet low (!asc) q))
        rw [mergeNet_view _ low len asc (q + 1) hq2 (by rw [hlen2, hlen1]; exact hL)]
        -- the array before the merge is bitonic once padded
        have hlow : SortedOn (!asc) (view (applyNet gtB (applyNet gtB b (sortNet low (!asc) q))
            (oSortNet (d + 1) (low + 2 ^ q) (len - 2 ^ q) asc)) low len asc) 0 (2 ^ q) := by
          refine SortedOn_congr _ _ _ _ _ (fun x _ hx => ?_) hs1
          unfold view
          rw [if_pos (by omega), if_pos (by omega),
            applyNet_outside gtB _ _ _ (low + x) (oSortNet_within (d + 1) _ _ asc)
              (Or.inl (by omega))]
        have hhigh : SortedOn (!(!asc)) (view (applyNet gtB (applyNet gtB b (sortNet low (!asc) q))
            (oSortNet (d + 1) (low + 2 ^ q) (len - 2 ^ q) asc)) low len asc) (0 + 2 ^ q)
            (2 ^ q) := by
          rw [Bool.not_not]
          intro x y hx hxy hy
          have hvx : ∀ z, 2 ^ q ≤ z → z < len →
              view (applyNet gtB (applyNet gtB b (sortNet low (!asc) q))
                (oSortNet (d + 1) (low + 2 ^ q) (len - 2 ^ q) asc)) low len asc z
              = view (applyNet gtB (applyNet gtB b (sortNet low (!asc) q))
                (oSortNet (d + 1) (low + 2 ^ q) (len - 2 ^ q) asc)) (low + 2 ^ q)
                  (len - 2 ^ q) asc (z - 2 ^ q) := by
            intro z hz1 hz2
            unfold view
            rw [if_pos hz2, if_pos (by omega)]
            congr 2
            omega
          by_cases hy2 : y < len
          · rw [hvx x (by omega) (by omega), hvx y (by omega) hy2]
            exact hs2 (x - 2 ^ q) (y - 2 ^ q) (by omega) (by omega) (by omega)
          · rw [view_pad _ _ _ _ y (by omega)]
            unfold leD
            cases asc <;> simp
        have hbit := bitonic_of_sorted_halves (!asc) _ 0 (2 ^ q) hlow hhigh
        have hm := mergeF_sorts (fun _ => asc) (q + 1) _ 0 asc
          (by rw [Nat.mul_zero, hpow]; exact hbit) (fun _ _ _ => rfl)
        rw [Nat.mul_zero] at hm
        intro x y hx hxy hy
        exact hm x y hx hxy (by omega)
    · intro x y _ hxy hy
      omega

/-! ## Correctness of the sorter -/

theorem threshold_of_pivot {α : Type} (greater : α → α → Bool)
    (htrans : ∀ a b c, greater a b = true → greater b c = true → greater a c = true)
    (hneg : ∀ a b c, greater a c = true → greater a b = true ∨ greater b c = true)
    (pivot : α) : Threshold greater (fun z => greater z pivot) := by
  intro x y
  constructor
  · intro hxy ⟨h1, h2⟩
    simp only [] at h1 h2
    have := htrans x y pivot hxy h2
    rw [h1] at this
    exact Bool.noConfusion this
  · intro hxy ⟨h1, h2⟩
    simp only [] at h1 h2
    rcases hneg x y pivot h1 with h | h
    · rw [hxy] at h; exact Bool.noConfusion h
    · rw [h2] at h; exact Bool.noConfusion h

/-- The 0-1 principle for a comparator network: if the network sorts every 0-1 array on the
range `[low, low + len)`, it orders every array by `greater` there. -/
theorem net_sorted_of_bool {α : Type} (greater : α → α → Bool)
    (hirr : ∀ a, greater a a = false)
    (htrans : ∀ a b c, greater a b = true → greater b c = true → greater a c = true)
    (hneg : ∀ a b c, greater a c = true → greater a b = true ∨ greater b c = true)
    (net : List (Nat × Nat × Bool)) (low len : Nat) (asc : Bool)
    (hbool : ∀ b : List Bool, low + len ≤ b.length →
      SortedOn asc (view (applyNet gtB b net) low len asc) 0 len)
    (arr : List α) (hL : low + len ≤ arr.length) :
    ∀ x y ex ey, x < y → y < len → (applyNet greater arr net)[low + x]? = some ex →
      (applyNet greater arr net)[low + y]? = some ey →
      (if asc then greater ex ey = false else greater ey ex = false) := by
  intro x y ex ey hxy hy hex hey
  have key : ∀ pivot : α, leD asc (greater ex pivot) (greater ey pivot) := by
    intro pivot
    have hmap := applyNet_map greater _ (threshold_of_pivot greater htrans hneg pivot) net arr
    have hs := hbool (arr.map (fun z => greater z pivot)) (by rw [List.length_map]; exact hL)
    rw [← hmap] at hs
    have := hs x y (Nat.zero_le _) hxy (by omega)
    rwa [view_eq_of_getElem? _ low len asc x (greater ex pivot) (by omega)
        (by rw [List.getElem?_map, hex]; rfl),
      view_eq_of_getElem? _ low len asc y (greater ey pivot) hy
        (by rw [List.getElem?_map, hey]; rfl)] at this
  cases asc
  · simp only [Bool.false_eq_true, if_false]
    have := key ex
    unfold leD at this
    simp only [Bool.false_eq_true, if_false, hirr ex] at this
    cases h : greater ey ex
    · rfl
    · exact absurd (this h) (by simp)
  · simp only [if_true]
    have := key ey
    unfold leD at this
    simp only [if_true, hirr ey] at this
    cases h : greater ex ey
    · rfl
    · exact absurd (this h) (by simp)

theorem slice_perm {α : Type} (out arr : List α) (low len : Nat) (hperm : out.Perm arr)
    (hout : ∀ k, k < low ∨ low + len ≤ k → out[k]? = arr[k]?) :
    ((out.drop low).take len).Perm ((arr.drop low).take len) := by
  have hlen : out.length = arr.length := hperm.length_eq
  have h1 : out.take low = arr.take low := by
    apply List.ext_getElem?
    intro n
    by_cases hn : n < low
    · rw [List.getElem?_take_of_lt hn, List.getElem?_take_of_lt hn, hout n (Or.inl hn)]
    · rw [List.getElem?_take_eq_none (by omega), List.getElem?_take_eq_none (by omega)]
  have h2 : (out.drop low).drop len = (arr.drop low).drop len := by
    apply List.ext_getElem?
    intro n
    rw [List.getElem?_drop, List.getElem?_drop, List.getElem?_drop, List.getElem?_drop,
      hout (low + (len + n)) (Or.inr (by omega))]
  have e1 : out = out.take low ++ ((out.drop low).take len ++ (out.drop low).drop len) := by
    rw [List.take_append_drop, List.take_append_drop]
  have e2 : arr = arr.take low ++ ((arr.drop low).take len ++ (arr.drop low).drop len) := by
    rw [List.take_append_drop, List.take_append_drop]
  rw [e1, e2, h1, h2] at hperm
  exact (List.perm_append_right_iff _).mp ((List.perm_append_left_iff _).mp hperm)

/-- Correctness of `o_sort` for any element type on which `ObliviousChoose` is defined (`Good`)
and any comparison `greater` that is a strict weak order: with enough fuel the call returns,
permutes the range in place and leaves it ordered in the requested direction. -/
theorem o_sort_gen_correct {α : Type} (greater : α → α → Bool)
    (choose : Bool → α → α → Option α) (Good : α → Prop)
    (hchoose : ∀ p a b, Good a → Good b → choose p a b = some (if p then a else b))
    (hirr : ∀ a, greater a a = false)
    (htrans : ∀ a b c, greater a b = true → greater b c = true → greater a c = true)
    (hneg : ∀ a b c, greater a c = true → greater a b = true ∨ greater b c = true)
    (fuel low len : Nat) (asc : Bool) (arr : List α) (hgood : ∀ e ∈ arr, Good e)
    (hrange : low + len ≤ arr.length) (hwrap : low + 2 * len < 2 ^ 32)
    (hfuel : 2 * len + 32 < fuel) :
    ∃ out, o_sort_gen greater choose fuel fuel arr low len asc = some out ∧
      out.Perm arr ∧ (∀ k, k < low ∨ low + len ≤ k → out[k]? = arr[k]?) ∧
      ((out.drop low).take len).Perm ((arr.drop low).take len) ∧
      ∀ x y ex ey, x < y → y < len → out[low + x]? = some ex → out[low + y]? = some ey →
        (if asc then greater ex ey = false else greater ey ex = false) := by
  obtain ⟨d, rfl⟩ : ∃ d, fuel = d + 1 := ⟨fuel - 1, by omega⟩
  have hd : len < 2 ^ d := lt_of_le_of_lt (by omega : len ≤ d) (Nat.lt_two_pow d)
  have hrun := o_sort_gen_eq greater choose Good hchoose arr.length (d + 1) d low len asc arr
    hd hwrap hrange (by omega) (by omega) ⟨rfl, hgood⟩
  have hperm := applyNet_perm greater (oSortNet (d + 1) low len asc) arr
  have hout : ∀ k, k < low ∨ low + len ≤ k →
      (applyNet greater arr (oSortNet (d + 1) low len asc))[k]? = arr[k]? :=
    fun k hk => applyNet_outside greater _ low (low + len) k (oSortNet_within _ _ _ _) hk arr
  refine ⟨_, hrun, hperm, hout, slice_perm _ _ low len hperm hout, ?_⟩
  exact net_sorted_of_bool greater hirr htrans hneg _ low len asc
    (fun b hb => oSortNet_sorted d low len asc b hd hb) arr hrange

theorem toSigned_mod (w x : Nat) : toSigned w (x % 2 ^ w) = toSigned w x := by
  unfold toSigned
  rw [Nat.mod_mod]

theorem cmp_mod (w x y : Nat) : Obl.cmp w (x % 2 ^ w) (y % 2 ^ w) = Obl.cmp w x y := by
  unfold Obl.cmp msb
  simp only [Nat.mod_mod]

theorem toSigned_inj (w x y : Nat) (hw : 0 < w) (hx : x < 2 ^ w) (hy : y < 2 ^ w)
    (h : toSigned w x = toSigned w y) : x = y := by
  have hpow : 2 ^ w = 2 * 2 ^ (w - 1) := by
    obtain ⟨k, rfl⟩ : ∃ k, w = k + 1 := ⟨w - 1, by omega⟩
    simp [pow_succ]; ring
  have hpowZ : ((2 : Int) ^ w) = 2 * ((2 ^ (w - 1) : Nat) : Int) := by exact_mod_cast hpow
  unfold toSigned at h
  rw [Nat.mod_eq_of_lt hx, Nat.mod_eq_of_lt hy, hpowZ] at h
  generalize 2 ^ (w - 1) = P at *
  split_ifs at h <;> omega

theorem greater_signed (w x y : Nat) (hw : 0 < w) :
    (ObliviousGreater w x y != 0) = decide (toSigned w x > toSigned w y) := by
  have hpos : 0 < 2 ^ w := by positivity
  have hx := Nat.mod_lt x hpos
  have hy := Nat.mod_lt y hpos
  obtain ⟨hz, -, hs⟩ := cmp_flags w (x % 2 ^ w) (y % 2 ^ w) hw hx hy
  rw [cmp_mod, toSigned_mod, toSigned_mod] at hs
  rw [cmp_mod] at hz
  unfold ObliviousGreater setcc
  simp only [hz, hs]
  by_cases he : x % 2 ^ w = y % 2 ^ w
  · have : toSigned w x = toSigned w y := by
      rw [← toSigned_mod w x, ← toSigned_mod w y, he]
    simp [he, this]
  · have hne : toSigned w x ≠ toSigned w y := by
      intro hcon
      rw [← toSigned_mod w x, ← toSigned_mod w y] at hcon
      exact he (toSigned_inj w _ _ hw hx hy hcon)
    by_cases hle : toSigned w y ≤ toSigned w x
    · have : toSigned w y < toSigned w x := lt_of_le_of_ne hle (Ne.symm hne)
      simp [he, hle, this]
    · have : ¬ toSigned w y < toSigned w x := fun h => hle (le_of_lt h)
      simp [he, hle, this]

theorem ObliviousChooseScalar_eq (w : Nat) (p : Bool) (t f : Nat)
    (hw : w = 16 ∨ w = 32 ∨ w = 64) (ht : t < 2 ^ w) (hf : f < 2 ^ w) :
    ObliviousChooseScalar w p t f = some (if p then t else f) := by
  unfold ObliviousChooseScalar
  have hk : w / 8 % 2 = 0 := by rcases hw with rfl | rfl | rfl <;> rfl
  have hpow : 256 ^ (w / 8) = 2 ^ w := by rcases hw with rfl | rfl | rfl <;> rfl
  rw [(ObliviousChoose_spec p _ _ (leBytes_lt _ t) (leBytes_lt _ f)
    (by simp [leBytes_length]) (by rw [leBytes_length]; exact hk))]
  cases p
  · simp only [Bool.false_eq_true, if_false, Option.map_some', leValue_leBytes, hpow,
      Nat.mod_eq_of_lt hf]
  · simp only [if_true, Option.map_some', leValue_leBytes, hpow, Nat.mod_eq_of_lt ht]

theorem sorted_of_index {α : Type} (r : Int → Int → Prop) (f : α → Int) (out : List α)
    (low len : Nat) (hlen : low + len ≤ out.length)
    (h : ∀ x y ex ey, x < y → y < len → out[low + x]? = some ex → out[low + y]? = some ey →
      r (f ex) (f ey)) :
    List.Sorted r (((out.drop low).take len).map f) := by
  unfold List.Sorted
  rw [List.pairwise_iff_getElem]
  intro i j hi hj hij
  simp only [List.length_map, List.length_take, List.length_drop] at hi hj
  have hget : ∀ k (hk : k < (((out.drop low).take len).map f).length),
      ∃ e, out[low + k]? = some e ∧ (((out.drop low).take len).map f)[k] = f e := by
    intro k hk
    simp only [List.length_map, List.length_take, List.length_drop] at hk
    have hlt : low + k < out.length := by omega
    refine ⟨out[low + k], List.getElem?_eq_getElem hlt, ?_⟩
    simp [List.getElem_take, List.getElem_drop]
  obtain ⟨ei, h1, h2⟩ := hget i (by simpa using hi)
  obtain ⟨ej, h3, h4⟩ := hget j (by simpa using hj)
  rw [h2, h4]
  exact h i j ei ej hij (by omega) h1 h3

theorem ObliviousSort_spec (w fuel low len : Nat) (asc : Bool) (arr : List Nat)
    (hw : w = 16 ∨ w = 32 ∨ w = 64) (helem : ∀ e ∈ arr, e < 2 ^ w)
    (hrange : low + len ≤ arr.length) (hwrap : low + 2 * len < 2 ^ 32)
    (hfuel : 2 * len + 32 < fuel) :
    ∃ out, ObliviousSort w fuel arr low len asc = some out ∧ out.Perm arr ∧
      (∀ k, k < low ∨ low + len ≤ k → out[k]? = arr[k]?) ∧
      ((out.drop low).take len).Perm ((arr.drop low).take len) ∧
      ∀ x y ex ey, x < y → y < len → out[low + x]? = some ex → out[low + y]? = some ey →
        (if asc then toSigned w ex ≤ toSigned w ey else toSigned w ey ≤ toSigned w ex) := by
  have hw0 : 0 < w := by omega
  obtain ⟨out, h1, h2, h3, h4, h5⟩ := o_sort_gen_correct
    (fun x y => ObliviousGreater w x y != 0) (ObliviousChooseScalar w) (fun e => e < 2 ^ w)
    (fun p a b ha hb => ObliviousChooseScalar_eq w p a b hw ha hb)
    (fun a => by simp only [greater_signed w a a hw0]; simp)
    (fun a b c hab hbc => by
      simp only [greater_signed w _ _ hw0, decide_eq_true_eq] at hab hbc ⊢; omega)
    (fun a b c hac => by
      simp only [greater_signed w _ _ hw0, decide_eq_true_eq] at hac ⊢; omega)
    fuel low len asc arr helem hrange hwrap hfuel
  refine ⟨out, h1, h2, h3, h4, ?_⟩
  intro x y ex ey hxy hy hex hey
  have := h5 x y ex ey hxy hy hex hey
  cases asc
  · simp only [Bool.false_eq_true, if_false, greater_signed w _ _ hw0,
      decide_eq_false_iff_not] at this ⊢
    omega
  · simp only [if_true, greater_signed w _ _ hw0, decide_eq_false_iff_not] at this ⊢
    omega

/-- C1 (amended): for an array of `w`-bit signed integers (`w` = 16, 32 or 64) and a range
`[low, low + len)` inside it whose index arithmetic does not wrap, `ObliviousSort(arr, low,
len, true)` returns, changes nothing outside the range, and leaves in the range the
non-decreasing sort of its original contents (`len` = 0, 1 and non-powers of two included). -/
theorem ObliviousSort_ascending (w fuel low len : Nat) (arr : List Nat)
    (hw : w = 16 ∨ w = 32 ∨ w = 64) (helem : ∀ e ∈ arr, e < 2 ^ w)
    (hrange : low + len ≤ arr.length) (hwrap : low + 2 * len < 2 ^ 32)
    (hfuel : 2 * len + 32 < fuel) :
    ∃ out, ObliviousSort w fuel arr low len true = some out ∧
      out.length = arr.length ∧
      (∀ k, k < low ∨ low + len ≤ k → out[k]? = arr[k]?) ∧
      ((out.drop low).take len).map (toSigned w)
        = (((arr.drop low).take len).map (toSigned w)).insertionSort (· ≤ ·) := by
  obtain ⟨out, h1, h2, h3, h4, h5⟩ :=
    ObliviousSort_spec w fuel low len true arr hw helem hrange hwrap hfuel
  refine ⟨out, h1, h2.length_eq, h3, ?_⟩
  apply List.eq_of_perm_of_sorted (r := (· ≤ ·))
  · exact (h4.map _).trans (List.perm_insertionSort _ _).symm
  · exact sorted_of_index (· ≤ ·) (toSigned w) out low len (by rw [h2.length_eq]; exact hrange)
      (fun x y ex ey hxy hy hex hey => by simpa using h5 x y ex ey hxy hy hex hey)
  · exact List.sorted_insertionSort _ _

/-- C2 (amended): for an array of `w`-bit signed integers (`w` = 16, 32 or 64) and a range
inside it whose index arithmetic does not wrap, `ObliviousSort(arr, low, len, false)` returns,
changes nothing outside the range, and leaves in the range the non-increasing sort of its
original contents. -/
theorem ObliviousSort_descending (w fuel low len : Nat) (arr : List Nat)
    (hw : w = 16 ∨ w = 32 ∨ w = 64) (helem : ∀ e ∈ arr, e < 2 ^ w)
    (hrange : low + len ≤ arr.length) (hwrap : low + 2 * len < 2 ^ 32)
    (hfuel : 2 * len + 32 < fuel) :
    ∃ out, ObliviousSort w fuel arr low len false = some out ∧
      out.length = arr.length ∧
      (∀ k, k < low ∨ low + len ≤ k → out[k]? = arr[k]?) ∧
      ((out.drop low).take len).map (toSigned w)
        = (((arr.drop low).take len).map (toSigned w)).insertionSort (· ≥ ·) := by
  obtain ⟨out, h1, h2, h3, h4, h5⟩ :=
    ObliviousSort_spec w fuel low len false arr hw helem hrange hwrap hfuel
  refine ⟨out, h1, h2.length_eq, h3, ?_⟩
  apply List.eq_of_perm_of_sorted (r := (· ≥ ·))
  · exact (h4.map _).trans (List.perm_insertionSort _ _).symm
  · exact sorted_of_index (· ≥ ·) (toSigned w) out low len (by rw [h2.length_eq]; exact hrange)
      (fun x y ex ey hxy hy hex hey => by simpa using h5 x y ex ey hxy hy hex hey)
  · exact List.sorted_insertionSort _ _

/-- Witness for C1 (amended): the array `[2, 3, 1, -2, -1]` of 32-bit integers of the specification. -/
theorem ObliviousSort_ascending_witness :
    ∃ out, ObliviousSort 32 100 [2, 3, 1, 4294967294, 4294967295] 0 5 true = some out ∧
      out.length = [2, 3, 1, 4294967294, 4294967295].length ∧
      (∀ k, k < 0 ∨ 0 + 5 ≤ k → out[k]? = [2, 3, 1, 4294967294, 4294967295][k]?) ∧
      ((out.drop 0).take 5).map (toSigned 32)
        = ((([2, 3, 1, 4294967294, 4294967295].drop 0).take 5).map
            (toSigned 32)).insertionSort (· ≤ ·) :=
  ObliviousSort_ascending 32 100 0 5 [2, 3, 1, 4294967294, 4294967295] (by decide)
    (by decide) (by decide) (by decide) (by decide)

/-- Witness for C2 (amended): a range of length 3 inside an array of five 16-bit integers. -/
theorem ObliviousSort_descending_witness :
    ∃ out, ObliviousSort 16 100 [7, 65535, 3, 5, 0] 1 3 false = some out ∧
      out.length = [7, 65535, 3, 5, 0].length ∧
      (∀ k, k < 1 ∨ 1 + 3 ≤ k → out[k]? = [7, 65535, 3, 5, 0][k]?) ∧
      ((out.drop 1).take 3).map (toSigned 16)
        = ((([7, 65535, 3, 5, 0].drop 1).take 3).map (toSigned 16)).insertionSort (· ≥ ·) :=
  ObliviousSort_descending 16 100 1 3 [7, 65535, 3, 5, 0] (by decide)
    (by decide) (by decide) (by decide) (by decide)

/-- C3 (amended): for an array of POD records of an even byte size, a range inside it whose
index arithmetic does not wrap, and a caller-supplied `ogreater` that is the strict "greater"
of a total preorder on the records' keys, `ObliviousSortPOD` returns, rearranges whole records
of the range only, and leaves the range ordered by key: ascending, no element is `ogreater`
than a later one; descending, no later element is `ogreater` than an earlier one. -/
theorem ObliviousSortPOD_correct {K : Type} (ogreater : List Nat → List Nat → Bool)
    (key : List Nat → K) (le : K → K → Prop)
    (htotal : ∀ a b, le a b ∨ le b a) (htrans : ∀ a b c, le a b → le b c → le a c)
    (hgt : ∀ a b, ogreater a b = true ↔ ¬ le (key a) (key b))
    (size fuel low len : Nat) (asc : Bool) (arr : List (List Nat))
    (heven : size % 2 = 0) (hwf : WellFormed size arr)
    (hrange : low + len ≤ arr.length) (hwrap : low + 2 * len < 2 ^ 32)
    (hfuel : 2 * len + 32 < fuel) :
    ∃ out, ObliviousSortPOD ogreater fuel arr low len asc = some out ∧ out.Perm arr ∧
      (∀ k, k < low ∨ low + len ≤ k → out[k]? = arr[k]?) ∧
      ((out.drop low).take len).Perm ((arr.drop low).take len) ∧
      ∀ x y ex ey, x < y → y < len → out[low + x]? = some ex → out[low + y]? = some ey →
        (if asc then ogreater ex ey = false else ogreater ey ex = false) := by
  have hirr : ∀ a, ogreater a a = false := by
    intro a
    cases h : ogreater a a
    · rfl
    · exact absurd ((htotal (key a) (key a)).elim id id) ((hgt a a).mp h)
  exact o_sort_gen_correct ogreater ObliviousChoose
    (fun e => e.length = size ∧ ∀ b ∈ e, b < 256)
    (fun p a b ha hb => (ObliviousChoose_spec p a b ha.2 hb.2 (by rw [ha.1, hb.1])
      (by rw [ha.1]; exact heven)))
    hirr
    (fun a b c hab hbc => by
      rw [hgt] at hab hbc ⊢
      intro hac
      have hcb : le (key c) (key b) := (htotal (key b) (key c)).resolve_left hbc
      exact hab (htrans _ _ _ hac hcb))
    (fun a b c hac => by
      by_contra hcon
      rw [not_or] at hcon
      have h1 : le (key a) (key b) := by
        by_contra h; exact hcon.1 ((hgt a b).mpr h)
      have h2 : le (key b) (key c) := by
        by_contra h; exact hcon.2 ((hgt b c).mpr h)
      exact (hgt a c).mp hac (htrans _ _ _ h1 h2))
    fuel low len asc arr hwf hrange hwrap hfuel

/-- Witness for C3 (amended): three 2-byte records ordered by their first byte. -/
theorem ObliviousSortPOD_correct_witness :
    ∃ out, ObliviousSortPOD (fun a b => decide (a.headD 0 > b.headD 0)) 100
        [[3, 10], [1, 20], [2, 30]] 0 3 true = some out ∧
      out.Perm [[3, 10], [1, 20], [2, 30]] ∧
      (∀ k, k < 0 ∨ 0 + 3 ≤ k → out[k]? = [[3, 10], [1, 20], [2, 30]][k]?) ∧
      ((out.drop 0).take 3).Perm (([[3, 10], [1, 20], [2, 30]].drop 0).take 3) ∧
      ∀ x y ex ey, x < y → y < 3 → out[0 + x]? = some ex → out[0 + y]? = some ey →
        (if true then (fun a b : List Nat => decide (a.headD 0 > b.headD 0)) ex ey = false
          else (fun a b : List Nat => decide (a.headD 0 > b.headD 0)) ey ex = false) :=
  ObliviousSortPOD_correct (fun a b => decide (a.headD 0 > b.headD 0))
    (fun a => a.headD 0) (· ≤ ·) (fun a b => Nat.le_total a b)
    (fun _ _ _ h1 h2 => Nat.le_trans h1 h2) (fun a b => by simp)
    2 100 0 3 true [[3, 10], [1, 20], [2, 30]] (by decide) (by simp [WellFormed])
    (by decide) (by decide) (by decide)

set_option maxRecDepth 100000 in
/-- C3 as stated fails for one-byte records: `ObliviousChoose` (documented as supporting
types of size > 1 byte) makes a 16-bit access on them, so the first comparator of the call
is undefined and the range is not sorted. -/
theorem ObliviousSortPOD_one_byte :
    ObliviousSortPOD (fun a b => decide (a.headD 0 > b.headD 0)) 100 [[2], [1]] 0 2 true
      = none ∧
    ¬ ∃ out, ObliviousSortPOD (fun a b => decide (a.headD 0 > b.headD 0)) 100 [[2], [1]] 0 2
      true = some out := by
  have h : ObliviousSortPOD (fun a b => decide (a.headD 0 > b.headD 0)) 100 [[2], [1]] 0 2
      true = none := by decide
  exact ⟨h, fun ⟨out, ho⟩ => by rw [h] at ho; exact Option.noConfusion ho⟩

set_option maxRecDepth 1000000 in
/-- The integer scenario of the specification: `[2, 3, 1, -2, -1]` is sorted to
`[-2, -1, 1, 2, 3]` (32-bit patterns). -/
theorem ObliviousSort_example :
    ObliviousSort 32 100 [2, 3, 1, 4294967294, 4294967295] 0 5 true
      = some [4294967294, 4294967295, 1, 2, 3] := by
  decide

set_option maxRecDepth 1000000 in
/-- C1 as stated fails for other integer types.  On an array of one-byte integers the swap of
the first comparator goes through `ObliviousChoose` (documented as supporting types of
size > 1 byte), whose 16-bit access leaves the one-byte objects: the call is undefined.  On the
`uint32_t` array `[2147483648, 1]` the call returns the array unchanged, which is not its
non-decreasing sort `[1, 2147483648]` (the comparator uses the signed `setg`). -/
theorem ObliviousSort_ascending_other_types :
    ObliviousSort 8 100 [2, 1] 0 2 true = none ∧
    ObliviousSort 32 100 [2147483648, 1] 0 2 true = some [2147483648, 1] ∧
    [2147483648, 1].insertionSort (· ≤ ·) = [1, 2147483648] ∧
    ObliviousSort 32 100 [2147483648, 1] 0 2 true
      ≠ some ([2147483648, 1].insertionSort (· ≤ ·)) := by
  decide

set_option maxRecDepth 1000000 in
/-- C2 as stated fails for other integer types.  On an array of one-byte integers the call is
undefined (`ObliviousChoose` supports types of size > 1 byte), and on the `uint32_t` array
`[1, 2147483648]` the call returns the array unchanged, which is not its non-increasing sort
`[2147483648, 1]`. -/
theorem ObliviousSort_descending_other_types :
    ObliviousSort 8 100 [1, 2] 0 2 false = none ∧
    ObliviousSort 32 100 [1, 2147483648] 0 2 false = some [1, 2147483648] ∧
    [1, 2147483648].insertionSort (· ≥ ·) = [2147483648, 1] ∧
    ObliviousSort 32 100 [1, 2147483648] 0 2 false
      ≠ some ([1, 2147483648].insertionSort (· ≥ ·)) := by
  decide

/-! ## The swap predicate and the accesses of `ObliviousAssignEx` -/

theorem setcc_cases (c : Bool) : setcc c = 0 ∨ setcc c = 1 := by
  cases c <;> simp [setcc]

theorem ObliviousGreater_cases (w x y : Nat) :
    ObliviousGreater w x y = 0 ∨ ObliviousGreater w x y = 1 :=
  setcc_cases _

/-- The predicate computed by the comparators, `ObliviousEqual(ObliviousGreater(a, b),
ascending)` on `bool` operands, is `ObliviousGreater(a, b) XOR (ascending ? 0 : 1)`; the
comparator swaps exactly when `ObliviousGreater(a, b)` is 1 for `ascending = 1` and exactly
when it is not for `ascending = 0`.  The same holds for any Boolean `g` returned by
`T::ogreater`. -/
theorem swapPred_xor_cases (w x y : Nat) (ascending : Bool) :
    ObliviousEqual 8 (ObliviousGreater w x y) ascending.toNat
      = swapPredXor (ObliviousGreater w x y) ascending ∧
    swapPred (ObliviousGreater w x y != 0) ascending
      = (swapPredXor (ObliviousGreater w x y) ascending != 0) ∧
    (swapPred (ObliviousGreater w x y != 0) true = true ↔ ObliviousGreater w x y = 1) ∧
    (swapPred (ObliviousGreater w x y != 0) false = true ↔ ¬ ObliviousGreater w x y = 1) ∧
    (∀ g : Bool, ObliviousEqual 8 g.toNat ascending.toNat = swapPredXor g.toNat ascending ∧
      swapPred g ascending = xor g (!ascending)) := by
  have hg : ∀ g : Bool, ObliviousEqual 8 g.toNat ascending.toNat = swapPredXor g.toNat ascending ∧
      swapPred g ascending = xor g (!ascending) := by
    intro g
    cases g <;> cases ascending <;> decide
  rcases ObliviousGreater_cases w x y with h | h
  · rw [h]
    have := hg false
    refine ⟨this.1, ?_, ?_, ?_, hg⟩
    · cases ascending <;> decide
    · decide
    · decide
  · rw [h]
    have := hg true
    refine ⟨this.1, ?_, ?_, ?_, hg⟩
    · cases ascending <;> decide
    · decide
    · decide

theorem swapPred_signed (w x y : Nat) (hw : 0 < w) :
    (swapPred (ObliviousGreater w x y != 0) true = true ↔ toSigned w x > toSigned w y) ∧
    (swapPred (ObliviousGreater w x y != 0) false = true ↔ ¬ toSigned w x > toSigned w y) := by
  rw [greater_signed w x y hw, swapPred_eq, swapPred_eq]
  by_cases h : toSigned w x > toSigned w y <;> simp [h]

theorem swapPred_double (x y : Nat) :
    (swapPred (ObliviousGreater_double x y != 0) true = true ↔
      (isNaN x = false ∧ isNaN y = false ∧ doubleKey x > doubleKey y)) ∧
    (swapPred (ObliviousGreater_double x y != 0) false = true ↔
      ¬ (isNaN x = false ∧ isNaN y = false ∧ doubleKey x > doubleKey y)) := by
  rw [swapPred_eq, swapPred_eq]
  unfold ObliviousGreater_double comisd setcc
  cases hx : isNaN x <;> cases hy : isNaN y <;>
    by_cases h1 : doubleKey x > doubleKey y <;>
    by_cases h2 : doubleKey x < doubleKey y <;> simp [h1, h2]

/-- C20: the predicate computed by the comparators, `ObliviousEqual(ObliviousGreater(a, b),
ascending)` on `bool` operands, is `ObliviousGreater(a, b) XOR (ascending ? 0 : 1)` for all
operands.  For signed integers of any width the comparator swaps exactly when `a > b` for
`ascending = 1` and exactly when not `a > b` for `ascending = 0`, and so it does for doubles
(`a > b` being false when an operand is a NaN).  For the `uint32_t` values `a = 2147483648`,
`b = 1` it does not: `a > b`, but the comparator does not swap for `ascending = 1` and swaps
for `ascending = 0`, since `ObliviousGreater` returns 0 there. -/
theorem swap_predicate_greater :
    (∀ (w x y : Nat) (ascending : Bool),
      ObliviousEqual 8 (ObliviousGreater w x y) ascending.toNat
        = swapPredXor (ObliviousGreater w x y) ascending ∧
      swapPred (ObliviousGreater w x y != 0) ascending
        = (swapPredXor (ObliviousGreater w x y) ascending != 0)) ∧
    (∀ (w x y : Nat),
      (swapPred (ObliviousGreater (w + 1) x y != 0) true = true ↔
        toSigned (w + 1) x > toSigned (w + 1) y) ∧
      (swapPred (ObliviousGreater (w + 1) x y != 0) false = true ↔
        ¬ toSigned (w + 1) x > toSigned (w + 1) y)) ∧
    (∀ (x y : Nat),
      (swapPred (ObliviousGreater_double x y != 0) true = true ↔
        (isNaN x = false ∧ isNaN y = false ∧ doubleKey x > doubleKey y)) ∧
      (swapPred (ObliviousGreater_double x y != 0) false = true ↔
        ¬ (isNaN x = false ∧ isNaN y = false ∧ doubleKey x > doubleKey y))) ∧
    ((1 : Nat) < 2147483648 ∧ 2147483648 < 2 ^ 32 ∧
      ObliviousGreater 32 2147483648 1 = 0 ∧
      swapPred (ObliviousGreater 32 2147483648 1 != 0) true = false ∧
      swapPred (ObliviousGreater 32 2147483648 1 != 0) false = true) := by
  refine ⟨fun w x y ascending => ?_, fun w x y => swapPred_signed (w + 1) x y (by omega),
    swapPred_double, by decide⟩
  have h := swapPred_xor_cases w x y ascending
  exact ⟨h.1, h.2.1⟩

theorem range_append_zero (n k : Nat) :
    List.range' 0 n ++ List.range' n k = List.range' 0 (n + k) := by
  have := @List.range'_append_1 0 n k
  rwa [Nat.zero_add, Nat.add_comm] at this

theorem touched_append (l1 l2 : List (Nat × Nat)) :
    touched (l1 ++ l2) = touched l1 ++ touched l2 := by
  simp [touched]

theorem touched_eights (a : Nat) :
    touched ((List.range a).map (fun i => (8 * i, 8))) = List.range (8 * a) := by
  induction a with
  | zero => rfl
  | succ n ih =>
    rw [List.range_succ, List.map_append, touched_append, ih]
    simp only [touched, List.map_cons, List.map_nil, List.flatMap_cons, List.flatMap_nil,
      List.append_nil]
    rw [List.range_eq_range', List.range_eq_range', range_append_zero]
    rfl

/-- The accesses of `ObliviousAssignEx` are consecutive from offset 0 and touch every offset
below `bytes` once; for an odd `bytes` the last access also touches offset `bytes`. -/
theorem assignChunks_touched (bytes : Nat) :
    touched (assignChunks bytes) = List.range (bytes + bytes % 2) := by
  obtain ⟨a, r, hr, rfl⟩ : ∃ a r, r < 8 ∧ bytes = 8 * a + r :=
    ⟨bytes / 8, bytes % 8, Nat.mod_lt _ (by decide), (Nat.div_add_mod bytes 8).symm⟩
  have hdiv : (8 * a + r) / 8 = a := by omega
  have hmod : (8 * a + r) % 8 = r := by omega
  have h4 : (8 * a + r) % 4 = r % 4 := by omega
  have h2 : (8 * a + r) % 2 = r % 2 := by omega
  unfold assignChunks
  simp only [hdiv, hmod, h4, h2]
  rw [touched_append, touched_append, touched_append, touched_eights, List.range_eq_range',
    List.range_eq_range']
  interval_cases r <;>
    simp only [touched, Nat.reduceMod, Nat.reduceDiv, ne_eq, not_true_eq_false, if_false,
      OfNat.ofNat_ne_zero, one_ne_zero, not_false_eq_true, if_true, List.flatMap_cons,
      List.flatMap_nil, List.append_nil, List.append_assoc, List.range'_append_1,
      range_append_zero, Nat.add_zero, Nat.reduceAdd, Nat.add_assoc]

theorem assignLoop8_offset (p : Bool) (t f : List Nat) :
    ∀ (iters off : Nat) (out : List Nat) (r : List Nat × Nat),
      assignLoop8 p t f iters off out = some r → r.2 = off + 8 * iters := by
  intro iters
  induction iters with
  | zero =>
    intro off out r h
    simp only [assignLoop8, Option.some.injEq] at h
    rw [← h]; rfl
  | succ n ih =>
    intro off out r h
    rw [assignLoop8] at h
    cases hc : assignChunk 64 p t f off out with
    | none => rw [hc] at h; exact Option.noConfusion h
    | some out1 =>
      rw [hc] at h
      have := ih (off + 8) out1 r h
      omega

theorem assignChunk_outside (w : Nat) (p : Bool) (t f out : List Nat) (off : Nat)
    (h : t.length < off + w / 8) : assignChunk w p t f off out = none := by
  unfold assignChunk load
  rw [if_neg (by omega)]

/-- On objects of an odd number of bytes `ObliviousAssignEx` is undefined: its last access,
made for the trailing byte, is a 16-bit access at offset `bytes - 1`. -/
theorem ObliviousAssignEx_odd (p : Bool) (t f out : List Nat) (bytes : Nat)
    (hlen : t.length = bytes) (hodd : bytes % 2 = 1) :
    ObliviousAssignEx p t f bytes out = none := by
  unfold ObliviousAssignEx
  cases h8 : assignLoop8 p t f (bytes / 8) 0 out with
  | none => rfl
  | some r =>
    obtain ⟨out8, off8⟩ := r
    have hoff : off8 = 0 + 8 * (bytes / 8) := assignLoop8_offset p t f _ _ _ _ h8
    simp only []
    by_cases c4 : bytes % 8 / 4 ≠ 0
    · rw [if_pos c4]
      cases h4 : assignChunk 32 p t f off8 out8 with
      | none => rfl
      | some out4 =>
        simp only [Option.map_some']
        by_cases c2 : bytes % 4 / 2 ≠ 0
        · rw [if_pos c2]
          cases h2 : assignChunk 16 p t f (off8 + 4) out4 with
          | none => rfl
          | some out2 =>
            simp only [Option.map_some']
            rw [if_pos (by omega)]
            exact assignChunk_outside 16 p t f out2 _ (by omega)
        · rw [if_neg c2]
          simp only []
          rw [if_pos (by omega)]
          exact assignChunk_outside 16 p t f out4 _ (by omega)
    · rw [if_neg c4]
      simp only []
      by_cases c2 : bytes % 4 / 2 ≠ 0
      · rw [if_pos c2]
        cases h2 : assignChunk 16 p t f off8 out8 with
        | none => rfl
        | some out2 =>
          simp only [Option.map_some']
          rw [if_pos (by omega)]
          exact assignChunk_outside 16 p t f out2 _ (by omega)
      · rw [if_neg c2]
        simp only []
        rw [if_pos (by omega)]
        exact assignChunk_outside 16 p t f out8 _ (by omega)

/-- `ObliviousChoose` on a type of odd size is undefined. -/
theorem ObliviousChoose_odd (p : Bool) (t f : List Nat) (hodd : t.length % 2 = 1) :
    ObliviousChoose p t f = none :=
  ObliviousAssignEx_odd p t f _ t.length rfl hodd

/-- C19: for `bytes = 3` the accesses of `ObliviousAssignEx` are a 2-byte access at offset 0
and, for the trailing byte, a 16-bit access at offset 2, which touches offset 3 = `bytes`;
on 3-byte objects the call is therefore undefined, for both values of the predicate. -/
theorem ObliviousAssignEx_trailing_byte :
    assignChunks 3 = [(0, 2), (2, 2)] ∧ touched (assignChunks 3) = [0, 1, 2, 3] ∧
    ObliviousAssignEx true [1, 2, 3] [4, 5, 6] 3 [0, 0, 0] = none ∧
    ObliviousAssignEx false [1, 2, 3] [4, 5, 6] 3 [0, 0, 0] = none ∧
    ObliviousChoose true [1, 2, 3] [4, 5, 6] = none := by
  decide

/-! ## Comparison kernels on doubles -/

/-- C12: on the finite doubles `+0.0` (encoding 0) and `-0.0` (encoding `2^63`) the host
comparison `+0.0 == -0.0` is true, but `ObliviousEqual` compares the register images and
returns 0. -/
theorem ObliviousEqual_double_zeros :
    isFiniteDouble 0 = true ∧ isFiniteDouble (2 ^ 63) = true ∧ ieeeEq 0 (2 ^ 63) = true ∧
    ObliviousEqual_double 0 (2 ^ 63) = 0 := by
  decide

/-- C13: with a NaN operand (`comisd` reports unordered, ZF = PF = CF = 1)
`ObliviousGreater` and `ObliviousGreaterOrEqual` return 0, but `ObliviousLess` (`setb`) and
`ObliviousLessOrEqual` (`setbe`) return 1; here for the quiet NaN `0x7FF8000000000000`
against `1.0` (`0x3FF0000000000000`), in both operand orders. -/
theorem double_kernels_nan :
    isNaN 0x7FF8000000000000 = true ∧
    comisd 0x7FF8000000000000 0x3FF0000000000000 = { zf := true, pf := true, cf := true } ∧
    ObliviousGreater_double 0x7FF8000000000000 0x3FF0000000000000 = 0 ∧
    ObliviousGreaterOrEqual_double 0x7FF8000000000000 0x3FF0000000000000 = 0 ∧
    ObliviousLess_double 0x7FF8000000000000 0x3FF0000000000000 = 1 ∧
    ObliviousLessOrEqual_double 0x7FF8000000000000 0x3FF0000000000000 = 1 ∧
    ObliviousLess_double 0x3FF0000000000000 0x7FF8000000000000 = 1 ∧
    ObliviousLessOrEqual_double 0x3FF0000000000000 0x7FF8000000000000 = 1 := by
  decide

/-- The double kernels on any pair with a NaN operand. -/
theorem double_kernels_unordered (x y : Nat) (h : isNaN x = true ∨ isNaN y = true) :
    ObliviousGreater_double x y = 0 ∧ ObliviousGreaterOrEqual_double x y = 0 ∧
    ObliviousLess_double x y = 1 ∧ ObliviousLessOrEqual_double x y = 1 := by
  have hc : comisd x y = { zf := true, pf := true, cf := true } := by
    unfold comisd
    rcases h with h | h <;> simp [h]
  simp [ObliviousGreater_double, ObliviousGreaterOrEqual_double, ObliviousLess_double,
    ObliviousLessOrEqual_double, hc, setcc]

/-- The double kernels on ordered operands agree with the order of the values. -/
theorem double_kernels_ordered (x y : Nat) (hx : isNaN x = false) (hy : isNaN y = false) :
    ObliviousGreater_double x y = (if doubleKey x > doubleKey y then 1 else 0) ∧
    ObliviousGreaterOrEqual_double x y = (if doubleKey x ≥ doubleKey y then 1 else 0) ∧
    ObliviousLess_double x y = (if doubleKey x < doubleKey y then 1 else 0) ∧
    ObliviousLessOrEqual_double x y = (if doubleKey x ≤ doubleKey y then 1 else 0) := by
  unfold ObliviousGreater_double ObliviousGreaterOrEqual_double ObliviousLess_double
    ObliviousLessOrEqual_double comisd setcc
  simp only [hx, hy, Bool.or_self, Bool.false_eq_true, if_false]
  by_cases h1 : doubleKey x > doubleKey y
  · have h2 : ¬ doubleKey x < doubleKey y := by omega
    have h3 : doubleKey x ≥ doubleKey y := by omega
    have h4 : ¬ doubleKey x ≤ doubleKey y := by omega
    simp [h1, h2, h3, h4]
  · by_cases h2 : doubleKey x < doubleKey y
    · have h3 : ¬ doubleKey x ≥ doubleKey y := by omega
      have h4 : doubleKey x ≤ doubleKey y := by omega
      simp [h1, h2, h3, h4]
    · have h3 : doubleKey x ≥ doubleKey y := by omega
      have h4 : doubleKey x ≤ doubleKey y := by omega
      simp [h1, h2, h3, h4]

/-! ## Correctness of the bitonic merge -/

theorem bitonic_of_sorted_parts (d : Bool) (g : Nat → Bool) (s t n : Nat) (ht : t ≤ n)
    (h1 : SortedOn d g s t) (h2 : SortedOn (!d) g (s + t) (n - t)) : NoAlt g s n := by
  intro p q r u hp hpq hqr hru hu hcon
  by_cases hr : r < s + t
  · have a1 := h1 p q hp hpq (by omega)
    have a2 := h1 q r (by omega) hqr hr
    revert a1 a2 hcon
    unfold leD
    cases d <;> cases g p <;> cases g q <;> cases g r <;> cases g u <;> simp
  · by_cases hq : s + t ≤ q
    · have a1 := h2 q r hq hqr (by omega)
      have a2 := h2 r u (by omega) hru (by omega)
      revert a1 a2 hcon
      unfold leD
      cases d <;> cases g p <;> cases g q <;> cases g r <;> cases g u <;> simp
    · have a1 := h1 p q hp hpq (by omega)
      have a2 := h2 r u (by omega) hru (by omega)
      revert a1 a2 hcon
      unfold leD
      cases d <;> cases g p <;> cases g q <;> cases g r <;> cases g u <;> simp

theorem mergeLevels_bounds (len : Nat) :
    len ≤ 2 ^ mergeLevels len ∧ 2 ^ mergeLevels len < 2 * len + 2 := by
  unfold mergeLevels
  split_ifs with h
  · simp; omega
  · obtain ⟨h1, h2⟩ := log2_pred_bounds len (by omega)
    refine ⟨h2, ?_⟩
    rw [pow_succ]; omega

theorem mergeLevels_pow (p : Nat) : mergeLevels (2 ^ p) = p := by
  obtain ⟨h1, h2⟩ := mergeLevels_bounds (2 ^ p)
  have hp : 0 < 2 ^ p := by positivity
  by_cases hp0 : p = 0
  · subst hp0; simp [mergeLevels]
  · have a1 : p ≤ mergeLevels (2 ^ p) := (Nat.pow_le_pow_iff_right (by decide)).mp h1
    have hlt : 2 ^ mergeLevels (2 ^ p) < 2 ^ (p + 2) := by
      have : 2 ^ (p + 2) = 4 * 2 ^ p := by rw [pow_add]; ring
      have h2p : 2 ≤ 2 ^ p := by
        calc 2 = 2 ^ 1 := rfl
          _ ≤ 2 ^ p := Nat.pow_le_pow_right (by decide) (by omega)
      omega
    have a2 : mergeLevels (2 ^ p) < p + 2 := (Nat.pow_lt_pow_iff_right (by decide)).mp hlt
    by_contra hne
    have heq : mergeLevels (2 ^ p) = p + 1 := by omega
    unfold mergeLevels at heq
    have hgt : ¬ 2 ^ p ≤ 1 := by
      have h2p : 2 ≤ 2 ^ p := by
        calc 2 = 2 ^ 1 := rfl
          _ ≤ 2 ^ p := Nat.pow_le_pow_right (by decide) (by omega)
      omega
    rw [if_neg hgt] at heq
    have hb := log2_pred_bounds (2 ^ p) (by omega)
    have : Nat.log2 (2 ^ p - 1) = p := by omega
    rw [this] at hb
    omega

theorem log2_ceil_small (fuel len : Nat) (hlen : len ≤ 1) (hfuel : 0 < fuel) :
    log2_ceil fuel len = some 0 := by
  obtain ⟨f, rfl⟩ : ∃ f, fuel = f + 1 := ⟨fuel - 1, by omega⟩
  unfold log2_ceil
  rw [log2Loop, if_neg (by omega)]
  simp only [Option.map_some', Nat.shiftLeft_zero]
  rw [if_neg (by omega)]

theorem imperative_o_merge_gen_run {α : Type} (greater : α → α → Bool)
    (choose : Bool → α → α → Option α) (Good : α → Prop)
    (hchoose : ∀ p a b, Good a → Good b → choose p a b = some (if p then a else b))
    (low len : Nat) (asc : Bool) (L fuel : Nat) (arr : List α)
    (hwrap : low + 2 * len < 2 ^ 32) (hL : low + len ≤ L) (hfuel : 2 * len + 32 < fuel)
    (hinv : ArrInv Good L arr) :
    imperative_o_merge_gen greater choose fuel arr low len asc
      = some (applyNet greater arr (mergeNet low len asc (mergeLevels len))) := by
  unfold mergeLevels
  split_ifs with h
  · unfold imperative_o_merge_gen
    rw [log2_ceil_small fuel len h (by omega)]
    obtain ⟨f, rfl⟩ : ∃ f, fuel = f + 1 := ⟨fuel - 1, by omega⟩
    simp [forLoop, mergeNet, applyNet]
  · obtain ⟨h1, h2⟩ := log2_pred_bounds len (by omega)
    have hq : Nat.log2 (len - 1) ≤ 30 := by
      by_contra hcon
      have : 2 ^ 31 ≤ 2 ^ Nat.log2 (len - 1) := Nat.pow_le_pow_right (by decide) (by omega)
      omega
    have hpow : 2 ^ (Nat.log2 (len - 1) + 1) = 2 * 2 ^ Nat.log2 (len - 1) := by
      rw [pow_succ]; ring
    exact imperative_o_merge_gen_eq greater choose Good hchoose low len asc _ L fuel arr hq h1 h2
      (by omega) (by omega) hL (by omega) (by omega) hinv

/-- The 0-1 principle for one input: if the network sorts the 0-1 image of `arr` under every
threshold `z > pivot`, it orders `arr` by `greater` on the range. -/
theorem net_sorted_of_pivots {α : Type} (greater : α → α → Bool)
    (hirr : ∀ a, greater a a = false)
    (htrans : ∀ a b c, greater a b = true → greater b c = true → greater a c = true)
    (hneg : ∀ a b c, greater a c = true → greater a b = true ∨ greater b c = true)
    (net : List (Nat × Nat × Bool)) (low len : Nat) (asc : Bool) (arr : List α)
    (hbool : ∀ pivot : α,
      SortedOn asc (view (applyNet gtB (arr.map (fun z => greater z pivot)) net) low len asc)
        0 len) :
    ∀ x y ex ey, x < y → y < len → (applyNet greater arr net)[low + x]? = some ex →
      (applyNet greater arr net)[low + y]? = some ey → dirLe greater asc ex ey := by
  intro x y ex ey hxy hy hex hey
  have key : ∀ pivot : α, leD asc (greater ex pivot) (greater ey pivot) := by
    intro pivot
    have hmap := applyNet_map greater _ (threshold_of_pivot greater htrans hneg pivot) net arr
    have hs := hbool pivot
    rw [← hmap] at hs
    have := hs x y (Nat.zero_le _) hxy (by omega)
    rwa [view_eq_of_getElem? _ low len asc x (greater ex pivot) (by omega)
        (by rw [List.getElem?_map, hex]; rfl),
      view_eq_of_getElem? _ low len asc y (greater ey pivot) hy
        (by rw [List.getElem?_map, hey]; rfl)] at this
  unfold dirLe
  cases asc
  · simp only [Bool.false_eq_true, if_false]
    have := key ex
    unfold leD at this
    simp only [Bool.false_eq_true, if_false, hirr ex] at this
    cases h : greater ey ex
    · rfl
    · exact absurd (this h) (by simp)
  · simp only [if_true]
    have := key ey
    unfold leD at this
    simp only [if_true, hirr ey] at this
    cases h : greater ex ey
    · rfl
    · exact absurd (this h) (by simp)

theorem mergeNet_sorted_of_bitonic (b : List Bool) (low len : Nat) (asc : Bool) (l : Nat)
    (hlen : len ≤ 2 ^ l) (hL : low + len ≤ b.length)
    (hbit : NoAlt (view b low len asc) 0 (2 ^ l)) :
    SortedOn asc (view (applyNet gtB b (mergeNet low len asc l)) low len asc) 0 len := by
  rw [mergeNet_view b low len asc l hlen hL]
  have hm := mergeF_sorts (fun _ => asc) l (view b low len asc) 0 asc
    (by rw [Nat.mul_zero]; exact hbit) (fun _ _ _ => rfl)
  rw [Nat.mul_zero] at hm
  intro x y hx hxy hy
  exact hm x y hx hxy (by omega)

theorem dirLe_threshold {α : Type} (greater : α → α → Bool)
    (hneg : ∀ a b c, greater a c = true → greater a b = true ∨ greater b c = true)
    (d : Bool) (a b pivot : α) (h : dirLe greater d a b) :
    leD d (greater a pivot) (greater b pivot) := by
  unfold dirLe at h
  unfold leD
  cases d
  · simp only [Bool.false_eq_true, if_false] at h ⊢
    intro hb
    rcases hneg b a pivot hb with h' | h'
    · rw [h] at h'; exact Bool.noConfusion h'
    · exact h'
  · simp only [if_true] at h ⊢
    intro ha
    rcases hneg a b pivot ha with h' | h'
    · rw [h] at h'; exact Bool.noConfusion h'
    · exact h'

/-- A range made of a run sorted in direction `d` (its first `t` positions) followed by a run
sorted in the opposite direction has a bitonic 0-1 image under every threshold, also after
padding to `2^l` positions when the second run has the direction of the padding. -/
theorem bitonic_view_of_runs {α : Type} (greater : α → α → Bool)
    (hneg : ∀ a b c, greater a c = true → greater a b = true ∨ greater b c = true)
    (arr : List α) (low len l t : Nat) (asc d : Bool) (pivot : α)
    (hlen : len ≤ 2 ^ l) (hL : low + len ≤ arr.length) (ht : t ≤ len)
    (hd : d = !asc ∨ len = 2 ^ l)
    (h1 : ∀ x y ex ey, x < y → y < t → arr[low + x]? = some ex → arr[low + y]? = some ey →
      dirLe greater d ex ey)
    (h2 : ∀ x y ex ey, t ≤ x → x < y → y < len → arr[low + x]? = some ex →
      arr[low + y]? = some ey → dirLe greater (!d) ex ey) :
    NoAlt (view (arr.map (fun z => greater z pivot)) low len asc) 0 (2 ^ l) := by
  have hget : ∀ x, x < len → ∃ e, arr[low + x]? = some e ∧
      view (arr.map (fun z => greater z pivot)) low len asc x = greater e pivot := by
    intro x hx
    have hlt : low + x < arr.length := by omega
    refine ⟨arr[low + x], List.getElem?_eq_getElem hlt, ?_⟩
    exact view_eq_of_getElem? _ low len asc x _ hx
      (by rw [List.getElem?_map, List.getElem?_eq_getElem hlt]; rfl)
  apply bitonic_of_sorted_parts d _ 0 t (2 ^ l) (by omega)
  · intro x y _ hxy hy
    obtain ⟨ex, hex, hvx⟩ := hget x (by omega)
    obtain ⟨ey, hey, hvy⟩ := hget y (by omega)
    rw [hvx, hvy]
    exact dirLe_threshold greater hneg d ex ey pivot (h1 x y ex ey hxy (by omega) hex hey)
  · intro x y hx hxy hy
    by_cases hy2 : y < len
    · obtain ⟨ex, hex, hvx⟩ := hget x (by omega)
      obtain ⟨ey, hey, hvy⟩ := hget y hy2
      rw [hvx, hvy]
      exact dirLe_threshold greater hneg (!d) ex ey pivot
        (h2 x y ex ey (by omega) hxy hy2 hex hey)
    · have hdd : d = !asc := by
        rcases hd with h | h
        · exact h
        · omega
      rw [view_pad _ _ _ _ y (by omega), hdd, Bool.not_not]
      unfold leD
      cases asc <;> simp

/-- Correctness of `imperative_o_merge` for any element type on which `ObliviousChoose` is
defined and any strict weak order `greater`: a range made of a run sorted against the
requested direction followed by a run sorted in it (or, for a power-of-two length, of two
runs of opposite directions in either order) is left sorted in the requested direction. -/
theorem imperative_o_merge_gen_correct {α : Type} (greater : α → α → Bool)
    (choose : Bool → α → α → Option α) (Good : α → Prop)
    (hchoose : ∀ p a b, Good a → Good b → choose p a b = some (if p then a else b))
    (hirr : ∀ a, greater a a = false)
    (htrans : ∀ a b c, greater a b = true → greater b c = true → greater a c = true)
    (hneg : ∀ a b c, greater a c = true → greater a b = true ∨ greater b c = true)
    (fuel low len t : Nat) (asc d : Bool) (arr : List α) (hgood : ∀ e ∈ arr, Good e)
    (hrange : low + len ≤ arr.length) (hwrap : low + 2 * len < 2 ^ 32)
    (hfuel : 2 * len + 32 < fuel) (ht : t ≤ len)
    (hd : d = !asc ∨ ∃ p, len = 2 ^ p)
    (h1 : ∀ x y ex ey, x < y → y < t → arr[low + x]? = some ex → arr[low + y]? = some ey →
      dirLe greater d ex ey)
    (h2 : ∀ x y ex ey, t ≤ x → x < y → y < len → arr[low + x]? = some ex →
      arr[low + y]? = some ey → dirLe greater (!d) ex ey) :
    ∃ out, imperative_o_merge_gen greater choose fuel arr low len asc = some out ∧
      out.Perm arr ∧ (∀ k, k < low ∨ low + len ≤ k → out[k]? = arr[k]?) ∧
      ((out.drop low).take len).Perm ((arr.drop low).take len) ∧
      ∀ x y ex ey, x < y → y < len → out[low + x]? = some ex → out[low + y]? = some ey →
        dirLe greater asc ex ey := by
  have hrun := imperative_o_merge_gen_run greater choose Good hchoose low len asc arr.length
    fuel arr hwrap hrange hfuel ⟨rfl, hgood⟩
  obtain ⟨hb1, -⟩ := mergeLevels_bounds len
  have hperm := applyNet_perm greater (mergeNet low len asc (mergeLevels len)) arr
  have hout : ∀ k, k < low ∨ low + len ≤ k →
      (applyNet greater arr (mergeNet low len asc (mergeLevels len)))[k]? = arr[k]? :=
    fun k hk => applyNet_outside greater _ low (low + len) k
      (mergeNet_within low len asc _ hb1) hk arr
  refine ⟨_, hrun, hperm, hout, slice_perm _ _ low len hperm hout, ?_⟩
  apply net_sorted_of_pivots greater hirr htrans hneg
  intro pivot
  apply mergeNet_sorted_of_bitonic _ low len asc _ hb1 (by rw [List.length_map]; exact hrange)
  apply bitonic_view_of_runs greater hneg arr low len _ t asc d pivot hb1 hrange ht ?_ h1 h2
  rcases hd with h | ⟨p, hp⟩
  · exact Or.inl h
  · right
    rw [hp, mergeLevels_pow]

theorem rangeValues_getElem? (w : Nat) (arr : List Nat) (low len x : Nat) (hx : x < len) :
    (rangeValues w arr low len)[x]? = (arr[low + x]?).map (toSigned w) := by
  unfold rangeValues
  rw [List.getElem?_map, List.getElem?_take_of_lt hx, List.getElem?_drop]

theorem pairwise_getElem? {β : Type} (r : β → β → Prop) (s : List β) (h : s.Pairwise r)
    (x y : Nat) (a b : β) (hxy : x < y) (hx : s[x]? = some a) (hy : s[y]? = some b) : r a b := by
  rw [List.pairwise_iff_getElem] at h
  obtain ⟨hx1, hx2⟩ := List.getElem?_eq_some.mp hx
  obtain ⟨hy1, hy2⟩ := List.getElem?_eq_some.mp hy
  rw [← hx2, ← hy2]
  exact h x y hx1 hy1 hxy

theorem SortedDir_index (d : Bool) (s : List Int) (h : SortedDir d s) (x y : Nat) (a b : Int)
    (hxy : x < y) (hx : s[x]? = some a) (hy : s[y]? = some b) :
    if d then a ≤ b else b ≤ a := by
  unfold SortedDir at h
  cases d
  · simp only [Bool.false_eq_true, if_false] at h ⊢
    exact pairwise_getElem? _ s h x y a b hxy hx hy
  · simp only [if_true] at h ⊢
    exact pairwise_getElem? _ s h x y a b hxy hx hy

theorem SortedDir_of_index (w : Nat) (d : Bool) (out : List Nat) (low len : Nat)
    (hlen : low + len ≤ out.length)
    (h : ∀ x y ex ey, x < y → y < len → out[low + x]? = some ex → out[low + y]? = some ey →
      (if d then toSigned w ex ≤ toSigned w ey else toSigned w ey ≤ toSigned w ex)) :
    SortedDir d (rangeValues w out low len) := by
  unfold SortedDir rangeValues
  cases d
  · simp only [Bool.false_eq_true, if_false] at h ⊢
    exact sorted_of_index (· ≥ ·) (toSigned w) out low len hlen h
  · simp only [if_true] at h ⊢
    exact sorted_of_index (· ≤ ·) (toSigned w) out low len hlen h

theorem dirLe_signed (w : Nat) (hw : 0 < w) (d : Bool) (a b : Nat) :
    dirLe (fun x y => ObliviousGreater w x y != 0) d a b ↔
      (if d then toSigned w a ≤ toSigned w b else toSigned w b ≤ toSigned w a) := by
  unfold dirLe
  cases d
  · simp only [Bool.false_eq_true, if_false, greater_signed w _ _ hw, decide_eq_false_iff_not]
    omega
  · simp only [if_true, greater_signed w _ _ hw, decide_eq_false_iff_not]
    omega

/-- The two runs of a `TwoRuns` range, positionwise on the array. -/
theorem TwoRuns_index (w : Nat) (arr : List Nat) (low len : Nat) (d : Bool)
    (h : TwoRuns d (rangeValues w arr low len)) :
    ∃ t, t ≤ len ∧
      (∀ x y ex ey, x < y → y < t → arr[low + x]? = some ex → arr[low + y]? = some ey →
        (if d then toSigned w ex ≤ toSigned w ey else toSigned w ey ≤ toSigned w ex)) ∧
      (∀ x y ex ey, t ≤ x → x < y → y < len → arr[low + x]? = some ex →
        arr[low + y]? = some ey →
        (if (!d) then toSigned w ex ≤ toSigned w ey else toSigned w ey ≤ toSigned w ex)) := by
  obtain ⟨t, h1, h2⟩ := h
  refine ⟨min t len, Nat.min_le_right _ _, ?_, ?_⟩
  · intro x y ex ey hxy hy hex hey
    have hy1 : y < t := by omega
    have hy2 : y < len := by omega
    apply SortedDir_index d _ h1 x y _ _ hxy
    · rw [List.getElem?_take_of_lt (by omega), rangeValues_getElem? _ _ _ _ _ (by omega), hex]
      rfl
    · rw [List.getElem?_take_of_lt hy1, rangeValues_getElem? _ _ _ _ _ hy2, hey]
      rfl
  · intro x y ex ey hx hxy hy hex hey
    have ht : t ≤ x := by omega
    apply SortedDir_index (!d) _ h2 (x - t) (y - t) _ _ (by omega)
    · rw [List.getElem?_drop, rangeValues_getElem? _ _ _ _ _ (by omega)]
      have : low + (t + (x - t)) = low + x := by omega
      rw [this, hex]; rfl
    · rw [List.getElem?_drop, rangeValues_getElem? _ _ _ _ _ (by omega)]
      have : low + (t + (y - t)) = low + y := by omega
      rw [this, hey]; rfl

theorem rangeValues_perm (w : Nat) (out arr : List Nat) (low len : Nat)
    (h : ((out.drop low).take len).Perm ((arr.drop low).take len)) :
    (rangeValues w out low len).Perm (rangeValues w arr low len) :=
  h.map _

/-- `imperative_o_merge` on `w`-bit signed integers, positionwise. -/
theorem imperative_o_merge_spec (w fuel low len t : Nat) (asc d : Bool) (arr : List Nat)
    (hw : w = 16 ∨ w = 32 ∨ w = 64) (helem : ∀ e ∈ arr, e < 2 ^ w)
    (hrange : low + len ≤ arr.length) (hwrap : low + 2 * len < 2 ^ 32)
    (hfuel : 2 * len + 32 < fuel) (ht : t ≤ len) (hd : d = !asc ∨ ∃ p, len = 2 ^ p)
    (h1 : ∀ x y ex ey, x < y → y < t → arr[low + x]? = some ex → arr[low + y]? = some ey →
      (if d then toSigned w ex ≤ toSigned w ey else toSigned w ey ≤ toSigned w ex))
    (h2 : ∀ x y ex ey, t ≤ x → x < y → y < len → arr[low + x]? = some ex →
      arr[low + y]? = some ey →
      (if (!d) then toSigned w ex ≤ toSigned w ey else toSigned w ey ≤ toSigned w ex)) :
    ∃ out, imperative_o_merge w fuel arr low len asc = some out ∧ out.Perm arr ∧
      (∀ k, k < low ∨ low + len ≤ k → out[k]? = arr[k]?) ∧
      (rangeValues w out low len).Perm (rangeValues w arr low len) ∧
      SortedDir asc (rangeValues w out low len) := by
  have hw0 : 0 < w := by omega
  obtain ⟨out, e1, e2, e3, e4, e5⟩ := imperative_o_merge_gen_correct
    (fun x y => ObliviousGreater w x y != 0) (ObliviousChooseScalar w) (fun e => e < 2 ^ w)
    (fun p a b ha hb => ObliviousChooseScalar_eq w p a b hw ha hb)
    (fun a => by simp only [greater_signed w a a hw0]; simp)
    (fun a b c hab hbc => by
      simp only [greater_signed w _ _ hw0, decide_eq_true_eq] at hab hbc ⊢; omega)
    (fun a b c hac => by
      simp only [greater_signed w _ _ hw0, decide_eq_true_eq] at hac ⊢; omega)
    fuel low len t asc d arr helem hrange hwrap hfuel ht hd
    (fun x y ex ey hxy hy hex hey => (dirLe_signed w hw0 d ex ey).mpr (h1 x y ex ey hxy hy hex hey))
    (fun x y ex ey hx hxy hy hex hey =>
      (dirLe_signed w hw0 (!d) ex ey).mpr (h2 x y ex ey hx hxy hy hex hey))
  refine ⟨out, e1, e2, e3, rangeValues_perm w out arr low len e4, ?_⟩
  apply SortedDir_of_index w asc out low len (by rw [e2.length_eq]; exact hrange)
  intro x y ex ey hxy hy hex hey
  exact (dirLe_signed w hw0 asc ex ey).mp (e5 x y ex ey hxy hy hex hey)

/-- C11 (amended): on an array of `w`-bit signed integers and a range inside it whose index
arithmetic does not wrap, `ObliviousMerge(arr, low, len, ascending)` returns and leaves the
range sorted in the requested direction (a permutation of its contents, the rest of the array
untouched) when the range is a run sorted against the requested direction followed by a run
sorted in it, or when `len` is a power of two and the range is bitonic in either
orientation. -/
theorem ObliviousMerge_bitonic (w fuel low len : Nat) (asc : Bool) (arr : List Nat)
    (hw : w = 16 ∨ w = 32 ∨ w = 64) (helem : ∀ e ∈ arr, e < 2 ^ w)
    (hrange : low + len ≤ arr.length) (hwrap : low + 2 * len < 2 ^ 32)
    (hfuel : 2 * len + 32 < fuel)
    (hshape : TwoRuns (!asc) (rangeValues w arr low len) ∨
      ((∃ p, len = 2 ^ p) ∧ Bitonic (rangeValues w arr low len))) :
    ∃ out, ObliviousMerge w fuel arr low len asc = some out ∧ out.length = arr.length ∧
      (∀ k, k < low ∨ low + len ≤ k → out[k]? = arr[k]?) ∧
      (rangeValues w out low len).Perm (rangeValues w arr low len) ∧
      SortedDir asc (rangeValues w out low len) := by
  have key : ∀ d, (d = !asc ∨ ∃ p, len = 2 ^ p) → TwoRuns d (rangeValues w arr low len) →
      ∃ out, ObliviousMerge w fuel arr low len asc = some out ∧ out.length = arr.length ∧
        (∀ k, k < low ∨ low + len ≤ k → out[k]? = arr[k]?) ∧
        (rangeValues w out low len).Perm (rangeValues w arr low len) ∧
        SortedDir asc (rangeValues w out low len) := by
    intro d hd hruns
    obtain ⟨t, ht, h1, h2⟩ := TwoRuns_index w arr low len d hruns
    obtain ⟨out, e1, e2, e3, e4, e5⟩ := imperative_o_merge_spec w fuel low len t asc d arr hw
      helem hrange hwrap hfuel ht hd h1 h2
    exact ⟨out, e1, e2.length_eq, e3, e4, e5⟩
  rcases hshape with h | ⟨hp, h | h⟩
  · exact key (!asc) (Or.inl rfl) h
  · exact key true (Or.inr hp) h
  · exact key false (Or.inr hp) h

/-- Witness for C11 (amended): the range `[3, 1, 2]` (down, then up) merged ascending. -/
theorem ObliviousMerge_bitonic_witness :
    ∃ out, ObliviousMerge 32 100 [3, 1, 2] 0 3 true = some out ∧
      out.length = [3, 1, 2].length ∧
      (∀ k, k < 0 ∨ 0 + 3 ≤ k → out[k]? = [3, 1, 2][k]?) ∧
      (rangeValues 32 out 0 3).Perm (rangeValues 32 [3, 1, 2] 0 3) ∧
      SortedDir true (rangeValues 32 out 0 3) :=
  ObliviousMerge_bitonic 32 100 0 3 true [3, 1, 2] (by decide) (by decide) (by decide)
    (by decide) (by decide)
    (Or.inl ⟨2, by simp [SortedDir, rangeValues, toSigned],
      by simp [SortedDir, rangeValues, toSigned]⟩)

/-- C11 as stated fails for a length that is not a power of two: the range `[1, 2, 0]` is
bitonic (non-decreasing, then non-increasing), and `ObliviousMerge(arr, 0, 3, true)` leaves
`[0, 2, 1]`, which is not sorted: the comparator on positions 1 and 3 is skipped. -/
theorem ObliviousMerge_up_down :
    Bitonic (rangeValues 32 [1, 2, 0] 0 3) ∧
    ObliviousMerge 32 100 [1, 2, 0] 0 3 true = some [0, 2, 1] ∧
    ¬ SortedDir true (rangeValues 32 [0, 2, 1] 0 3) := by
  refine ⟨Or.inl ⟨2, ?_, ?_⟩, ?_, ?_⟩
  · simp [SortedDir, rangeValues, toSigned]
  · simp [SortedDir, rangeValues, toSigned]
  · decide
  · simp [SortedDir, rangeValues, toSigned]

/-- C14: for `len >= 2` and `m = greatest_power_of_two_less_than(len)`, if `arr[low, low+m)`
is sorted against `ascending` and `arr[low+m, low+len)` is sorted in direction `ascending`,
`imperative_o_merge(arr, low, len, ascending)` returns and leaves `arr[low, low+len)` sorted
in direction `ascending` (a permutation of its contents, the rest of the array untouched);
`w`-bit signed integers, range inside the array, index arithmetic not wrapping. -/
theorem imperative_o_merge_after_sorts (w fuel low len m : Nat) (asc : Bool) (arr : List Nat)
    (hw : w = 16 ∨ w = 32 ∨ w = 64) (helem : ∀ e ∈ arr, e < 2 ^ w)
    (hlen : 2 ≤ len) (hrange : low + len ≤ arr.length) (hwrap : low + 2 * len < 2 ^ 32)
    (hfuel : 2 * len + 32 < fuel)
    (hm : greatest_power_of_two_less_than fuel len = some m)
    (hlo : SortedDir (!asc) (rangeValues w arr low m))
    (hhi : SortedDir asc (rangeValues w arr (low + m) (len - m))) :
    ∃ out, imperative_o_merge w fuel arr low len asc = some out ∧ out.length = arr.length ∧
      (∀ k, k < low ∨ low + len ≤ k → out[k]? = arr[k]?) ∧
      (rangeValues w out low len).Perm (rangeValues w arr low len) ∧
      SortedDir asc (rangeValues w out low len) := by
  obtain ⟨hq1, hq2⟩ := log2_pred_bounds len (by omega)
  have hq : Nat.log2 (len - 1) ≤ 30 := by
    by_contra hcon
    have : 2 ^ 31 ≤ 2 ^ Nat.log2 (len - 1) := Nat.pow_le_pow_right (by decide) (by omega)
    omega
  rw [greatest_power_of_two_less_than_eq fuel len _ hq hq1 hq2 (by omega)] at hm
  have hm' : m = 2 ^ Nat.log2 (len - 1) := (Option.some.inj hm).symm
  have hmlt : m < len := by rw [hm']; exact hq1
  obtain ⟨out, e1, e2, e3, e4, e5⟩ := imperative_o_merge_spec w fuel low len m asc (!asc) arr hw
    helem hrange hwrap hfuel (le_of_lt hmlt) (Or.inl rfl)
    (fun x y ex ey hxy hy hex hey => by
      apply SortedDir_index (!asc) _ hlo x y _ _ hxy
      · rw [rangeValues_getElem? _ _ _ _ _ (by omega), hex]; rfl
      · rw [rangeValues_getElem? _ _ _ _ _ hy, hey]; rfl)
    (fun x y ex ey hx hxy hy hex hey => by
      have := SortedDir_index asc _ hhi (x - m) (y - m) (toSigned w ex) (toSigned w ey)
        (by omega)
        (by
          rw [rangeValues_getElem? _ _ _ _ _ (by omega)]
          have : low + m + (x - m) = low + x := by omega
          rw [this, hex]; rfl)
        (by
          rw [rangeValues_getElem? _ _ _ _ _ (by omega)]
          have : low + m + (y - m) = low + y := by omega
          rw [this, hey]; rfl)
      rw [Bool.not_not]
      exact this)
  exact ⟨out, e1, e2.length_eq, e3, e4, e5⟩

/-- Witness for C14: `len = 3`, `m = 2`; `[5, 3]` is sorted descending and `[4]` ascending. -/
theorem imperative_o_merge_after_sorts_witness :
    ∃ out, imperative_o_merge 32 100 [5, 3, 4] 0 3 true = some out ∧
      out.length = [5, 3, 4].length ∧
      (∀ k, k < 0 ∨ 0 + 3 ≤ k → out[k]? = [5, 3, 4][k]?) ∧
      (rangeValues 32 out 0 3).Perm (rangeValues 32 [5, 3, 4] 0 3) ∧
      SortedDir true (rangeValues 32 out 0 3) :=
  imperative_o_merge_after_sorts 32 100 0 3 2 true [5, 3, 4] (by decide) (by decide)
    (by decide) (by decide) (by decide) (by decide) (by decide)
    (by simp [SortedDir, rangeValues, toSigned]) (by simp [SortedDir, rangeValues, toSigned])

theorem imperative_o_merge_example :
    imperative_o_merge 32 100 [5, 3, 4] 0 3 true = some [3, 4, 5] := by
  decide

/-! ## Permutation by `ObliviousSortPOD` and `ObliviousMergePOD` -/

/-- The run of `o_sort` is a permutation that leaves the positions outside the range alone,
for any comparison `greater` whatsoever. -/
theorem o_sort_gen_perm {α : Type} (greater : α → α → Bool)
    (choose : Bool → α → α → Option α) (Good : α → Prop)
    (hchoose : ∀ p a b, Good a → Good b → choose p a b = some (if p then a else b))
    (fuel low len : Nat) (asc : Bool) (arr : List α) (hgood : ∀ e ∈ arr, Good e)
    (hrange : low + len ≤ arr.length) (hwrap : low + 2 * len < 2 ^ 32)
    (hfuel : 2 * len + 32 < fuel) :
    ∃ out, o_sort_gen greater choose fuel fuel arr low len asc = some out ∧
      out.Perm arr ∧ (∀ k, k < low ∨ low + len ≤ k → out[k]? = arr[k]?) := by
  obtain ⟨d, rfl⟩ : ∃ d, fuel = d + 1 := ⟨fuel - 1, by omega⟩
  have hd : len < 2 ^ d := lt_of_le_of_lt (by omega : len ≤ d) (Nat.lt_two_pow d)
  have hrun := o_sort_gen_eq greater choose Good hchoose arr.length (d + 1) d low len asc arr
    hd hwrap hrange (by omega) (by omega) ⟨rfl, hgood⟩
  exact ⟨_, hrun, applyNet_perm greater _ arr,
    fun k hk => applyNet_outside greater _ low (low + len) k (oSortNet_within _ _ _ _) hk arr⟩

/-- The run of `imperative_o_merge` is a permutation that leaves the positions outside the
range alone, for any comparison `greater` whatsoever. -/
theorem imperative_o_merge_gen_perm {α : Type} (greater : α → α → Bool)
    (choose : Bool → α → α → Option α) (Good : α → Prop)
    (hchoose : ∀ p a b, Good a → Good b → choose p a b = some (if p then a else b))
    (fuel low len : Nat) (asc : Bool) (arr : List α) (hgood : ∀ e ∈ arr, Good e)
    (hrange : low + len ≤ arr.length) (hwrap : low + 2 * len < 2 ^ 32)
    (hfuel : 2 * len + 32 < fuel) :
    ∃ out, imperative_o_merge_gen greater choose fuel arr low len asc = some out ∧
      out.Perm arr ∧ (∀ k, k < low ∨ low + len ≤ k → out[k]? = arr[k]?) := by
  have hrun := imperative_o_merge_gen_run greater choose Good hchoose low len asc arr.length
    fuel arr hwrap hrange hfuel ⟨rfl, hgood⟩
  exact ⟨_, hrun, applyNet_perm greater _ arr,
    fun k hk => applyNet_outside greater _ low (low + len) k
      (mergeNet_within low len asc _ (mergeLevels_bounds len).1) hk arr⟩

/-- C15 (amended): for an array of POD records of even size, a range inside it whose index
arithmetic does not wrap, either direction and any function `ogreater` whatsoever,
`ObliviousSortPOD` and `ObliviousMergePOD` return and leave the array a permutation of its
original contents, the positions outside the range unchanged. -/
theorem POD_sort_merge_permutation (ogreater : List Nat → List Nat → Bool)
    (size fuel low len : Nat) (asc : Bool) (arr : List (List Nat))
    (heven : size % 2 = 0) (hwf : WellFormed size arr)
    (hrange : low + len ≤ arr.length) (hwrap : low + 2 * len < 2 ^ 32)
    (hfuel : 2 * len + 32 < fuel) :
    (∃ out, ObliviousSortPOD ogreater fuel arr low len asc = some out ∧ out.Perm arr ∧
      (∀ k, k < low ∨ low + len ≤ k → out[k]? = arr[k]?)) ∧
    (∃ out, ObliviousMergePOD ogreater fuel arr low len asc = some out ∧ out.Perm arr ∧
      (∀ k, k < low ∨ low + len ≤ k → out[k]? = arr[k]?)) := by
  have hchoose : ∀ (p : Bool) (a b : List Nat),
      (a.length = size ∧ ∀ x ∈ a, x < 256) → (b.length = size ∧ ∀ x ∈ b, x < 256) →
      ObliviousChoose p a b = some (if p then a else b) :=
    fun p a b ha hb => ObliviousChoose_spec p a b ha.2 hb.2 (by rw [ha.1, hb.1])
      (by rw [ha.1]; exact heven)
  exact ⟨o_sort_gen_perm ogreater ObliviousChoose _ hchoose fuel low len asc arr hwf hrange
      hwrap hfuel,
    imperative_o_merge_gen_perm ogreater ObliviousChoose _ hchoose fuel low len asc arr hwf
      hrange hwrap hfuel⟩

/-- Witness for C15 (amended): three 2-byte records and a comparison that is no order at all
(it always answers 1). -/
theorem POD_sort_merge_permutation_witness :
    (∃ out, ObliviousSortPOD (fun _ _ => true) 100 [[3, 10], [1, 20], [2, 30]] 0 3 true
        = some out ∧ out.Perm [[3, 10], [1, 20], [2, 30]] ∧
      (∀ k, k < 0 ∨ 0 + 3 ≤ k → out[k]? = [[3, 10], [1, 20], [2, 30]][k]?)) ∧
    (∃ out, ObliviousMergePOD (fun _ _ => true) 100 [[3, 10], [1, 20], [2, 30]] 0 3 true
        = some out ∧ out.Perm [[3, 10], [1, 20], [2, 30]] ∧
      (∀ k, k < 0 ∨ 0 + 3 ≤ k → out[k]? = [[3, 10], [1, 20], [2, 30]][k]?)) :=
  POD_sort_merge_permutation (fun _ _ => true) 2 100 0 3 true [[3, 10], [1, 20], [2, 30]]
    (by decide) (by simp [WellFormed]) (by decide) (by decide) (by decide)

set_option maxRecDepth 100000 in
/-- C15 as stated fails for one-byte records: each comparator calls `ObliviousChoose`
(documented as supporting types of size > 1 byte), whose 16-bit access leaves the 1-byte
objects, so `ObliviousMergePOD` on two `char` records is undefined and no permutation is
returned. -/
theorem ObliviousMergePOD_one_byte :
    ObliviousMergePOD (fun _ _ => true) 100 [[2], [1]] 0 2 true = none ∧
    ¬ ∃ out, ObliviousMergePOD (fun _ _ => true) 100 [[2], [1]] 0 2 true = some out ∧
      out.Perm [[2], [1]] := by
  have h : ObliviousMergePOD (fun _ _ => true) 100 [[2], [1]] 0 2 true = none := by decide
  refine ⟨h, ?_⟩
  rintro ⟨out, hout, -⟩
  rw [h] at hout
  exact Option.noConfusion hout

/-! ## The index pairs of the compare-and-swap steps -/

theorem forLoop_traced {σ τ : Type} (cond : Nat → Bool) (next : Nat → Nat)
    (body : Nat → σ → Option σ) (bodyT : Nat → σ × List τ → Option (σ × List τ))
    (tr : Nat → List τ)
    (h : ∀ c s t, bodyT c (s, t) = (body c s).map (fun s' => (s', t ++ tr c))) :
    ∀ (fuel c : Nat) (s : σ) (t : List τ),
      forLoop cond next bodyT fuel c (s, t)
        = (forLoop cond next body fuel c s).map
            (fun s' => (s', t ++ loopTrace cond next tr fuel c)) := by
  intro fuel
  induction fuel with
  | zero => intro c s t; rfl
  | succ f ih =>
    intro c s t
    simp only [forLoop, loopTrace]
    by_cases hc : cond c = true
    · simp only [hc, if_true, h]
      cases hb : body c s with
      | none => rfl
      | some s1 =>
        simp only [Option.map_some', Option.some_bind, ih, List.append_assoc]
    · simp only [hc, Bool.false_eq_true, if_false, Option.map_some', List.append_nil]

theorem sortBodyT_eq {α : Type} (greater : α → α → Bool) (choose : Bool → α → α → Option α)
    (base : Nat) (asc : Bool) (k j i : Nat) (s : List α) (t : List (Nat × Nat)) :
    sortBodyT greater choose base asc k j i (s, t)
      = (sortBody greater choose base asc k j i s).map
          (fun s' => (s', t ++ (if i ^^^ j > i then [(base + i, base + (i ^^^ j))] else []))) := by
  unfold sortBodyT sortBody comparatorT
  by_cases h1 : i ^^^ j > i
  · by_cases h2 : i &&& k = 0 <;> simp [h1, h2]
  · simp [h1]

theorem imperative_o_sort_traced_eq {α : Type} (greater : α → α → Bool)
    (choose : Bool → α → α → Option α) (fuel base n : Nat) (asc : Bool) (s : List α)
    (t : List (Nat × Nat)) :
    imperative_o_sort_traced greater choose fuel (s, t) base n asc
      = (imperative_o_sort_gen greater choose fuel s base n asc).map
          (fun s' => (s', t ++ sortTrace fuel base n)) := by
  unfold imperative_o_sort_traced imperative_o_sort_gen sortTrace
  apply forLoop_traced
  intro k s t
  apply forLoop_traced
  intro j s t
  apply forLoop_traced
  intro i s t
  exact sortBodyT_eq greater choose base asc k j i s t

theorem imperative_o_merge_traced_eq {α : Type} (greater : α → α → Bool)
    (choose : Bool → α → α → Option α) (fuel low len : Nat) (asc : Bool) (s : List α)
    (t : List (Nat × Nat)) :
    imperative_o_merge_traced greater choose fuel (s, t) low len asc
      = (imperative_o_merge_gen greater choose fuel s low len asc).map
          (fun s' => (s', t ++ mergeTrace fuel low len)) := by
  unfold imperative_o_merge_traced imperative_o_merge_gen mergeTrace
  cases hl : log2_ceil fuel len with
  | none => rfl
  | some l =>
    simp only [Option.bind_eq_bind, Option.some_bind]
    apply forLoop_traced
    intro i s t
    apply forLoop_traced
    intro j s t
    apply forLoop_traced
    intro k s t
    rfl

theorem o_sort_traced_eq {α : Type} (greater : α → α → Bool)
    (choose : Bool → α → α → Option α) (fuel : Nat) :
    ∀ (depth low len : Nat) (asc : Bool) (s : List α) (t : List (Nat × Nat)),
      o_sort_traced greater choose fuel depth (s, t) low len asc
        = (o_sort_gen greater choose fuel depth s low len asc).map
            (fun s' => (s', t ++ oSortTrace fuel depth low len)) := by
  intro depth
  induction depth with
  | zero => intro low len asc s t; rfl
  | succ d ih =>
    intro low len asc s t
    rw [o_sort_traced, o_sort_gen, oSortTrace]
    by_cases hlen : len > 1
    · simp only [hlen, if_true]
      cases hm : greatest_power_of_two_less_than fuel len with
      | none => rfl
      | some m =>
        simp only [Option.bind_eq_bind, Option.some_bind]
        by_cases hpw : (m * 2) % 2 ^ 32 = len
        · simp only [hpw, if_true]
          exact imperative_o_sort_traced_eq greater choose fuel low len asc s t
        · simp only [hpw, if_false]
          rw [imperative_o_sort_traced_eq]
          cases h1 : imperative_o_sort_gen greater choose fuel s low m (!asc) with
          | none => rfl
          | some s1 =>
            simp only [Option.map_some', Option.some_bind]
            rw [ih]
            cases h2 : o_sort_gen greater choose fuel d s1 ((low + m) % 2 ^ 32)
                ((len + (2 ^ 32 - m)) % 2 ^ 32) asc with
            | none => rfl
            | some s2 =>
              simp only [Option.map_some', Option.some_bind]
              rw [imperative_o_merge_traced_eq]
              simp only [List.append_assoc]
    · simp only [hlen, if_false, Option.map_some', List.append_nil]

theorem loopTrace_forall {τ : Type} (P : τ → Prop) (Inv : Nat → Prop) (cond : Nat → Bool)
    (next : Nat → Nat) (tr : Nat → List τ)
    (hnext : ∀ c, Inv c → cond c = true → Inv (next c))
    (htr : ∀ c, Inv c → cond c = true → ∀ x ∈ tr c, P x) :
    ∀ (fuel c : Nat), Inv c → ∀ x ∈ loopTrace cond next tr fuel c, P x := by
  intro fuel
  induction fuel with
  | zero => intro c _ x hx; simp [loopTrace] at hx
  | succ f ih =>
    intro c hc x hx
    rw [loopTrace] at hx
    by_cases hcond : cond c = true
    · rw [if_pos hcond] at hx
      rcases List.mem_append.mp hx with h | h
      · exact htr c hc hcond x h
      · exact ih (next c) (hnext c hc hcond) x h
    · rw [if_neg hcond] at hx
      simp at hx

theorem loopTrace_mem {τ : Type} (P : τ → Prop) (Inv : Nat → Prop) (cond : Nat → Bool)
    (next : Nat → Nat) (tr : Nat → List τ) (fuel c : Nat)
    (hnext : ∀ c, Inv c → cond c = true → Inv (next c))
    (htr : ∀ c, Inv c → cond c = true → ∀ x ∈ tr c, P x) (hc : Inv c) :
    ∀ x ∈ loopTrace cond next tr fuel c, P x :=
  loopTrace_forall P Inv cond next tr hnext htr fuel c hc

theorem sortTrace_within (fuel base p : Nat) (hp : p ≤ 30) :
    ∀ c ∈ sortTrace fuel base (2 ^ p), PairWithin base (base + 2 ^ p) c := by
  unfold sortTrace
  refine loopTrace_mem (PairWithin base (base + 2 ^ p)) (fun k => ∃ c, 1 ≤ c ∧ k = 2 ^ c)
    _ _ _ fuel _ ?_ ?_ ?_
  · rintro k ⟨c, hc1, rfl⟩ hcond
    have hcp : c ≤ p := (Nat.pow_le_pow_iff_right (by decide)).mp (of_decide_eq_true hcond)
    refine ⟨c + 1, by omega, ?_⟩
    rw [← pow_succ']
    exact Nat.mod_eq_of_lt (Nat.pow_lt_pow_right (by decide : 1 < 2) (by omega : c + 1 < 32))
  · rintro k ⟨c, hc1, rfl⟩ hcond
    have hcp : c ≤ p := (Nat.pow_le_pow_iff_right (by decide)).mp (of_decide_eq_true hcond)
    refine loopTrace_mem (PairWithin base (base + 2 ^ p))
      (fun j => j = 0 ∨ ∃ b, b < p ∧ j = 2 ^ b) _ _ _ fuel _ ?_ ?_ ?_
    · rintro j hj hjc
      rcases hj with rfl | ⟨b, hb, rfl⟩
      · left; rfl
      · by_cases hb0 : b = 0
        · left; subst hb0; rfl
        · right
          refine ⟨b - 1, by omega, ?_⟩
          exact shift_pow b 1 (by omega)
    · rintro j hj hjc
      have hjpos : 0 < j := of_decide_eq_true hjc
      rcases hj with rfl | ⟨b, hb, rfl⟩
      · omega
      · refine loopTrace_mem (PairWithin base (base + 2 ^ p)) (fun _ => True) _ _ _ fuel _
          ?_ ?_ ?_
        · intros; trivial
        · intro i _ hic x hx
          have hi : i < 2 ^ p := of_decide_eq_true hic
          by_cases hgt : i ^^^ 2 ^ b > i
          · rw [if_pos hgt, List.mem_singleton] at hx
            subst hx
            have hclear := (xor_gt_iff i b).mp hgt
            have hlt := partner_lt i b p hclear hi hb
            have hbpos : 0 < 2 ^ b := by positivity
            rw [xor_two_pow_of_clear i b hclear]
            exact ⟨by simp, by simp only; omega, by simp only; omega⟩
          · rw [if_neg hgt] at hx
            simp at hx
        · trivial
    · right
      exact ⟨c - 1, by omega, shift_pow c 1 (by omega)⟩
  · exact ⟨1, le_refl _, rfl⟩

theorem mergeTrace_within (fuel low len : Nat) (hwrap : low + 2 * len < 2 ^ 32)
    (hfuel : 32 < fuel) :
    ∀ c ∈ mergeTrace fuel low len, PairWithin low (low + len) c := by
  unfold mergeTrace
  by_cases hsmall : len ≤ 1
  · rw [log2_ceil_small fuel len hsmall (by omega)]
    simp only []
    refine loopTrace_mem (PairWithin low (low + len)) (fun _ => True) _ _ _ fuel _ ?_ ?_ ?_
    · intros; trivial
    · intro i _ hic
      have := of_decide_eq_true hic
      omega
    · trivial
  · obtain ⟨h1, h2⟩ := log2_pred_bounds len (by omega)
    have hq : Nat.log2 (len - 1) ≤ 30 := by
      by_contra hcon
      have : 2 ^ 31 ≤ 2 ^ Nat.log2 (len - 1) := Nat.pow_le_pow_right (by decide) (by omega)
      omega
    generalize Nat.log2 (len - 1) = q at h1 h2 hq
    have hpow : 2 ^ (q + 1) = 2 * 2 ^ q := by rw [pow_succ]; ring
    have hb1 : 2 ^ (q + 1) < 2 ^ 32 :=
      Nat.pow_lt_pow_right (by decide : 1 < 2) (by omega : q + 1 < 32)
    rw [log2_ceil_eq fuel len q hq h1 h2 hfuel]
    simp only [Nat.one_shiftLeft, Nat.mod_eq_of_lt hb1]
    refine loopTrace_mem (PairWithin low (low + len)) (fun _ => True) _ _ _ fuel _ ?_ ?_ ?_
    · intros; trivial
    · intro i _ hic
      have hi : i < q + 1 := of_decide_eq_true hic
      have hbs : 2 ^ (q + 1) >>> i = 2 * 2 ^ (q - i) := by
        rw [shift_pow (q + 1) i (by omega)]
        have : q + 1 - i = (q - i) + 1 := by omega
        rw [this, pow_succ]; ring
      have hn : 2 ^ (q + 1) = 2 ^ i * (2 * 2 ^ (q - i)) := by
        have : q + 1 = i + ((q - i) + 1) := by omega
        conv_lhs => rw [this]
        rw [pow_add, pow_succ]; ring
      rw [hbs]
      have hhpos : 0 < 2 ^ (q - i) := by positivity
      generalize 2 ^ (q - i) = B at hbs hn hhpos ⊢
      have hhalf : 2 * B / 2 = B := by omega
      rw [hhalf]
      have hstep : ∀ j, (2 * B) ∣ j → j < 2 ^ (q + 1) → j + 2 * B ≤ 2 ^ (q + 1) := by
        rintro j ⟨u, rfl⟩ hjn
        rw [hn] at hjn ⊢
        have hu : u < 2 ^ i := by
          by_contra hcon
          have : 2 ^ i * (2 * B) ≤ u * (2 * B) := Nat.mul_le_mul_right _ (by omega)
          rw [mul_comm u] at this
          omega
        have : (u + 1) * (2 * B) ≤ 2 ^ i * (2 * B) := Nat.mul_le_mul_right _ (by omega)
        have e : (u + 1) * (2 * B) = 2 * B * u + 2 * B := by ring
        omega
      refine loopTrace_mem (PairWithin low (low + len)) (fun j => (2 * B) ∣ j)
        _ _ _ fuel _ ?_ ?_ ?_
      · intro j hj hjc
        have hjn : j < 2 ^ (q + 1) := of_decide_eq_true hjc
        have hjb := hstep j hj hjn
        rw [Nat.mod_eq_of_lt (by omega)]
        exact Dvd.dvd.add hj (dvd_refl _)
      · intro j hj hjc
        have hjn : j < 2 ^ (q + 1) := of_decide_eq_true hjc
        have hjb := hstep j hj hjn
        refine loopTrace_mem (PairWithin low (low + len)) (fun _ => True) _ _ _ fuel _
          ?_ ?_ ?_
        · intros; trivial
        · intro k _ hkc x hx
          rw [List.mem_singleton] at hx
          subst hx
          simp only [Bool.and_eq_true, decide_eq_true_eq, Bool.not_eq_true',
            decide_eq_false_iff_not] at hkc
          obtain ⟨hk, hlt⟩ := hkc
          have e1 : mergeI1 low k j = low + k + j := by
            unfold mergeI1; exact Nat.mod_eq_of_lt (by omega)
          have e2 : mergeI2 low k j B = low + k + j + B := by
            unfold mergeI2; rw [e1]; exact Nat.mod_eq_of_lt (by omega)
          rw [e2, Nat.mod_eq_of_lt (by omega)] at hlt
          rw [e1, e2]
          exact ⟨by simp only; omega, by simp only; omega, by simp only; omega⟩
        · trivial
      · exact dvd_zero _
    · trivial

theorem PairWithin_mono (lo hi lo' hi' : Nat) (c : Nat × Nat) (h : PairWithin lo hi c)
    (h1 : lo' ≤ lo) (h2 : hi ≤ hi') : PairWithin lo' hi' c :=
  ⟨le_trans h1 h.1, h.2.1, lt_of_lt_of_le h.2.2 h2⟩

theorem oSortTrace_within (fuel : Nat) (hfuel : 32 < fuel) :
    ∀ (depth low len : Nat), low + 2 * len < 2 ^ 32 →
      ∀ c ∈ oSortTrace fuel depth low len, PairWithin low (low + len) c := by
  intro depth
  induction depth with
  | zero => intro low len _ c hc; simp [oSortTrace] at hc
  | succ d ih =>
    intro low len hwrap c hc
    rw [oSortTrace] at hc
    by_cases hlen : len > 1
    · obtain ⟨h1, h2⟩ := log2_pred_bounds len hlen
      have hq : Nat.log2 (len - 1) ≤ 30 := by
        by_contra hcon
        have : 2 ^ 31 ≤ 2 ^ Nat.log2 (len - 1) := Nat.pow_le_pow_right (by decide) (by omega)
        omega
      generalize Nat.log2 (len - 1) = q at h1 h2 hq
      have hpow : 2 ^ (q + 1) = 2 * 2 ^ q := by rw [pow_succ]; ring
      rw [if_pos hlen, greatest_power_of_two_less_than_eq fuel len q hq h1 h2 hfuel] at hc
      simp only [] at hc
      have hm2 : (2 ^ q * 2) % 2 ^ 32 = 2 * 2 ^ q := by
        rw [mul_comm]; exact Nat.mod_eq_of_lt (by omega)
      rw [hm2] at hc
      by_cases hpw : 2 * 2 ^ q = len
      · rw [if_pos hpw] at hc
        have hq1 : q + 1 ≤ 30 := by
          by_contra hcon
          have : 2 ^ 31 ≤ 2 ^ (q + 1) := Nat.pow_le_pow_right (by decide) (by omega)
          omega
        have := sortTrace_within fuel low (q + 1) hq1 c (by rw [hpow, hpw]; exact hc)
        rw [hpow, hpw] at this
        exact this
      · rw [if_neg hpw] at hc
        have e1 : (low + 2 ^ q) % 2 ^ 32 = low + 2 ^ q := Nat.mod_eq_of_lt (by omega)
        have e2 : (len + (2 ^ 32 - 2 ^ q)) % 2 ^ 32 = len - 2 ^ q := by omega
        rw [e1, e2] at hc
        rcases List.mem_append.mp hc with hc | hc
        · rcases List.mem_append.mp hc with hc | hc
          · exact PairWithin_mono _ _ _ _ c (sortTrace_within fuel low q hq c hc) (le_refl _)
              (by omega)
          · exact PairWithin_mono _ _ _ _ c (ih (low + 2 ^ q) (len - 2 ^ q) (by omega) c hc)
              (by omega) (by omega)
        · exact mergeTrace_within fuel low len hwrap hfuel c hc
    · rw [if_neg hlen] at hc
      simp at hc

/-- The traced sorter computes the array of `ObliviousSort` and logs `oSortTrace`, which is
computed from `low` and `len` alone. -/
theorem ObliviousSortTraced_eq (w fuel low len : Nat) (asc : Bool) (arr : List Nat) :
    ObliviousSortTraced w fuel arr low len asc
      = (ObliviousSort w fuel arr low len asc).map
          (fun out => (out, oSortTrace fuel fuel low len)) := by
  unfold ObliviousSortTraced ObliviousSort o_sort
  rw [o_sort_traced_eq]
  simp only [List.nil_append]

/-- C16: for a range `[low, low + len)` inside an array of `w`-bit integers whose index
arithmetic does not wrap, `ObliviousSort` returns, every compare-and-swap it performs is on a
pair of indices `i1 < i2` with `low <= i1` and `i2 < low + len`, and every position outside
the range keeps its element. -/
theorem ObliviousSort_comparators_in_range (w fuel low len : Nat) (asc : Bool) (arr : List Nat)
    (hw : w = 16 ∨ w = 32 ∨ w = 64) (helem : ∀ e ∈ arr, e < 2 ^ w)
    (hrange : low + len ≤ arr.length) (hwrap : low + 2 * len < 2 ^ 32)
    (hfuel : 2 * len + 32 < fuel) :
    ∃ out tr, ObliviousSortTraced w fuel arr low len asc = some (out, tr) ∧
      ObliviousSort w fuel arr low len asc = some out ∧
      (∀ c ∈ tr, low ≤ c.1 ∧ c.1 < c.2 ∧ c.2 < low + len) ∧
      (∀ k, k < low ∨ low + len ≤ k → out[k]? = arr[k]?) := by
  obtain ⟨out, h1, -, h3, -, -⟩ :=
    ObliviousSort_spec w fuel low len asc arr hw helem hrange hwrap hfuel
  refine ⟨out, oSortTrace fuel fuel low len, ?_, h1, ?_, h3⟩
  · rw [ObliviousSortTraced_eq, h1]; rfl
  · exact oSortTrace_within fuel (by omega) fuel low len hwrap

/-- Witness for C16: the range `[1, 4)` of a five-element array. -/
theorem ObliviousSort_comparators_in_range_witness :
    ∃ out tr, ObliviousSortTraced 32 100 [9, 3, 1, 2, 0] 1 3 true = some (out, tr) ∧
      ObliviousSort 32 100 [9, 3, 1, 2, 0] 1 3 true = some out ∧
      (∀ c ∈ tr, 1 ≤ c.1 ∧ c.1 < c.2 ∧ c.2 < 1 + 3) ∧
      (∀ k, k < 1 ∨ 1 + 3 ≤ k → out[k]? = [9, 3, 1, 2, 0][k]?) :=
  ObliviousSort_comparators_in_range 32 100 1 3 true [9, 3, 1, 2, 0] (by decide) (by decide)
    (by decide) (by decide) (by decide)

/-- C17: for two arrays of the same length, two directions and a range inside the arrays
whose index arithmetic does not wrap, the two runs of `ObliviousSort` perform their
compare-and-swap steps on the same sequence of index pairs, the sequence `oSortTrace`
computed from `low` and `len` alone. -/
theorem ObliviousSort_trace_independent (w fuel low len : Nat) (a a' : List Nat)
    (asc asc' : Bool) (hw : w = 16 ∨ w = 32 ∨ w = 64)
    (helem : ∀ e ∈ a, e < 2 ^ w) (helem' : ∀ e ∈ a', e < 2 ^ w)
    (hlen : a'.length = a.length) (hrange : low + len ≤ a.length)
    (hwrap : low + 2 * len < 2 ^ 32) (hfuel : 2 * len + 32 < fuel) :
    ∃ out out' tr, ObliviousSortTraced w fuel a low len asc = some (out, tr) ∧
      ObliviousSortTraced w fuel a' low len asc' = some (out', tr) ∧
      tr = oSortTrace fuel fuel low len := by
  obtain ⟨out, h1, -⟩ := ObliviousSort_spec w fuel low len asc a hw helem hrange hwrap hfuel
  obtain ⟨out', h1', -⟩ := ObliviousSort_spec w fuel low len asc' a' hw helem'
    (by rw [hlen]; exact hrange) hwrap hfuel
  refine ⟨out, out', oSortTrace fuel fuel low len, ?_, ?_, rfl⟩
  · rw [ObliviousSortTraced_eq, h1]; rfl
  · rw [ObliviousSortTraced_eq, h1']; rfl

/-- Witness for C17: two arrays of five elements, sorted in opposite directions. -/
theorem ObliviousSort_trace_independent_witness :
    ∃ out out' tr, ObliviousSortTraced 32 100 [2, 3, 1, 5, 4] 0 5 true = some (out, tr) ∧
      ObliviousSortTraced 32 100 [7, 7, 0, 1, 7] 0 5 false = some (out', tr) ∧
      tr = oSortTrace 100 100 0 5 :=
  ObliviousSort_trace_independent 32 100 0 5 [2, 3, 1, 5, 4] [7, 7, 0, 1, 7] true false
    (by decide) (by decide) (by decide) (by decide) (by decide) (by decide) (by decide)

/-- Whenever two runs of the traced sorter on the same `(low, len)` return, on any arrays and
in any directions, they have logged the same index pairs. -/
theorem ObliviousSortTraced_same_trace (w fuel low len : Nat) (a a' : List Nat) (asc asc' : Bool)
    (out out' : List Nat) (tr tr' : List (Nat × Nat))
    (h : ObliviousSortTraced w fuel a low len asc = some (out, tr))
    (h' : ObliviousSortTraced w fuel a' low len asc' = some (out', tr')) : tr = tr' := by
  rw [ObliviousSortTraced_eq] at h h'
  cases h1 : ObliviousSort w fuel a low len asc with
  | none => rw [h1] at h; exact Option.noConfusion h
  | some o =>
    cases h2 : ObliviousSort w fuel a' low len asc' with
    | none => rw [h2] at h'; exact Option.noConfusion h'
    | some o' =>
      rw [h1] at h
      rw [h2] at h'
      simp only [Option.map_some', Option.some.injEq, Prod.mk.injEq] at h h'
      rw [← h.2, ← h'.2]

theorem ObliviousSortTraced_example :
    ObliviousSortTraced 32 100 [2, 3, 1] 0 3 true
      = some ([1, 2, 3], [(0, 1), (0, 2), (0, 1)]) := by
  decide

/-! ## The element indices of the array sweeps -/

theorem sweepStep_eq_max (cl size : Nat) (hcl : cl < 2 ^ 31) (hsize : 0 < size) :
    sweepStep cl size = max 1 (cl / size) := by
  unfold sweepStep
  split_ifs with h
  · have h1 : cl / size ≤ cl := Nat.div_le_self _ _
    have h2 : 0 < cl / size := Nat.div_pos (le_of_lt h) hsize
    rw [Nat.mod_eq_of_lt (by omega)]
    omega
  · have : cl / size ≤ 1 := by
      rw [Nat.div_le_iff_le_mul_add_pred hsize]
      omega
    omega

theorem sweepFrom_eq (st i n : Nat) (hst : 0 < st) (hn : n ≤ 2 ^ 31) :
    ∀ (m t f : Nat), t + m = (n + st - 1) / st → m < f →
      sweepFrom st i n f (t * st)
        = (List.range' t m).map (fun t => if t = i / st then i else t * st) := by
  intro m
  induction m with
  | zero =>
    intro t f ht hf
    obtain ⟨g, rfl⟩ : ∃ g, f = g + 1 := ⟨f - 1, by omega⟩
    have : ¬ t * st < n := by
      rw [← sweep_count st n t hst]; omega
    simp [sweepFrom, this]
  | succ m ih =>
    intro t f ht hf
    obtain ⟨g, rfl⟩ : ∃ g, f = g + 1 := ⟨f - 1, by omega⟩
    have hlt : t * st < n := by
      rw [← sweep_count st n t hst]; omega
    have hdiv : t * st / st = t := Nat.mul_div_cancel t hst
    have hnext : t * st + st = (t + 1) * st := by ring
    rw [sweepFrom, if_pos ⟨hlt, by omega⟩, hdiv, hnext, ih (t + 1) g (by omega) (by omega)]
    simp [List.range'_succ]

theorem sweepPositions_eq (st i n fuel : Nat) (hst : 0 < st) (hn : n ≤ 2 ^ 31)
    (hfuel : n < fuel) : sweepFrom st i n fuel 0 = sweepPositions st i n := by
  have hcnt : (n + st - 1) / st ≤ n := by
    by_contra hcon
    have := (sweep_count st n n hst).mp (by omega)
    have : n * 1 ≤ n * st := Nat.mul_le_mul_left n hst
    omega
  have := sweepFrom_eq st i n hst hn ((n + st - 1) / st) 0 fuel (by omega) (by omega)
  rw [Nat.zero_mul] at this
  rw [this, sweepPositions, List.range_eq_range']

/-- Every position of the sweep is an index of the array, and position `t` lies in group `t`:
the groups visited are `0, 1, ..., ceil(n / st) - 1` whatever `i` is. -/
theorem sweepPositions_groups (st i n : Nat) (hst : 0 < st) (hi : i < n) :
    (sweepPositions st i n).length = (n + st - 1) / st ∧
    (∀ p ∈ sweepPositions st i n, p < n) ∧
    (sweepPositions st i n).map (· / st) = List.range ((n + st - 1) / st) := by
  unfold sweepPositions
  refine ⟨by simp, ?_, ?_⟩
  · intro p hp
    rw [List.mem_map] at hp
    obtain ⟨t, ht, rfl⟩ := hp
    rw [List.mem_range] at ht
    split_ifs
    · exact hi
    · exact (sweep_count st n t hst).mp ht
  · rw [List.map_map]
    conv_rhs => rw [← List.map_id (List.range ((n + st - 1) / st))]
    apply List.map_congr_left
    intro t _
    simp only [Function.comp, id]
    split_ifs with h
    · exact h.symm
    · exact Nat.mul_div_cancel t hst

theorem accessLoop_positions (st i n size : Nat) (arr : List (List Nat)) (ai : List Nat)
    (hst : 0 < st) (hst2 : st < 2 ^ 31) (hi : i < n) (hn : n < 2 ^ 31)
    (hstep : ∀ j, st ∣ j → j < n → j + st < 2 ^ 31)
    (hlen : arr.length = n) (hwf : WellFormed size arr)
    (heven : size % 2 = 0) (hai : arr[i]? = some ai) :
    ∀ (f j : Nat) (result trace : List Nat), st ∣ j → j < 2 ^ 31 →
      result.length = size → (∀ b ∈ result, b < 256) → n ≤ j + f →
      accessLoop st i n arr (f + 1) j result trace
        = some (if j ≤ i then ai else result, trace ++ sweepFrom st i n (f + 1) j) := by
  have hi2 : i < 2 ^ 31 := by omega
  have hn64 : n ≤ 2 ^ 64 - 2 ^ 31 := by omega
  intro f
  induction f with
  | zero =>
    intro j result trace _ hj _ _ hmin
    have hexit : ¬ (j < n ∧ j < 2 ^ 31) := by
      intro h; simp only [Nat.add_zero] at hmin
      omega
    have hji : ¬ j ≤ i := by
      intro h; exact hexit ⟨by omega, by omega⟩
    simp only [accessLoop, sweep_test n j hn64 (by omega), if_neg hexit, if_neg hji, sweepFrom,
      List.append_nil]
  | succ f ih =>
    intro j result trace hdvd hj hrl hrb hmin
    by_cases hc : j < n ∧ j < 2 ^ 31
    · obtain ⟨hjn, hj31⟩ := hc
      have hjst := hstep j hdvd hjn
      have hgrp := group_eq_iff st j i hst hdvd
      have hpos : (if decide (j / st = i / st) then i else j) < n := by
        split_ifs <;> assumption
      have hpos2 : (if decide (j / st = i / st) then i else j) < 2 ^ 31 := by
        split_ifs <;> assumption
      obtain ⟨e, he⟩ : ∃ e, arr[if decide (j / st = i / st) then i else j]? = some e := by
        rw [List.getElem?_eq_getElem (by omega)]; exact ⟨_, rfl⟩
      have hewf := hwf e (List.getElem?_mem he)
      have hchoose := (ObliviousChoose_spec (decide (j / st = i / st)) e result hewf.2 hrb
        (by rw [hrl, hewf.1]) (by rw [hewf.1]; exact heven))
      have hnext : intAdd j st = some (j + st) := intAdd_of_lt j st (by omega)
      have hr' : (if decide (j / st = i / st) then e else result).length = size ∧
          ∀ b ∈ (if decide (j / st = i / st) then e else result), b < 256 := by
        split_ifs
        · exact hewf
        · exact ⟨hrl, hrb⟩
      have h1 := ih (j + st) (if decide (j / st = i / st) then e else result)
        (trace ++ [if decide (j / st = i / st) then i else j])
        (Dvd.dvd.add hdvd (dvd_refl st)) (by omega) hr'.1 hr'.2 (by omega)
      have hsf : sweepFrom st i n (f + 1 + 1) j
          = (if j / st = i / st then i else j) :: sweepFrom st i n (f + 1) (j + st) := by
        rw [sweepFrom, if_pos ⟨hjn, hj31⟩]
      rw [accessLoop, if_pos ((sweep_test n j hn64 (by omega)).mpr ⟨hjn, hj31⟩)]
      simp only [sweep_cond st i j hst2 hi2 hj31,
        ObliviousChooseInt_eq _ i j (by omega) (by omega), Option.bind_eq_bind,
        Option.some_bind, elemAt_of_lt arr _ hpos2, he, hchoose, hnext, h1, hsf]
      congr 2
      · by_cases hg : j / st = i / st
        · have := hgrp.mp hg
          simp only [hg, decide_True, if_true] at he ⊢
          rw [hai] at he
          rw [if_neg (by omega), if_pos (by omega)]
          exact (Option.some.inj he).symm
        · simp only [hg, decide_False]
          by_cases hji : j ≤ i
          · have : j + st ≤ i := by
              by_contra hcon
              exact hg (hgrp.mpr ⟨hji, by omega⟩)
            rw [if_pos this, if_pos hji]
          · rw [if_neg (by omega), if_neg hji]; rfl
      · by_cases hg : j / st = i / st <;> simp [hg]
    · have hji : ¬ j ≤ i := by
        intro h; exact hc ⟨by omega, by omega⟩
      simp only [accessLoop, sweep_test n j hn64 (by omega), if_neg hc, if_neg hji, sweepFrom,
        List.append_nil]

theorem assignLoopTraced_spec (st i n size : Nat) (val : List Nat)
    (hst : 0 < st) (hst2 : st < 2 ^ 31) (hi : i < n) (hn : n < 2 ^ 31)
    (hstep : ∀ j, st ∣ j → j < n → j + st < 2 ^ 31) (heven : size % 2 = 0)
    (hval : val.length = size ∧ ∀ b ∈ val, b < 256) :
    ∀ (f j : Nat) (arr : List (List Nat)) (trace : List Nat), st ∣ j → j < 2 ^ 31 →
      arr.length = n → WellFormed size arr → n ≤ j + f →
      assignLoopTraced st i n val (f + 1) j arr trace
        = some (if j ≤ i then arr.set i val else arr, trace ++ sweepFrom st i n (f + 1) j) := by
  have hi2 : i < 2 ^ 31 := by omega
  have hn64 : n ≤ 2 ^ 64 - 2 ^ 31 := by omega
  intro f
  induction f with
  | zero =>
    intro j arr trace _ hj _ _ hmin
    have hexit : ¬ (j < n ∧ j < 2 ^ 31) := by
      intro h; simp only [Nat.add_zero] at hmin
      omega
    have hji : ¬ j ≤ i := by
      intro h; exact hexit ⟨by omega, by omega⟩
    simp only [assignLoopTraced, sweep_test n j hn64 (by omega), if_neg hexit, if_neg hji, sweepFrom,
      List.append_nil]
  | succ f ih =>
    intro j arr trace hdvd hj hlen hwf hmin
    by_cases hc : j < n ∧ j < 2 ^ 31
    · obtain ⟨hjn, hj31⟩ := hc
      have hjst := hstep j hdvd hjn
      have hgrp := group_eq_iff st j i hst hdvd
      have hpos : (if decide (j / st = i / st) then i else j) < n := by
        split_ifs <;> assumption
      have hpos2 : (if decide (j / st = i / st) then i else j) < 2 ^ 31 := by
        split_ifs <;> assumption
      obtain ⟨e, he⟩ : ∃ e, arr[if decide (j / st = i / st) then i else j]? = some e := by
        rw [List.getElem?_eq_getElem (by omega)]; exact ⟨_, rfl⟩
      have hewf := hwf e (List.getElem?_mem he)
      have hchoose := (ObliviousChoose_spec (decide (j / st = i / st)) val e hval.2 hewf.2
        (by rw [hval.1, hewf.1]) (by rw [hval.1]; exact heven))
      have hnext : intAdd j st = some (j + st) := intAdd_of_lt j st (by omega)
      have hposmod : (if decide (j / st = i / st) then i else j) % 2 ^ 32
          = (if decide (j / st = i / st) then i else j) := Nat.mod_eq_of_lt (by omega)
      have hr' : (if decide (j / st = i / st) then val else e).length = size ∧
          ∀ b ∈ (if decide (j / st = i / st) then val else e), b < 256 := by
        split_ifs
        · exact hval
        · exact hewf
      have h1 := ih (j + st)
        (arr.set (if decide (j / st = i / st) then i else j)
          (if decide (j / st = i / st) then val else e))
        (trace ++ [if decide (j / st = i / st) then i else j])
        (Dvd.dvd.add hdvd (dvd_refl st)) (by omega) (by rw [List.length_set]; exact hlen)
        (WellFormed_set size arr _ _ hwf hr') (by omega)
      have hsf : sweepFrom st i n (f + 1 + 1) j
          = (if j / st = i / st then i else j) :: sweepFrom st i n (f + 1) (j + st) := by
        rw [sweepFrom, if_pos ⟨hjn, hj31⟩]
      rw [assignLoopTraced, if_pos ((sweep_test n j hn64 (by omega)).mpr ⟨hjn, hj31⟩)]
      simp only [sweep_cond st i j hst2 hi2 hj31,
        ObliviousChooseInt_eq _ i j (by omega) (by omega), Option.bind_eq_bind,
        Option.some_bind, elemAt_of_lt arr _ hpos2, he, hchoose, hnext, hposmod, h1, hsf]
      congr 2
      · by_cases hg : j / st = i / st
        · have := hgrp.mp hg
          simp only [hg, decide_True, if_true]
          rw [if_neg (by omega), if_pos (by omega)]
        · simp only [hg, decide_False, Bool.false_eq_true, if_false] at he ⊢
          rw [set_self_of_getElem? arr j e he]
          by_cases hji : j ≤ i
          · have : j + st ≤ i := by
              by_contra hcon
              exact hg (hgrp.mpr ⟨hji, by omega⟩)
            rw [if_pos this, if_pos hji]
          · rw [if_neg (by omega), if_neg hji]
      · by_cases hg : j / st = i / st <;> simp [hg]
    · have hji : ¬ j ≤ i := by
        intro h; exact hc ⟨by omega, by omega⟩
      simp only [assignLoopTraced, sweep_test n j hn64 (by omega), if_neg hc, if_neg hji, sweepFrom,
        List.append_nil]

theorem ObliviousArrayAccessTraced_positions (cl size n i : Nat) (arr : List (List Nat))
    (hcl : cl < 2 ^ 31) (hsize : 0 < size) (heven : size % 2 = 0) (hwf : WellFormed size arr)
    (hlen : arr.length = n)
    (hn : (n + sweepStep cl size - 1) / sweepStep cl size * sweepStep cl size < 2 ^ 31)
    (hi : i < n) :
    ∃ ai, arr[i]? = some ai ∧ ObliviousArrayAccessTraced cl size arr i n
      = some (ai, 0 :: sweepPositions (sweepStep cl size) i n) := by
  obtain ⟨hst, hst2⟩ := sweepStep_bounds cl size hcl hsize
  obtain ⟨hn31, hstep⟩ := sweep_counter_bound (sweepStep cl size) n hst hn
  obtain ⟨ai, hai⟩ : ∃ ai, arr[i]? = some ai := by
    rw [List.getElem?_eq_getElem (by omega)]; exact ⟨_, rfl⟩
  obtain ⟨a0, ha0⟩ : ∃ a0, arr[0]? = some a0 := by
    rw [List.getElem?_eq_getElem (by omega)]; exact ⟨_, rfl⟩
  have h0 := hwf a0 (List.getElem?_mem ha0)
  have hacc := accessLoop_positions (sweepStep cl size) i n size arr ai hst hst2 hi hn31 hstep
    hlen hwf heven hai n 0 a0 [0] (dvd_zero _) (by decide) h0.1 h0.2 (by omega)
  have hpos := sweepPositions_eq (sweepStep cl size) i n (n + 1) hst (by omega) (by omega)
  refine ⟨ai, hai, ?_⟩
  simp only [ObliviousArrayAccessTraced, ha0, Option.bind_eq_bind, Option.some_bind, hacc,
    Nat.zero_le, if_true, hpos, List.singleton_append]

theorem ObliviousArrayAssignTraced_positions (cl size n i : Nat) (arr : List (List Nat))
    (val : List Nat) (hcl : cl < 2 ^ 31) (hsize : 0 < size) (heven : size % 2 = 0)
    (hwf : WellFormed size arr) (hval : val.length = size ∧ ∀ b ∈ val, b < 256)
    (hlen : arr.length = n)
    (hn : (n + sweepStep cl size - 1) / sweepStep cl size * sweepStep cl size < 2 ^ 31)
    (hi : i < n) :
    ObliviousArrayAssignTraced cl size arr i n val
      = some (arr.set i val, sweepPositions (sweepStep cl size) i n) ∧
    ObliviousArrayAssign cl size arr i n val = some (arr.set i val) := by
  obtain ⟨hst, hst2⟩ := sweepStep_bounds cl size hcl hsize
  obtain ⟨hn31, hstep⟩ := sweep_counter_bound (sweepStep cl size) n hst hn
  have hasg := assignLoopTraced_spec (sweepStep cl size) i n size val hst hst2 hi hn31 hstep
    heven hval n 0 arr [] (dvd_zero _) (by decide) hlen hwf (by omega)
  have hpos := sweepPositions_eq (sweepStep cl size) i n (n + 1) hst (by omega) (by omega)
  have h := assignLoop_spec (sweepStep cl size) i n size val hst hst2 hi hn31 hstep heven hval
    n 0 arr (dvd_zero _) (by decide) hlen hwf (by omega)
  constructor
  · simp only [ObliviousArrayAssignTraced, hasg, Nat.zero_le, if_true, hpos, List.nil_append]
  · rw [ObliviousArrayAssign, h, if_pos (Nat.zero_le _)]

/-- C18 (amended): for an even element size, `N >= 1` for which the `int` counter of the sweep
does not overflow (`ceil(N / step) * step < 2^31`, the value of `j` when the loop exits) and
`0 <= i < N`, with `step = max(1, CACHE_LINE_SIZE / sizeof(T))`, the sweeps of
`ObliviousArrayAccess` (after its initial read of `arr[0]`) and of `ObliviousArrayAssign` both
access the element indices `sweepPositions step i N`: `ceil(N / step)` iterations, iteration
`t` (at `j = t * step`) accessing `i` when `t` is the group of `i` and `j` otherwise; every
index accessed is below `N`, and the groups `pos / step` visited are
`0, 1, ..., ceil(N / step) - 1` whatever `i`. -/
theorem sweep_positions (cl size n i : Nat) (arr : List (List Nat)) (val : List Nat)
    (hcl : cl < 2 ^ 31) (hsize : 0 < size) (heven : size % 2 = 0) (hwf : WellFormed size arr)
    (hval : val.length = size ∧ ∀ b ∈ val, b < 256)
    (hlen : arr.length = n)
    (hn : (n + sweepStep cl size - 1) / sweepStep cl size * sweepStep cl size < 2 ^ 31)
    (hi : i < n) :
    sweepStep cl size = max 1 (cl / size) ∧
    (∃ r, ObliviousArrayAccessTraced cl size arr i n
      = some (r, 0 :: sweepPositions (sweepStep cl size) i n)) ∧
    (∃ out, ObliviousArrayAssignTraced cl size arr i n val
      = some (out, sweepPositions (sweepStep cl size) i n) ∧
      ObliviousArrayAssign cl size arr i n val = some out) ∧
    (sweepPositions (sweepStep cl size) i n).length
      = (n + sweepStep cl size - 1) / sweepStep cl size ∧
    (∀ p ∈ sweepPositions (sweepStep cl size) i n, p < n) ∧
    (sweepPositions (sweepStep cl size) i n).map (· / sweepStep cl size)
      = List.range ((n + sweepStep cl size - 1) / sweepStep cl size) := by
  obtain ⟨hst, hst2⟩ := sweepStep_bounds cl size hcl hsize
  obtain ⟨ai, -, hacc⟩ :=
    ObliviousArrayAccessTraced_positions cl size n i arr hcl hsize heven hwf hlen hn hi
  obtain ⟨hasg, hasg2⟩ :=
    ObliviousArrayAssignTraced_positions cl size n i arr val hcl hsize heven hwf hval hlen hn hi
  obtain ⟨g1, g2, g3⟩ := sweepPositions_groups (sweepStep cl size) i n hst hi
  exact ⟨sweepStep_eq_max cl size hcl hsize, ⟨ai, hacc⟩, ⟨arr.set i val, hasg, hasg2⟩,
    g1, g2, g3⟩

/-- Witness for C18 (amended): five 16-byte elements with a 64-byte cache line (`step` = 4),
index 2: the sweep accesses elements 2 and 4. -/
theorem sweep_positions_witness :
    sweepStep 64 16 = max 1 (64 / 16) ∧
    (∃ r, ObliviousArrayAccessTraced 64 16 (List.replicate 5 (List.replicate 16 0)) 2 5
      = some (r, 0 :: sweepPositions (sweepStep 64 16) 2 5)) ∧
    (∃ out, ObliviousArrayAssignTraced 64 16 (List.replicate 5 (List.replicate 16 0)) 2 5
        (List.replicate 16 1)
      = some (out, sweepPositions (sweepStep 64 16) 2 5) ∧
      ObliviousArrayAssign 64 16 (List.replicate 5 (List.replicate 16 0)) 2 5
        (List.replicate 16 1) = some out) ∧
    (sweepPositions (sweepStep 64 16) 2 5).length = (5 + sweepStep 64 16 - 1) / sweepStep 64 16 ∧
    (∀ p ∈ sweepPositions (sweepStep 64 16) 2 5, p < 5) ∧
    (sweepPositions (sweepStep 64 16) 2 5).map (· / sweepStep 64 16)
      = List.range ((5 + sweepStep 64 16 - 1) / sweepStep 64 16) :=
  sweep_positions 64 16 5 2 (List.replicate 5 (List.replicate 16 0)) (List.replicate 16 1)
    (by decide) (by decide) (by decide) (by simp [WellFormed]) (by simp) (by simp) (by decide)
    (by decide)

theorem sweepPositions_example :
    sweepPositions (sweepStep 64 16) 2 5 = [2, 4] ∧ sweepPositions (sweepStep 64 16) 4 5 = [0, 4] ∧
    sweepPositions (sweepStep 64 16) 1 9 = [1, 4, 8] := by
  decide

/-- C18 as stated fails for one-byte elements: in the first iteration of either sweep
`ObliviousChoose` (documented as supporting types of size > 1 byte) makes a 16-bit access on
1-byte objects, so the sweep of a one-element `char` array is undefined. -/
theorem sweep_one_byte :
    ObliviousArrayAccessTraced 64 1 [[7]] 0 1 = none ∧
    ObliviousArrayAssignTraced 64 1 [[7]] 0 1 [9] = none ∧
    ¬ (∃ r, ObliviousArrayAccessTraced 64 1 [[7]] 0 1
      = some (r, 0 :: sweepPositions (sweepStep 64 1) 0 1)) := by
  refine ⟨by decide, by decide, ?_⟩
  rintro ⟨r, hr⟩
  have h : ObliviousArrayAccessTraced 64 1 [[7]] 0 1 = none := by decide
  rw [h] at hr
  exact Option.noConfusion hr

/-! ## Independence of the cache lines of the access sweep from the index -/

theorem sweepPositions_map_iff {β : Type} (st n : Nat) (L : Nat → β) (hst : 0 < st) :
    (∀ i i2, i < n → i2 < n → (sweepPositions st i n).map L = (sweepPositions st i2 n).map L) ↔
      ∀ p, p < n → L p = L (p / st * st) := by
  constructor
  · intro H p hp
    have hle : p / st * st ≤ p := Nat.div_mul_le_self p st
    have h := H p (p / st * st) hp (by omega)
    unfold sweepPositions at h
    rw [List.map_map, List.map_map] at h
    have hmem : p / st ∈ List.range ((n + st - 1) / st) :=
      List.mem_range.mpr ((sweep_count st n (p / st) hst).mpr (by omega))
    have := List.map_inj_left.mp h (p / st) hmem
    simpa [Nat.mul_div_cancel _ hst] using this
  · intro H
    have key : ∀ i, i < n → (sweepPositions st i n).map L
        = (List.range ((n + st - 1) / st)).map (fun t => L (t * st)) := by
      intro i hi
      unfold sweepPositions
      rw [List.map_map]
      apply List.map_congr_left
      intro t _
      simp only [Function.comp]
      split_ifs with h
      · rw [h]; exact H i hi
      · rfl
    intro i i2 hi hi2
    rw [key i hi, key i2 hi2]

theorem accessLineTrace_eq (cl base size n i : Nat) (arr : List (List Nat))
    (hcl : cl < 2 ^ 31) (hsize : 0 < size) (heven : size % 2 = 0) (hwf : WellFormed size arr)
    (hlen : arr.length = n)
    (hn : (n + sweepStep cl size - 1) / sweepStep cl size * sweepStep cl size < 2 ^ 31)
    (hi : i < n) :
    accessLineTrace cl base size arr i n
      = some (linesOf cl base size 0
          :: (sweepPositions (sweepStep cl size) i n).map (linesOf cl base size)) := by
  obtain ⟨ai, -, h⟩ :=
    ObliviousArrayAccessTraced_positions cl size n i arr hcl hsize heven hwf hlen hn hi
  simp only [accessLineTrace, h, Option.map_some', List.map_cons]

/-- C10 (amended): for every base address, every even element size `s` and every `N` for which
the `int` counter of the sweep does not overflow, the sequence of cache-line sets touched by
`ObliviousArrayAccess(arr, i, N)` is defined for every index, and it is the same for every two
indices `i`, `i2` in `[0, N)` exactly when every element `arr[p]`, `p < N`, lies in the same
cache lines as the first element of its group of `step` elements.  That is the case whenever
`step = 1` (`CACHE_LINE_SIZE < 2 * s`, any base) and whenever `s` divides the cache line and
the base is a multiple of the cache line. -/
theorem access_lines_independent (cl base size n : Nat) (arr : List (List Nat))
    (hcl : cl < 2 ^ 31) (hsize : 0 < size) (heven : size % 2 = 0) (hwf : WellFormed size arr)
    (hlen : arr.length = n)
    (hn : (n + sweepStep cl size - 1) / sweepStep cl size * sweepStep cl size < 2 ^ 31) :
    (∀ i, i < n → (accessLineTrace cl base size arr i n).isSome) ∧
    ((∀ i i2, i < n → i2 < n →
        accessLineTrace cl base size arr i n = accessLineTrace cl base size arr i2 n) ↔
      ∀ p, p < n → linesOf cl base size p
        = linesOf cl base size (p / sweepStep cl size * sweepStep cl size)) ∧
    (cl < 2 * size ∨ (size ∣ cl ∧ cl ∣ base) → ∀ i i2, i < n → i2 < n →
      accessLineTrace cl base size arr i n = accessLineTrace cl base size arr i2 n) := by
  obtain ⟨hst, -⟩ := sweepStep_bounds cl size hcl hsize
  have heq := fun i hi =>
    accessLineTrace_eq cl base size n i arr hcl hsize heven hwf hlen hn hi
  have hiff : (∀ i i2, i < n → i2 < n →
        accessLineTrace cl base size arr i n = accessLineTrace cl base size arr i2 n) ↔
      ∀ p, p < n → linesOf cl base size p
        = linesOf cl base size (p / sweepStep cl size * sweepStep cl size) := by
    rw [← sweepPositions_map_iff (sweepStep cl size) n (linesOf cl base size) hst]
    constructor
    · intro H i i2 hi hi2
      have := H i i2 hi hi2
      rw [heq i hi, heq i2 hi2] at this
      exact (List.cons.inj (Option.some.inj this)).2
    · intro H i i2 hi hi2
      rw [heq i hi, heq i2 hi2, H i i2 hi hi2]
  refine ⟨?_, hiff, ?_⟩
  · intro i hi
    rw [heq i hi]; rfl
  · intro halign
    apply hiff.mpr
    intro p _
    exact linesOf_group_head cl base size (sweepStep cl size) p
      (sweepStep_cases cl base size hsize hcl halign)

/-- Witness for C10 (amended): 16-byte elements on a 64-byte line, aligned base, an 8-element
array. -/
theorem access_lines_independent_witness :
    (∀ i, i < 8 →
      (accessLineTrace 64 128 16 (List.replicate 8 (List.replicate 16 0)) i 8).isSome) ∧
    ((∀ i i2, i < 8 → i2 < 8 →
        accessLineTrace 64 128 16 (List.replicate 8 (List.replicate 16 0)) i 8
          = accessLineTrace 64 128 16 (List.replicate 8 (List.replicate 16 0)) i2 8) ↔
      ∀ p, p < 8 → linesOf 64 128 16 p
        = linesOf 64 128 16 (p / sweepStep 64 16 * sweepStep 64 16)) ∧
    (64 < 2 * 16 ∨ (16 ∣ 64 ∧ 64 ∣ 128) → ∀ i i2, i < 8 → i2 < 8 →
      accessLineTrace 64 128 16 (List.replicate 8 (List.replicate 16 0)) i 8
        = accessLineTrace 64 128 16 (List.replicate 8 (List.replicate 16 0)) i2 8) :=
  access_lines_independent 64 128 16 8 (List.replicate 8 (List.replicate 16 0))
    (by decide) (by decide) (by decide) (by simp [WellFormed]) rfl (by decide)

/-- C10 as stated fails: with 24-byte elements (base 0, 64-byte lines) index 2 makes the
sweep read an element spanning lines 0 and 1 while index 3 reads one inside line 1; and
with 8-byte elements at the unaligned base 4, index 0 touches line 0 only while index 7
touches lines 0 and 1. -/
theorem access_lines_differ :
    accessLineTrace 64 0 24 (List.replicate 4 (List.replicate 24 0)) 2 4
      ≠ accessLineTrace 64 0 24 (List.replicate 4 (List.replicate 24 0)) 3 4 ∧
    accessLineTrace 64 4 8 (List.replicate 8 (List.replicate 8 0)) 0 8
      ≠ accessLineTrace 64 4 8 (List.replicate 8 (List.replicate 8 0)) 7 8 := by
  decide

/-- Sizes that do not divide the cache line and unaligned bases for which the lines touched
do not depend on the index: 48-byte elements at base 4 (stride 1), and two 24-byte elements at
base 0 (both inside line 0). -/
theorem access_lines_examples :
    accessLineTrace 64 4 48 (List.replicate 3 (List.replicate 48 0)) 0 3
      = accessLineTrace 64 4 48 (List.replicate 3 (List.replicate 48 0)) 2 3 ∧
    accessLineTrace 64 0 24 (List.replicate 2 (List.replicate 24 0)) 0 2
      = accessLineTrace 64 0 24 (List.replicate 2 (List.replicate 24 0)) 1 2 := by
  decide

/-! ## `greatest_power_of_two_less_than` and the termination of `o_sort` -/

/-- C21: for `2 <= n <= 2^31`, `greatest_power_of_two_less_than(n)` returns (its loop exits
within 33 tests) a power of two `m = 2^q` with `m < n <= 2 * m`, the greatest power of two
below `n`; for a power of two `n` it is `n / 2`, and the test `m * 2 == len` of `o_sort`
(in `uint32_t`) holds exactly when `n` is a power of two. -/
theorem greatest_power_of_two_less_than_correct (fuel n : Nat) (h2 : 2 ≤ n) (hn : n ≤ 2 ^ 31)
    (hfuel : 32 < fuel) :
    ∃ q, greatest_power_of_two_less_than fuel n = some (2 ^ q) ∧
      2 ^ q < n ∧ n ≤ 2 * 2 ^ q ∧
      (∀ p, 2 ^ p < n → 2 ^ p ≤ 2 ^ q) ∧
      (∀ p, n = 2 ^ p → 2 ^ q = n / 2) ∧
      ((2 ^ q * 2) % 2 ^ 32 = n ↔ ∃ p, n = 2 ^ p) := by
  obtain ⟨h1, h3⟩ := log2_pred_bounds n (by omega)
  generalize Nat.log2 (n - 1) = q at h1 h3
  have hpow : 2 ^ (q + 1) = 2 * 2 ^ q := by rw [pow_succ]; ring
  have hq : q ≤ 30 := by
    by_contra hcon
    have : 2 ^ 31 ≤ 2 ^ q := Nat.pow_le_pow_right (by decide) (by omega)
    omega
  have hexp : ∀ p, n = 2 ^ p → p = q + 1 := by
    intro p hp
    rw [hp] at h1 h3
    have a1 : q < p := (Nat.pow_lt_pow_iff_right (by decide)).mp h1
    have a2 : p ≤ q + 1 := (Nat.pow_le_pow_iff_right (by decide)).mp h3
    omega
  refine ⟨q, greatest_power_of_two_less_than_eq fuel n q hq h1 h3 hfuel, h1, by omega, ?_, ?_, ?_⟩
  · intro p hp
    have hlt : 2 ^ p < 2 ^ (q + 1) := lt_of_lt_of_le hp h3
    have : p < q + 1 := (Nat.pow_lt_pow_iff_right (by decide)).mp hlt
    exact Nat.pow_le_pow_right (by decide) (by omega)
  · intro p hp
    have := hexp p hp
    subst this
    rw [hp, hpow]
    omega
  · have hmod : (2 ^ q * 2) % 2 ^ 32 = 2 * 2 ^ q := by
      rw [mul_comm]; exact Nat.mod_eq_of_lt (by omega)
    rw [hmod]
    constructor
    · intro h; exact ⟨q + 1, by rw [hpow, h]⟩
    · rintro ⟨p, hp⟩
      have := hexp p hp
      subst this
      rw [hp, hpow]

/-- Witness for C21: `n = 12`, whose greatest power of two below is 8. -/
theorem greatest_power_of_two_less_than_correct_witness :
    ∃ q, greatest_power_of_two_less_than 40 12 = some (2 ^ q) ∧
      2 ^ q < 12 ∧ 12 ≤ 2 * 2 ^ q ∧
      (∀ p, 2 ^ p < 12 → 2 ^ p ≤ 2 ^ q) ∧
      (∀ p, 12 = 2 ^ p → 2 ^ q = 12 / 2) ∧
      ((2 ^ q * 2) % 2 ^ 32 = 12 ↔ ∃ p, 12 = 2 ^ p) :=
  greatest_power_of_two_less_than_correct 40 12 (by decide) (by decide) (by decide)

theorem greatest_power_of_two_less_than_examples :
    greatest_power_of_two_less_than 40 2 = some 1 ∧
    greatest_power_of_two_less_than 40 12 = some 8 ∧
    greatest_power_of_two_less_than 40 16 = some 8 ∧
    greatest_power_of_two_less_than 40 (2 ^ 31) = some (2 ^ 30) := by
  decide

/-- A loop whose test holds at every counter it reaches never exits, whatever its body does:
no amount of fuel gives a result. -/
theorem forLoop_diverges {σ : Type} (cond : Nat → Bool) (next : Nat → Nat)
    (body : Nat → σ → Option σ) (P : Nat → Prop)
    (hP : ∀ c, P c → cond c = true ∧ P (next c)) :
    ∀ (fuel c : Nat) (s : σ), P c → forLoop cond next body fuel c s = none := by
  intro fuel
  induction fuel with
  | zero => intro c s _; rfl
  | succ f ih =>
    intro c s hc
    obtain ⟨h1, h2⟩ := hP c hc
    rw [forLoop, if_pos h1]
    cases body c s with
    | none => rfl
    | some s1 => exact ih (next c) s1 h2

theorem whileCounter_diverges (cond : Nat → Bool) (next : Nat → Nat) (P : Nat → Prop)
    (hP : ∀ c, P c → cond c = true ∧ P (next c)) :
    ∀ (fuel c : Nat), P c → whileCounter cond next fuel c = none := by
  intro fuel
  induction fuel with
  | zero => intro c _; rfl
  | succ f ih =>
    intro c hc
    obtain ⟨h1, h2⟩ := hP c hc
    rw [whileCounter, if_pos h1]
    exact ih (next c) h2

theorem StuckCounter_step (k : Nat) (h : StuckCounter k) :
    decide (k ≤ 2 ^ 31) = true ∧ StuckCounter ((2 * k) % 2 ^ 32) := by
  rcases h with rfl | ⟨c, hc, rfl⟩
  · exact ⟨by decide, Or.inl rfl⟩
  · refine ⟨decide_eq_true (Nat.pow_le_pow_right (by decide) hc), ?_⟩
    by_cases h31 : c = 31
    · subst h31; left; decide
    · right
      refine ⟨c + 1, by omega, ?_⟩
      rw [← pow_succ']
      exact Nat.mod_eq_of_lt (Nat.pow_lt_pow_right (by decide : 1 < 2) (by omega : c + 1 < 32))

theorem imperative_o_sort_gen_stuck {α : Type} (greater : α → α → Bool)
    (choose : Bool → α → α → Option α) (fuel : Nat) (arr : List α) (base : Nat) (asc : Bool) :
    imperative_o_sort_gen greater choose fuel arr base (2 ^ 31) asc = none := by
  unfold imperative_o_sort_gen
  exact forLoop_diverges _ _ _ StuckCounter StuckCounter_step fuel 2 arr
    (Or.inr ⟨1, by decide, rfl⟩)

theorem whileCounter_fuel (cond : Nat → Bool) (next : Nat → Nat) :
    ∀ (fuel d c r : Nat), whileCounter cond next fuel c = some r →
      whileCounter cond next (fuel + d) c = some r := by
  intro fuel
  induction fuel with
  | zero => intro d c r h; simp [whileCounter] at h
  | succ f ih =>
    intro d c r h
    rw [show f + 1 + d = (f + d) + 1 by omega]
    rw [whileCounter] at h ⊢
    by_cases hc : cond c = true
    · rw [if_pos hc] at h ⊢
      exact ih d (next c) r h
    · rw [if_neg hc] at h ⊢
      exact h

theorem o_sort_gen_stuck {α : Type} (greater : α → α → Bool)
    (choose : Bool → α → α → Option α) (fuel depth : Nat) (arr : List α) (low : Nat)
    (asc : Bool) :
    o_sort_gen greater choose fuel depth arr low (2 ^ 31) asc = none := by
  cases depth with
  | zero => rfl
  | succ d =>
    rw [o_sort_gen, if_pos (by decide)]
    cases hm : greatest_power_of_two_less_than fuel (2 ^ 31) with
    | none => rfl
    | some m =>
      have hm' : m = 2 ^ 30 := by
        unfold greatest_power_of_two_less_than at hm
        cases hw : whileCounter (fun k => decide (k < 2 ^ 31)) (fun k => (k <<< 1) % 2 ^ 32)
            fuel 1 with
        | none => rw [hw] at hm; exact Option.noConfusion hm
        | some r =>
          have h1 := whileCounter_fuel _ _ fuel 40 1 r hw
          have h2 := gpot_loop (2 ^ 31) 30 (le_refl _) (by decide) (by decide) 31 0 (fuel + 40)
            (by omega) (by omega)
          rw [pow_zero, h1] at h2
          rw [hw] at hm
          simp only [Option.map_some', Option.some.injEq] at hm h2
          rw [← hm, h2]
          decide
      subst hm'
      simp only [Option.bind_eq_bind, Option.some_bind]
      rw [if_pos (by decide)]
      exact imperative_o_sort_gen_stuck greater choose fuel arr low asc

/-- C22: for `len = 2^31` the call does not return.  `greatest_power_of_two_less_than(2^31)`
is `2^30`, so `o_sort` calls `imperative_o_sort(arr + low, 2^31, ascending)`, whose loop
`for (k = 2; k <= n; k = 2 * k)` never exits: every counter reached from 2 satisfies
`k <= 2^31` (after `k = 2^31` the `uint32_t` product `2 * k` is 0, and 0 stays 0).  No amount
of fuel makes the loop or `ObliviousSort` return, whatever the array. -/
theorem o_sort_stuck_at_two_pow_31 :
    greatest_power_of_two_less_than 40 (2 ^ 31) = some (2 ^ 30) ∧
    (2 ^ 30 * 2) % 2 ^ 32 = 2 ^ 31 ∧
    (∀ t, decide ((fun k => (2 * k) % 2 ^ 32)^[t] 2 ≤ 2 ^ 31) = true) ∧
    (fun k => (2 * k) % 2 ^ 32)^[31] 2 = 0 ∧
    (∀ fuel, whileCounter (fun k => decide (k ≤ 2 ^ 31)) (fun k => (2 * k) % 2 ^ 32) fuel 2
      = none) ∧
    (∀ (w fuel : Nat) (arr : List Nat) (low : Nat) (asc : Bool),
      ObliviousSort w fuel arr low (2 ^ 31) asc = none) := by
  have hreach : ∀ t, StuckCounter ((fun k => (2 * k) % 2 ^ 32)^[t] 2) := by
    intro t
    induction t with
    | zero => exact Or.inr ⟨1, by decide, rfl⟩
    | succ n ih =>
      rw [Function.iterate_succ_apply']
      exact (StuckCounter_step _ ih).2
  refine ⟨by decide, by decide, fun t => (StuckCounter_step _ (hreach t)).1, by decide, ?_, ?_⟩
  · intro fuel
    exact whileCounter_diverges _ _ StuckCounter StuckCounter_step fuel 2
      (Or.inr ⟨1, by decide, rfl⟩)
  · intro w fuel arr low asc
    exact o_sort_gen_stuck _ _ fuel fuel arr low asc

/-- For `2 <= len <= 2^31` the recursive call of `o_sort` is on `len - m` elements with
`1 <= m < len`: the recursion is well-founded on `len`. -/
theorem o_sort_recursion_decreases (fuel len m : Nat) (h2 : 2 ≤ len) (hn : len ≤ 2 ^ 31)
    (hfuel : 32 < fuel) (hm : greatest_power_of_two_less_than fuel len = some m) :
    1 ≤ m ∧ m < len ∧ (len + (2 ^ 32 - m)) % 2 ^ 32 = len - m ∧ len - m < len := by
  obtain ⟨h1, h3⟩ := log2_pred_bounds len (by omega)
  have hq : Nat.log2 (len - 1) ≤ 30 := by
    by_contra hcon
    have : 2 ^ 31 ≤ 2 ^ Nat.log2 (len - 1) := Nat.pow_le_pow_right (by decide) (by omega)
    omega
  rw [greatest_power_of_two_less_than_eq fuel len _ hq h1 h3 hfuel] at hm
  have hm' : m = 2 ^ Nat.log2 (len - 1) := (Option.some.inj hm).symm
  have hpos : 0 < 2 ^ Nat.log2 (len - 1) := by positivity
  rw [hm']
  generalize 2 ^ Nat.log2 (len - 1) = M at *
  refine ⟨hpos, h1, ?_, by omega⟩
  omega

/-- For `n > 2^31` the loop of `greatest_power_of_two_less_than(n)` never exits: after
`k = 2^31` the shift wraps to 0. -/
theorem greatest_power_of_two_less_than_stuck (fuel n : Nat) (hn : 2 ^ 31 < n) :
    greatest_power_of_two_less_than fuel n = none := by
  unfold greatest_power_of_two_less_than
  rw [whileCounter_diverges _ _ StuckCounter ?_ fuel 1 (Or.inr ⟨0, by decide, rfl⟩)]
  · rfl
  · intro c hc
    have h1 := StuckCounter_step c hc
    have hle : c ≤ 2 ^ 31 := of_decide_eq_true h1.1
    refine ⟨decide_eq_true (by omega), ?_⟩
    have : c <<< 1 = 2 * c := by rw [Nat.shiftLeft_eq, pow_one, mul_comm]
    rw [this]
    exact h1.2

end Obl
